import Mathlib

/-! BoltRRD: a round-robin time-series store over an ordered key-value engine.

A shallow embedding of `boltrrd.go`.  The key-value engine (bolt) is modelled at
its interface: a container is the list of its entries in key order (lexicographic
on raw bytes), a cursor walks that list.  Library functions the package calls but
does not define (`fmt.Sprint` and `strconv.ParseFloat` on `float64`, float
arithmetic, `encoding/json`, `time.Format`) are the fields of `Lib`.
-/

namespace BoltRRD

/-! ## Byte strings and decimal keys -/

/-- A Go byte string (`[]byte` or `string`): the sequence of its bytes. -/
abbrev Bytes := List Nat

/-- The bytes of an ASCII text. -/
def str (s : String) : Bytes := s.toList.map Char.toNat

/-- The package variable `delimiter`, the byte `|`. -/
def delimiter : Nat := 124

/-- The reserved key of the descriptor entry, `[]byte("INFO")`. -/
def INFO : Bytes := [73, 78, 70, 79]

/-- The function `bytes.Compare`: lexicographic order on raw bytes, which is also the key
order of the engine. -/
def bytesCompare : Bytes → Bytes → Ordering
  | [], [] => Ordering.eq
  | [], _ :: _ => Ordering.lt
  | _ :: _, [] => Ordering.gt
  | a :: as, b :: bs =>
    if a < b then Ordering.lt else if b < a then Ordering.gt else bytesCompare as bs

/-- The test `bytes.Compare(a, b) <= 0`. -/
def bytesLe (a b : Bytes) : Bool :=
  match bytesCompare a b with
  | Ordering.gt => false
  | _ => true

/-- The test `bytes.Compare(a, b) < 0`. -/
def bytesLt (a b : Bytes) : Bool :=
  match bytesCompare a b with
  | Ordering.lt => true
  | _ => false

/-- Decimal digits of a natural number as ASCII bytes, most significant first;
`fuel` bounds the number of digits produced. -/
def natDigits : Nat → Nat → Bytes
  | 0, _ => []
  | fuel + 1, n => if n < 10 then [48 + n] else natDigits fuel (n / 10) ++ [48 + n % 10]

/-- Decimal text of a natural number. -/
def fmtNat (n : Nat) : Bytes := natDigits (n + 1) n

/-- The call `fmt.Sprint(v)` for an `int64`: decimal text with a leading `-` for negatives.
This is also `toBolt` of `getRange`. -/
def fmtInt (v : Int) : Bytes :=
  if v < 0 then 45 :: fmtNat v.natAbs else fmtNat v.natAbs

/-- Two's-complement wrap-around of 64-bit signed arithmetic. -/
def wrap64 (x : Int) : Int := (x + 2 ^ 63) % 2 ^ 64 - 2 ^ 63

/-- The function `strings.Join(fields, sep)` for a one-byte separator. -/
def stringsJoin (sep : Nat) : List Bytes → Bytes
  | [] => []
  | [x] => x
  | x :: y :: rest => x ++ sep :: stringsJoin sep (y :: rest)

/-- The function `strings.Split(source, sep)` for a one-byte separator: always at least
one field. -/
def stringsSplit (sep : Nat) : Bytes → List Bytes
  | [] => [[]]
  | b :: bs =>
    if b = sep then [] :: stringsSplit sep bs
    else
      match stringsSplit sep bs with
      | f :: fs => (b :: f) :: fs
      | [] => [[b]]

/-! ## The key-value engine -/

/-- A container of the engine: its entries in key order. -/
abbrev Container := List (Bytes × Bytes)

/-- The persisted state: the top-level containers by name, in key order. -/
abbrev DB := List (Bytes × Container)

/-- The engine's `Bucket.Put`: insert under the key, or overwrite the entry that has it. -/
def put {V : Type} (k : Bytes) (v : V) : List (Bytes × V) → List (Bytes × V)
  | [] => [(k, v)]
  | e :: rest =>
    match bytesCompare k e.1 with
    | Ordering.lt => (k, v) :: e :: rest
    | Ordering.eq => (k, v) :: rest
    | Ordering.gt => e :: put k v rest

/-- The engine's `Bucket.Get` (and `Tx.Bucket` on the top level): the value under a key. -/
def get {V : Type} (k : Bytes) : List (Bytes × V) → Option V
  | [] => none
  | e :: rest => if e.1 = k then some e.2 else get k rest

/-- A cursor positioned by `Seek(key)`: the entries before the position (`before`) and
from the position on (`after`); the cursor stands on the head of `after`. -/
def seekSplit (c : Container) (key : Bytes) : Container × Container :=
  (c.takeWhile (fun e => bytesLt e.1 key), c.dropWhile (fun e => bytesLt e.1 key))

/-- The entry returned by `Cursor.Seek(key)`: the first entry whose key is `≥ key`. -/
def seek (c : Container) (key : Bytes) : Option (Bytes × Bytes) := (seekSplit c key).2.head?

/-- The entry returned by `Cursor.Prev()` right after `Seek(key)`: the predecessor of the
position; after a seek past the end this is the last entry. -/
def seekPrev (c : Container) (key : Bytes) : Option (Bytes × Bytes) :=
  (seekSplit c key).1.getLast?

/-! ## Data model -/

/-- The error values of the package by kind (message text and wrapped cause left out).
`Other` is an error that is none of the package's kinds (an engine error, `errors.New`);
`Runtime` is the value of a run-time panic (index out of range, nil dereference). -/
inductive Error
  | ConnectionError
  | DataError
  | ParamsError
  | Other
  | Runtime
  deriving DecidableEq, Repr

/-- The descriptor of a bucket, stored under the key `INFO`. -/
structure info where
  Step : Int
  Capacity : Int
  Ds : List Bytes
  deriving DecidableEq, Repr

/-- A bucket handle. `stor` tells whether the back-reference to the store is set. -/
structure RRDBucket where
  stor : Bool
  bucketName : Bytes
  inf : Option info
  deriving DecidableEq, Repr

/-- The store: `db` is the open connection with the persisted state behind it
(`none` for a nil connection), `rrd` the map from names to handles. -/
structure Storage where
  db : Option DB
  dbpath : Bytes
  rrd : List (Bytes × RRDBucket)
  deriving DecidableEq, Repr

/-- A `time.Time`: `sec` is `Unix()`, `nsec` the nanoseconds within the second. -/
structure Time where
  sec : Int
  nsec : Nat
  deriving DecidableEq, Repr

/-- The method `t.Before(u)`. -/
def Time.Before (t u : Time) : Bool :=
  decide (t.sec < u.sec) || (decide (t.sec = u.sec) && decide (t.nsec < u.nsec))

/-- One series of a result. -/
structure Dataset (F : Type) where
  Label : Bytes
  Data : List F
  deriving DecidableEq, Repr

/-- The result of a query. -/
structure Stat (F : Type) where
  Labels : List Bytes
  Datasets : List (Dataset F)
  deriving DecidableEq, Repr

/-- The library functions the package calls, over a carrier `F` for `float64`:
`zero` is the zero value, `add` is `+`, `divLen x n` is `x / float64(n)`, `sprint` is
`fmt.Sprint`, `parseFloat` is `strconv.ParseFloat(_, 64)` (`none` for an error),
`marshal` and `unmarshal` are `json.Marshal` and `json.Unmarshal` on `info`,
`stamp x` is `time.Unix(x, 0).Format(time.Stamp)`. -/
structure Lib (F : Type) where
  zero : F
  add : F → F → F
  divLen : F → Nat → F
  sprint : F → Bytes
  parseFloat : Bytes → Option F
  marshal : info → Bytes
  unmarshal : Bytes → Option info
  stamp : Int → Bytes

/-! ## Bucket store -/

/-- The callback of `load` on one container: read and validate its descriptor. -/
def loadOne {F : Type} (L : Lib F) (name : Bytes) (b : Container) : Except Error RRDBucket :=
  match get INFO b with
  | none => Except.error Error.Other
  | some v =>
    if v.length < 1 then Except.error Error.Other
    else
      match L.unmarshal v with
      | none => Except.error Error.Other
      | some i =>
        if i.Capacity < 1 ∨ i.Step < 1 ∨ i.Ds.length < 1 then Except.error Error.Other
        else Except.ok ⟨true, name, some i⟩

/-- The scan `tx.ForEach` of `load`: containers in key order, stopping at the first
error; the handles registered before the error stay in the map. -/
def loadLoop {F : Type} (L : Lib F) :
    DB → List (Bytes × RRDBucket) → List (Bytes × RRDBucket) × Option Error
  | [], m => (m, none)
  | (name, b) :: rest, m =>
    match loadOne L name b with
    | Except.error e => (m, some e)
    | Except.ok h => loadLoop L rest (put name h m)

/-- The method `Storage.load`. -/
def Storage.load {F : Type} (L : Lib F) (s : Storage) : Storage × Option Error :=
  match s.db with
  | none => (s, some Error.ConnectionError)
  | some db =>
    match loadLoop L db s.rrd with
    | (m, some _) => ({ s with rrd := m }, some Error.DataError)
    | (m, none) => ({ s with rrd := m }, none)

/-- The function `NewStorage`. `disk path` is what `bolt.Open` finds at the path: `none`
when the file cannot be opened, the persisted containers otherwise. -/
def NewStorage {F : Type} (L : Lib F) (disk : Bytes → Option DB) (dbpath : Bytes) :
    Option Storage × Option Error :=
  match disk dbpath with
  | none => (none, some Error.ConnectionError)
  | some db =>
    match Storage.load L { db := some db, dbpath := dbpath, rrd := [] } with
    | (_, some e) => (none, some e)
    | (stor, none) => (some stor, none)

/-- The method `Storage.Close`. -/
def Storage.Close (s : Storage) : Option Error :=
  match s.db with
  | none => some Error.ConnectionError
  | some _ => none

/-- The method `RRDBucket.init`: one read-write transaction that creates the container
and puts the descriptor; `CreateBucket` fails on an empty or an existing name, and a
failed transaction changes nothing. -/
def RRDBucket.init {F : Type} (L : Lib F) (s : Storage) (name : Bytes) (inf : info) :
    Storage × Option Error :=
  match s.db with
  | none => (s, some Error.ConnectionError)
  | some db =>
    if name.length = 0 then (s, some Error.Other)
    else
      match get name db with
      | some _ => (s, some Error.Other)
      | none => ({ s with db := some (put name (put INFO (L.marshal inf) []) db) }, none)

/-- The method `Storage.NewRRD`: the new store state, the handle and the error. -/
def Storage.NewRRD {F : Type} (L : Lib F) (s : Storage) (name : Bytes) (step capacity : Int)
    (DSs : List Bytes) : Storage × Option RRDBucket × Option Error :=
  match s.db with
  | none => (s, none, some Error.ConnectionError)
  | some _ =>
    if step < 1 then (s, none, some Error.ParamsError)
    else if capacity < 1 then (s, none, some Error.ParamsError)
    else if DSs.length < 1 then (s, none, some Error.ParamsError)
    else
      let inf : info := { Step := step, Capacity := capacity, Ds := DSs }
      match RRDBucket.init L s name inf with
      | (s1, some _) => (s1, none, some Error.ParamsError)
      | (s1, none) =>
        let rrd : RRDBucket := ⟨true, name, some inf⟩
        ({ s1 with rrd := put name rrd s1.rrd }, some rrd, none)

/-- The method `Storage.RRD`. -/
def Storage.RRD (s : Storage) (name : Bytes) : RRDBucket :=
  match get name s.rrd with
  | some rrd => rrd
  | none => ⟨false, name, none⟩

/-- The method `Storage.ListRRD`. -/
def Storage.ListRRD (s : Storage) : List Bytes × Option Error :=
  match s.db with
  | none => ([], some Error.ConnectionError)
  | some _ => (s.rrd.map Prod.fst, none)

/-! ## Write path -/

/-- The function `formatValue`. -/
def formatValue {F : Type} (L : Lib F) (params : List F) : Bytes :=
  stringsJoin delimiter (params.map L.sprint)

/-- The transaction of `save` on the bucket's container: evict when the key count
(descriptor included) exceeds the capacity, then put the new entry. The eviction loop
runs from the first entry while the key is `≤` the cutoff key. -/
def saveTx {F : Type} (L : Lib F) (inf : info) (unix : Int) (params : List F)
    (c : Container) : Container :=
  let unixTime := fmtInt unix
  let c1 :=
    if (c.length : Int) - inf.Capacity > 0 then
      let keyToDelete := fmtInt (wrap64 (unix - wrap64 (inf.Capacity * inf.Step)))
      c.dropWhile (fun e => bytesLe e.1 keyToDelete)
    else c
  put unixTime (formatValue L params) c1

/-- The method `RRDBucket.save` (the timestamped write). The arity check returns an
`errors.New` value; a nil descriptor, a nil connection or a missing container is a
nil dereference. The store `s` stands for `*rrd.stor`: the handle is taken to carry its
back-reference, as every handle of `NewRRD`, `RRD` of a known name and `load` does. -/
def RRDBucket.save {F : Type} (L : Lib F) (s : Storage) (rrd : RRDBucket) (t : Time)
    (params : List F) : Storage × Option Error :=
  match rrd.inf with
  | none => (s, some Error.Runtime)
  | some inf =>
    if inf.Ds.length ≠ params.length then (s, some Error.Other)
    else
      match s.db with
      | none => (s, some Error.Runtime)
      | some db =>
        match get rrd.bucketName db with
        | none => (s, some Error.Runtime)
        | some c =>
          ({ s with db := some (put rrd.bucketName (saveTx L inf t.sec params c) db) }, none)

/-- The method `RRDBucket.Save`; `now` is `time.Now()`. An error value of `save` is wrapped
in a `ParamsError`; a panic of `save` is not recovered and leaves `Save` as the panic. -/
def RRDBucket.Save {F : Type} (L : Lib F) (s : Storage) (rrd : RRDBucket) (now : Time)
    (params : List F) : Storage × Option Error :=
  match rrd.inf with
  | none => (s, some Error.ParamsError)
  | some _ =>
    if rrd.stor = false then (s, some Error.Runtime)
    else
      match s.db with
      | none => (s, some Error.ConnectionError)
      | some _ =>
        if (params.length : Int) < 0 then (s, some Error.ParamsError)
        else
          match RRDBucket.save L s rrd now params with
          | (s1, some Error.Runtime) => (s1, some Error.Runtime)
          | (s1, some _) => (s1, some Error.ParamsError)
          | (s1, none) => (s1, none)

/-! ## Read path -/

/-- The loop of `splitToFloat` over the fields: a field that does not parse panics with a
`DataError`. -/
def parseFields {F : Type} (L : Lib F) : List Bytes → Except Error (List F)
  | [] => Except.ok []
  | v :: rest =>
    match L.parseFloat v with
    | none => Except.error Error.DataError
    | some parsed =>
      match parseFields L rest with
      | Except.error e => Except.error e
      | Except.ok result => Except.ok (parsed :: result)

/-- The function `splitToFloat`. -/
def splitToFloat {F : Type} (L : Lib F) (source : Bytes) : Except Error (List F) :=
  parseFields L (stringsSplit delimiter source)

/-- The values of one step handed to `splitToFloat` one after the other,
`valuesInStep = append(valuesInStep, splitToFloat(string(v)))`; the first panic ends it. -/
def splitAll {F : Type} (L : Lib F) : List Bytes → Except Error (List (List F))
  | [] => Except.ok []
  | v :: rest =>
    match splitToFloat L v with
    | Except.error e => Except.error e
    | Except.ok row =>
      match splitAll L rest with
      | Except.error e => Except.error e
      | Except.ok rows => Except.ok (row :: rows)

/-- The inner loop of `averageтInStep` on one row, `average[i] += values[i]` for `i` in
the range of `values`: an index past the end of `average` is a run-time panic. -/
def addRow {F : Type} (L : Lib F) : List F → List F → Except Error (List F)
  | average, [] => Except.ok average
  | [], _ :: _ => Except.error Error.Runtime
  | a :: average, v :: values =>
    match addRow L average values with
    | Except.error e => Except.error e
    | Except.ok rest => Except.ok (L.add a v :: rest)

/-- The rows of `source` added one after the other to `average`. -/
def addRows {F : Type} (L : Lib F) : List (List F) → List F → Except Error (List F)
  | [], average => Except.ok average
  | values :: rest, average =>
    match addRow L average values with
    | Except.error e => Except.error e
    | Except.ok average1 => addRows L rest average1

/-- The function `averageтInStep`. -/
def averageInStep {F : Type} (L : Lib F) (source : List (List F)) : Except Error (List F) :=
  match source with
  | [] => Except.error Error.Runtime
  | first :: _ =>
    if first.length < 1 then Except.error Error.DataError
    else
      match addRows L source (List.replicate first.length L.zero) with
      | Except.error e => Except.error e
      | Except.ok average => Except.ok (average.map fun a => L.divLen a source.length)

/-- The cursor loop of one window of Mode A: from `Seek(startKey)` on, entries are taken
while the key is not `INFO` and is `≤ endKey`. -/
def scanWindow (c : Container) (startKey endKey : Bytes) : Container :=
  (seekSplit c startKey).2.takeWhile fun e => decide (e.1 ≠ INFO) && bytesLe e.1 endKey

/-- The values an instant of Mode B hands to `splitToFloat`: the non-empty ones of the
predecessor and of the entry found by the seek, in this order. -/
def neighbours (prev next : Option (Bytes × Bytes)) : List Bytes :=
  (match prev with
    | some e => if e.2.length > 0 then [e.2] else []
    | none => []) ++
  (match next with
    | some e => if e.2.length > 0 then [e.2] else []
    | none => [])

/-- The loop of Mode A of `getRange` (`step >= rrd.inf.Step`) from `startInterval` on, with
the results and labels gathered so far. `none`: the loop has not ended within `fuel`
iterations; `error`: a panic. -/
def rangeA {F : Type} (L : Lib F) (c : Container) (toUnix step : Int) :
    Nat → Int → List (List F) × List Bytes → Option (Except Error (List (List F) × List Bytes))
  | 0, startInterval, acc => if startInterval < toUnix then none else some (Except.ok acc)
  | fuel + 1, startInterval, acc =>
    if startInterval < toUnix then
      let endInterval := wrap64 (startInterval + step)
      match splitAll L ((scanWindow c (fmtInt startInterval) (fmtInt endInterval)).map
          Prod.snd) with
      | Except.error e => some (Except.error e)
      | Except.ok valuesInStep =>
        if valuesInStep.length < 1 then
          rangeA L c toUnix step fuel (wrap64 (startInterval + step)) acc
        else
          match averageInStep L valuesInStep with
          | Except.error e => some (Except.error e)
          | Except.ok average =>
            rangeA L c toUnix step fuel (wrap64 (startInterval + step))
              (acc.1 ++ [average],
                acc.2 ++ [L.stamp ((wrap64 (startInterval + endInterval)).tdiv 2)])
    else some (Except.ok acc)

/-- The loop of Mode B of `getRange` (`step < rrd.inf.Step`) from the instant `cur` on. -/
def rangeB {F : Type} (L : Lib F) (c : Container) (toUnix step : Int) :
    Nat → Int → List (List F) × List Bytes → Option (Except Error (List (List F) × List Bytes))
  | 0, cur, acc => if cur < toUnix then none else some (Except.ok acc)
  | fuel + 1, cur, acc =>
    if cur < toUnix then
      let next := seek c (fmtInt cur)
      let prev := seekPrev c (fmtInt cur)
      if next.map Prod.fst = some INFO ∨ prev.map Prod.fst = some INFO then
        rangeB L c toUnix step fuel (wrap64 (cur + step)) acc
      else
        match splitAll L (neighbours prev next) with
        | Except.error e => some (Except.error e)
        | Except.ok valuesInStep =>
          if valuesInStep.length < 1 then rangeB L c toUnix step fuel (wrap64 (cur + step)) acc
          else
            match averageInStep L valuesInStep with
            | Except.error e => some (Except.error e)
            | Except.ok average =>
              rangeB L c toUnix step fuel (wrap64 (cur + step))
                (acc.1 ++ [average], acc.2 ++ [L.stamp cur])
    else some (Except.ok acc)

/-- The method `RRDBucket.getRange` on the bucket's container. -/
def getRange {F : Type} (L : Lib F) (c : Container) (inf : info) (fuel : Nat)
    (fromT toT : Time) (step : Int) : Option (Except Error (List (List F) × List Bytes)) :=
  if step ≥ inf.Step then rangeA L c toT.sec step fuel fromT.sec ([], [])
  else rangeB L c toT.sec step fuel fromT.sec ([], [])

/-- The inner loop of the assembly in `GetStats`, `v[i]` for every `v` of `values`: `none`
when an index is out of range. -/
def column {F : Type} : List (List F) → Nat → Option (List F)
  | [], _ => some []
  | v :: rest, i =>
    match v.get? i with
    | none => none
    | some x =>
      match column rest i with
      | none => none
      | some data => some (x :: data)

/-- The assembly loop of `GetStats` over the data sources from index `i` on: the datasets
built, and the panic if an index was out of range. -/
def datasetsFrom {F : Type} (values : List (List F)) :
    List Bytes → Nat → List (Dataset F) → List (Dataset F) × Option Error
  | [], _, acc => (acc, none)
  | label :: rest, i, acc =>
    match column values i with
    | none => (acc, some Error.Runtime)
    | some data => datasetsFrom values rest (i + 1) (acc ++ [⟨label, data⟩])

/-- The method `RRDBucket.GetStats`: `none` when the query loop has not ended within
`fuel` iterations, else the pair `(stat, err)` it returns. A panic of `getRange` is
recovered with `stat` still nil; a panic of the assembly is recovered with `stat`
pointing to what has been built. A handle with metadata and no back-reference is a nil
dereference ahead of the `recover`, shown as `Runtime` with no result. -/
def RRDBucket.GetStats {F : Type} (L : Lib F) (s : Storage) (rrd : RRDBucket) (fuel : Nat)
    (fromT toT : Time) (step : Int) : Option (Option (Stat F) × Option Error) :=
  match rrd.inf with
  | none => some (none, some Error.ParamsError)
  | some inf =>
    if rrd.stor = false then some (none, some Error.Runtime)
    else
      match s.db with
      | none => some (none, some Error.ConnectionError)
      | some db =>
        if toT.Before fromT then some (none, some Error.ParamsError)
        else if step < 1 then some (none, some Error.ParamsError)
        else
          match get rrd.bucketName db with
          | none => some (none, some Error.Runtime)
          | some c =>
            match getRange L c inf fuel fromT toT step with
            | none => none
            | some (Except.error e) => some (none, some e)
            | some (Except.ok (values, labels)) =>
              let (datasets, err) := datasetsFrom values inf.Ds 0 []
              some (some ⟨labels, datasets⟩, err)

/-! ## An executable instance of the library -/

/-- Decimal digits read back as a number, `none` on a byte that is no digit. -/
def parseDigits : Bytes → Nat → Option Nat
  | [], acc => some acc
  | b :: bs, acc => if 48 ≤ b ∧ b ≤ 57 then parseDigits bs (10 * acc + (b - 48)) else none

/-- A signed decimal integer read back. -/
def parseInt : Bytes → Option Int
  | [] => none
  | 45 :: rest => if rest = [] then none else (parseDigits rest 0).map fun n => -(n : Int)
  | b :: rest => (parseDigits (b :: rest) 0).map fun n => (n : Int)

/-- Text of a rational reading: the numerator, then `/` and the denominator unless it
is one. -/
def sprintRat (q : ℚ) : Bytes :=
  if q.den = 1 then fmtInt q.num else fmtInt q.num ++ 47 :: fmtNat q.den

/-- A rational reading read back from `sprintRat` text. -/
def parseRat (s : Bytes) : Option ℚ :=
  match stringsSplit 47 s with
  | [a] => (parseInt a).map fun n => (n : ℚ)
  | [a, b] =>
    match parseInt a, parseDigits b 0 with
    | some n, some d => if b = [] ∨ d = 0 then none else some ((n : ℚ) / (d : ℚ))
    | _, _ => none
  | _ => none

/-- The library over exact rational readings, for running the model: readings are
printed as fractions, a descriptor as its comma-separated fields, a label as the decimal
Unix second. -/
def ratLib : Lib ℚ where
  zero := 0
  add := fun a b => a + b
  divLen := fun a n => a / (n : ℚ)
  sprint := sprintRat
  parseFloat := parseRat
  marshal := fun i => stringsJoin 44 (fmtInt i.Step :: fmtInt i.Capacity :: i.Ds)
  unmarshal := fun s =>
    match stringsSplit 44 s with
    | a :: b :: ds =>
      match parseInt a, parseInt b with
      | some x, some y => some ⟨x, y, ds⟩
      | _, _ => none
    | _ => none
  stamp := fmtInt

/-! ## Notions used to state the properties -/

/-- Numeric value of a digit string. -/
def decVal (s : Bytes) : Nat := s.foldl (fun acc b => 10 * acc + (b - 48)) 0

/-- Every byte is a decimal digit. -/
def IsDigits (s : Bytes) : Prop := ∀ b ∈ s, 48 ≤ b ∧ b ≤ 57

/-- A container that `load` rejects: no descriptor entry, a descriptor that does not
parse, or one with a step or capacity below one or without data sources. -/
def Corrupt {F : Type} (L : Lib F) (c : Container) : Prop :=
  get INFO c = none ∨
  ∃ v, get INFO c = some v ∧
    (L.unmarshal v = none ∨
      ∃ i, L.unmarshal v = some i ∧ (i.Step < 1 ∨ i.Capacity < 1 ∨ i.Ds = []))

/-- A sequence of `NewRRD` calls, each with its name, step, capacity and data sources. -/
def createAll {F : Type} (L : Lib F) :
    Storage → List (Bytes × Int × Int × List Bytes) → Storage
  | s, [] => s
  | s, (name, step, capacity, ds) :: rest =>
    createAll L (s.NewRRD L name step capacity ds).1 rest

/-- The map of the store agrees with the persisted state: the connection is open, the
containers have distinct names, every container loads, and the handle under a name is
the one `load` reads from the container of that name. -/
def Consistent {F : Type} (L : Lib F) (s : Storage) : Prop :=
  ∃ db, s.db = some db ∧ (db.map Prod.fst).Nodup ∧
    (∀ e ∈ db, ∃ h, loadOne L e.1 e.2 = Except.ok h) ∧
    ∀ name, get name s.rrd = (get name db).bind fun c => (loadOne L name c).toOption

/-- A sequence of timestamped writes through one handle. -/
def saveAll {F : Type} (L : Lib F) (rrd : RRDBucket) :
    Storage → List (Time × List F) → Storage
  | s, [] => s
  | s, (t, params) :: rest => saveAll L rrd (rrd.save L s t params).1 rest

/-- The number of sample entries of a container, the descriptor excluded. -/
def sampleCount (c : Container) : Nat := (c.filter fun e => decide (e.1 ≠ INFO)).length

/-! ## Concrete stores for running the model -/

/-- A fresh store on an empty database. -/
def emptyStore : Storage := ⟨some [], str "test.db", []⟩

/-- The descriptor of the bucket of `Test_RRD`. -/
def testInfo : info := ⟨2, 5, [str "a", str "b"]⟩

/-- The handle of the bucket of `Test_RRD`. -/
def testBucket : RRDBucket := ⟨true, str "testing", some testInfo⟩

/-- The store of `Test_RRD` after `NewRRD("testing", 2, 5, "a", "b")`. -/
def testStore : Storage := (emptyStore.NewRRD ratLib (str "testing") 2 5 [str "a", str "b"]).1

/-- The five writes of `Test_RRD`, at the seconds 1000, 1002, ..., 1008. -/
def testWrites : List (Time × List ℚ) :=
  [(⟨1000, 0⟩, [0, 0]), (⟨1002, 0⟩, [1, 2]), (⟨1004, 0⟩, [2, 4]), (⟨1006, 0⟩, [3, 6]),
    (⟨1008, 0⟩, [4, 8])]

/-- The store of `Test_RRD` after its five writes. -/
def filledStore : Storage := saveAll ratLib testBucket testStore testWrites

/-- The entries of a container stand in strictly increasing key order. -/
def KeysSorted (c : Container) : Prop :=
  c.Pairwise fun a b => bytesCompare a.1 b.1 = Ordering.lt

/-- The bucket of `Test_RRD` after writes at the seconds 98 and 100, across a change of
the number of decimal digits. -/
def boundaryStore : Storage :=
  saveAll ratLib testBucket testStore [(⟨98, 0⟩, [0, 0]), (⟨100, 0⟩, [1, 2])]

/-- The descriptor of a bucket with step 10, capacity 1 and one data source. -/
def fastInfo : info := ⟨10, 1, [str "a"]⟩

/-- The handle of that bucket. -/
def fastBucket : RRDBucket := ⟨true, str "fast", some fastInfo⟩

/-- A store after `NewRRD("fast", 10, 1, "a")`. -/
def fastStore : Storage := (emptyStore.NewRRD ratLib (str "fast") 10 1 [str "a"]).1

/-- Three writes one second apart, faster than the step of 10 seconds. -/
def fastWrites : List (Time × List ℚ) := [(⟨5000, 0⟩, [1]), (⟨5001, 0⟩, [2]), (⟨5002, 0⟩, [3])]

/-- A store whose bucket `fast` (one data source) holds the sample `1|2` of two fields. -/
def wideStore : Storage :=
  ⟨some [(str "fast", [(fmtInt 5000, str "1|2"), (INFO, ratLib.marshal fastInfo)])],
    str "test.db", [(str "fast", fastBucket)]⟩

/-- A store whose bucket `testing` (two data sources) holds the sample `7` of one field. -/
def narrowStore : Storage :=
  ⟨some [(str "testing", [(fmtInt 1000, str "7"), (INFO, ratLib.marshal testInfo)])],
    str "test.db", [(str "testing", testBucket)]⟩

/-- A store whose bucket `testing` holds the sample `7|x`, whose second field is no
number. -/
def badStore : Storage :=
  ⟨some [(str "testing", [(fmtInt 1000, str "7|x"), (INFO, ratLib.marshal testInfo)])],
    str "test.db", [(str "testing", testBucket)]⟩

/-- The values the windows of a Mode A query scan, window by window, when no window
panics: `none` when the loop has not ended within `fuel` iterations. -/
def scannedA (c : Container) (toUnix step : Int) : Nat → Int → Option (List (List Bytes))
  | 0, startInterval => if startInterval < toUnix then none else some []
  | fuel + 1, startInterval =>
    if startInterval < toUnix then
      (scannedA c toUnix step fuel (wrap64 (startInterval + step))).map fun rest =>
        (scanWindow c (fmtInt startInterval) (fmtInt (wrap64 (startInterval + step)))).map
          Prod.snd :: rest
    else some []

/-- The values the instants of a Mode B query hand to `splitToFloat`, instant by instant,
when no instant panics: none at an instant next to the descriptor, else the non-empty
ones of the two neighbours. -/
def scannedB (c : Container) (toUnix step : Int) : Nat → Int → Option (List (List Bytes))
  | 0, cur => if cur < toUnix then none else some []
  | fuel + 1, cur =>
    if cur < toUnix then
      (scannedB c toUnix step fuel (wrap64 (cur + step))).map fun rest =>
        (if (seek c (fmtInt cur)).map Prod.fst = some INFO ∨
            (seekPrev c (fmtInt cur)).map Prod.fst = some INFO then []
          else neighbours (seekPrev c (fmtInt cur)) (seek c (fmtInt cur))) :: rest
    else some []

/-- The sample values a query scans, step by step, in the mode `getRange` selects. -/
def scanned (c : Container) (inf : info) (fuel : Nat) (fromT toT : Time) (step : Int) :
    Option (List (List Bytes)) :=
  if step ≥ inf.Step then scannedA c toT.sec step fuel fromT.sec
  else scannedB c toT.sec step fuel fromT.sec

/-- The container of a bucket that holds the samples `es` (timestamp and stored value,
in the order of the list) and the descriptor value `d`: the descriptor key follows every
decimal key. -/
def renderSamples (es : List (Int × Bytes)) (d : Bytes) : Container :=
  es.map (fun p => (fmtInt p.1, p.2)) ++ [(INFO, d)]

/-- Seven writes in step: the five of `Test_RRD` and two more at the seconds 1010 and
1012. -/
def cadenceWrites : List (Time × List ℚ) :=
  testWrites ++ [(⟨1010, 0⟩, [5, 10]), (⟨1012, 0⟩, [6, 12])]

/-- The samples of `n` writes two seconds apart from `t0` on, the `i`-th with the tuple
`v i`. -/
def cadenceSamples {F : Type} (L : Lib F) (t0 : Int) (v : Nat → List F) (n : Nat) :
    List (Int × Bytes) :=
  (List.range n).map fun (i : Nat) => (t0 + 2 * (i : Int), formatValue L (v i))

/-- The component-wise mean of two tuples as `averageтInStep` computes it once the sum
starts from the first: `(a + b) / 2`. -/
def midpoint {F : Type} (L : Lib F) (u w : List F) : List F :=
  List.zipWith (fun a b => L.divLen (L.add a b) 2) u w

/-- The points Mode B gives for `n` samples two seconds apart queried every second: the
first tuple, then for each pair of neighbours their mean, twice. -/
def interpolated {F : Type} (L : Lib F) (v : Nat → List F) (n : Nat) : List (List F) :=
  v 0 :: (List.range (n - 1)).flatMap fun (i : Nat) =>
    [midpoint L (v i) (v (i + 1)), midpoint L (v i) (v (i + 1))]

/-- The labels of these points: the instant `t0`, then the two instants of each pair. -/
def interpolatedLabels {F : Type} (L : Lib F) (t0 : Int) (n : Nat) : List Bytes :=
  L.stamp t0 :: (List.range (n - 1)).flatMap fun (i : Nat) =>
    [L.stamp (t0 + 2 * (i : Int) + 1), L.stamp (t0 + 2 * (i : Int) + 2)]

/-- The tuples of `Test_RRD`: the `i`-th write carries `(i, 2 i)`. -/
def testTuples (i : Nat) : List ℚ := [(i : ℚ), 2 * (i : ℚ)]

/-- The two `NewRRD` calls of the package example. -/
def exampleBuckets : List (Bytes × Int × Int × List Bytes) :=
  [(str "Data", 1, 10, [str "Val1", str "Val2"]), (str "Network", 10, 6, [str "in", str "out"])]

/-- The capacity test of `save`, `bucket.Stats().KeyN-rrd.inf.Capacity > 0`: whether the
eviction pass runs on a write into the container. -/
def evictionRuns (inf : info) (c : Container) : Bool :=
  decide ((c.length : Int) - inf.Capacity > 0)

/-- The container of the bucket of `Test_RRD` after its five writes. -/
def filledContainer : Container :=
  (get testBucket.bucketName (filledStore.db.getD [])).getD []

/-- The samples of the bucket of `Test_RRD` after its five writes. -/
def testSamples : List (Int × Bytes) :=
  [(1000, str "0|0"), (1002, str "1|2"), (1004, str "2|4"), (1006, str "3|6"),
    (1008, str "4|8")]

/-- A store whose bucket holds the samples of `Test_RRD` and, under the key `INFO`, a
value that is no descriptor. -/
def otherDescriptorStore : Storage :=
  ⟨some [(str "testing", renderSamples testSamples (str "x|y"))], str "test.db", []⟩

/-- The timestamps `a`, `a + S`, ..., `a + (n - 1) S` of `n` writes at exact cadence. -/
def cadenceTimes (a S : Int) (n : Nat) : List Int :=
  (List.range n).map fun (i : Nat) => a + S * (i : Int)

/-- The descriptor of a bucket with step 1, capacity 2 and one data source. -/
def oldInfo : info := ⟨1, 2, [str "a"]⟩

/-- The handle of that bucket. -/
def oldBucket : RRDBucket := ⟨true, str "old", some oldInfo⟩

/-- A store after `NewRRD("old", 1, 2, "a")`. -/
def oldStore : Storage := (emptyStore.NewRRD ratLib (str "old") 1 2 [str "a"]).1

/-- Three writes one second apart before 1970, at the seconds -5, -4 and -3. -/
def oldWrites : List (Time × List ℚ) := [(⟨-5, 0⟩, [1]), (⟨-4, 0⟩, [2]), (⟨-3, 0⟩, [3])]

/-- The labelled points of a Mode A query as the specification puts them: for every
window from `startInterval` on, in chronological order, that holds a sample, one point,
the label of the window together with the mean of the window. `none`: the windows are
not exhausted within `fuel` steps; `error`: a window whose samples do not average. -/
def pointsA {F : Type} (L : Lib F) (c : Container) (toUnix step : Int) :
    Nat → Int → Option (Except Error (List (Bytes × List F)))
  | 0, startInterval => if startInterval < toUnix then none else some (Except.ok [])
  | fuel + 1, startInterval =>
    if startInterval < toUnix then
      match splitAll L ((scanWindow c (fmtInt startInterval)
          (fmtInt (wrap64 (startInterval + step)))).map Prod.snd) with
      | Except.error e => some (Except.error e)
      | Except.ok rows =>
        if rows.length < 1 then pointsA L c toUnix step fuel (wrap64 (startInterval + step))
        else
          match averageInStep L rows with
          | Except.error e => some (Except.error e)
          | Except.ok mean =>
            match pointsA L c toUnix step fuel (wrap64 (startInterval + step)) with
            | none => none
            | some (Except.error e) => some (Except.error e)
            | some (Except.ok rest) =>
              some (Except.ok
                ((L.stamp ((wrap64 (startInterval +
                    wrap64 (startInterval + step))).tdiv 2), mean) :: rest))
    else some (Except.ok [])

/-- The labelled points of a Mode B query as the specification puts them: for every
instant from `cur` on, in chronological order, that is not next to the descriptor and
has a neighbour with a value, one point, the label of the instant together with the mean
of its neighbours. -/
def pointsB {F : Type} (L : Lib F) (c : Container) (toUnix step : Int) :
    Nat → Int → Option (Except Error (List (Bytes × List F)))
  | 0, cur => if cur < toUnix then none else some (Except.ok [])
  | fuel + 1, cur =>
    if cur < toUnix then
      if (seek c (fmtInt cur)).map Prod.fst = some INFO ∨
          (seekPrev c (fmtInt cur)).map Prod.fst = some INFO then
        pointsB L c toUnix step fuel (wrap64 (cur + step))
      else
        match splitAll L (neighbours (seekPrev c (fmtInt cur)) (seek c (fmtInt cur))) with
        | Except.error e => some (Except.error e)
        | Except.ok rows =>
          if rows.length < 1 then pointsB L c toUnix step fuel (wrap64 (cur + step))
          else
            match averageInStep L rows with
            | Except.error e => some (Except.error e)
            | Except.ok mean =>
              match pointsB L c toUnix step fuel (wrap64 (cur + step)) with
              | none => none
              | some (Except.error e) => some (Except.error e)
              | some (Except.ok rest) => some (Except.ok ((L.stamp cur, mean) :: rest))
    else some (Except.ok [])

/-- The labelled points of a query, in the mode `getRange` selects. -/
def points {F : Type} (L : Lib F) (c : Container) (inf : info) (fuel : Nat)
    (fromT toT : Time) (step : Int) : Option (Except Error (List (Bytes × List F))) :=
  if step ≥ inf.Step then pointsA L c toT.sec step fuel fromT.sec
  else pointsB L c toT.sec step fuel fromT.sec

/-! ## Basic facts about keys and the engine -/

theorem bytesCompare_self (a : Bytes) : bytesCompare a a = Ordering.eq := by
  induction a with
  | nil => rfl
  | cons x xs ih => simp [bytesCompare, ih]

theorem bytesCompare_eq_iff (a b : Bytes) : bytesCompare a b = Ordering.eq ↔ a = b := by
  induction a generalizing b with
  | nil => cases b <;> simp [bytesCompare]
  | cons x xs ih =>
    cases b with
    | nil => simp [bytesCompare]
    | cons y ys =>
      simp only [bytesCompare]
      split_ifs with h1 h2
      · simp; intro h; omega
      · simp; intro h; omega
      · have : x = y := by omega
        simp [ih, this]

theorem get_put_self {V : Type} (k : Bytes) (v : V) (m : List (Bytes × V)) :
    get k (put k v m) = some v := by
  induction m with
  | nil => simp [put, get]
  | cons e rest ih =>
    simp only [put]
    split
    · simp [get]
    · simp [get]
    · next h =>
      have : e.1 ≠ k := by
        intro he
        rw [he, bytesCompare_self] at h
        cases h
      simp [get, this, ih]

theorem get_put_ne {V : Type} (k k' : Bytes) (v : V) (m : List (Bytes × V)) (hne : k' ≠ k) :
    get k' (put k v m) = get k' m := by
  induction m with
  | nil => simp [put, get, hne.symm]
  | cons e rest ih =>
    simp only [put]
    split
    · simp [get, hne.symm]
    · next h =>
      have he : k = e.1 := (bytesCompare_eq_iff _ _).1 h
      have : e.1 ≠ k' := by rw [← he]; exact hne.symm
      simp [get, hne.symm, this]
    · simp [get, ih]

theorem get_eq_none_iff {V : Type} (k : Bytes) (m : List (Bytes × V)) :
    get k m = none ↔ k ∉ m.map Prod.fst := by
  induction m with
  | nil => simp [get]
  | cons e rest ih =>
    simp only [get, List.map_cons, List.mem_cons, not_or]
    split_ifs with h
    · simp [h]
    · simp [ih, Ne.symm h]

theorem put_keys_perm {V : Type} (k : Bytes) (v : V) (m : List (Bytes × V))
    (h : get k m = none) : ((put k v m).map Prod.fst).Perm (k :: m.map Prod.fst) := by
  induction m with
  | nil => simp [put]
  | cons e rest ih =>
    have hk : e.1 ≠ k ∧ get k rest = none := by
      simp only [get] at h
      split_ifs at h with he
      exact ⟨he, h⟩
    simp only [put]
    split
    · simp
    · next hc => exact absurd ((bytesCompare_eq_iff _ _).1 hc).symm hk.1
    · simp only [List.map_cons]
      exact ((ih hk.2).cons e.1).trans (List.Perm.swap _ _ _)

/-! ## Decimal keys: byte order against numeric order -/

theorem natDigits_fuel (fuel1 fuel2 n : Nat) (h1 : n < fuel1) (h2 : n < fuel2) :
    natDigits fuel1 n = natDigits fuel2 n := by
  induction fuel1 generalizing fuel2 n with
  | zero => omega
  | succ f1 ih =>
    cases fuel2 with
    | zero => omega
    | succ f2 =>
      simp only [natDigits]
      split_ifs with h
      · rfl
      · rw [ih f2 (n / 10) (by omega) (by omega)]

theorem fmtNat_eq (n : Nat) :
    fmtNat n = if n < 10 then [48 + n] else fmtNat (n / 10) ++ [48 + n % 10] := by
  by_cases h : n < 10
  · simp [fmtNat, natDigits, h]
  · simp only [h, if_false]
    show natDigits (n + 1) n = natDigits (n / 10 + 1) (n / 10) ++ [48 + n % 10]
    rw [show natDigits (n + 1) n =
        (if n < 10 then [48 + n] else natDigits n (n / 10) ++ [48 + n % 10]) from rfl,
      if_neg h, natDigits_fuel n (n / 10 + 1) (n / 10) (by omega) (by omega)]

theorem fmtNat_length (n : Nat) :
    (fmtNat n).length = if n < 10 then 1 else (fmtNat (n / 10)).length + 1 := by
  rw [fmtNat_eq n]
  split_ifs <;> simp

theorem fmtNat_length_pos (n : Nat) : 0 < (fmtNat n).length := by
  rw [fmtNat_length]; split_ifs <;> omega

theorem fmtNat_length_mono (a b : Nat) (h : a ≤ b) : (fmtNat a).length ≤ (fmtNat b).length := by
  induction b using Nat.strong_induction_on generalizing a with
  | _ b ih =>
    rw [fmtNat_length a, fmtNat_length b]
    split_ifs with ha hb hb
    · exact le_refl _
    · omega
    · omega
    · have := ih (b / 10) (by omega) (a / 10) (Nat.div_le_div_right h)
      omega

theorem fmtNat_isDigits (n : Nat) : IsDigits (fmtNat n) := by
  induction n using Nat.strong_induction_on with
  | _ n ih =>
    rw [fmtNat_eq]
    split_ifs with h
    · intro b hb
      simp at hb
      omega
    · intro b hb
      rcases List.mem_append.1 hb with hb | hb
      · exact ih (n / 10) (by omega) b hb
      · simp at hb
        omega

theorem decVal_append_single (l : Bytes) (b : Nat) :
    decVal (l ++ [b]) = 10 * decVal l + (b - 48) := by
  simp [decVal, List.foldl_append]

theorem decVal_fmtNat (n : Nat) : decVal (fmtNat n) = n := by
  induction n using Nat.strong_induction_on with
  | _ n ih =>
    rw [fmtNat_eq]
    split_ifs with h
    · simp [decVal]
    · rw [decVal_append_single, ih (n / 10) (by omega)]
      omega

theorem foldl_dec_acc (l : Bytes) (acc : Nat) :
    l.foldl (fun acc b => 10 * acc + (b - 48)) acc = acc * 10 ^ l.length + decVal l := by
  induction l generalizing acc with
  | nil => simp [decVal]
  | cons b l ih =>
    simp only [List.foldl_cons, decVal, List.length_cons]
    rw [ih, ih (10 * 0 + (b - 48))]
    ring

theorem decVal_cons (b : Nat) (l : Bytes) :
    decVal (b :: l) = (b - 48) * 10 ^ l.length + decVal l := by
  simp only [decVal, List.foldl_cons]
  rw [foldl_dec_acc]
  simp [decVal]

theorem decVal_lt (l : Bytes) (h : IsDigits l) : decVal l < 10 ^ l.length := by
  induction l with
  | nil => simp [decVal]
  | cons b l ih =>
    rw [decVal_cons]
    have hb := h b (List.mem_cons_self _ _)
    have hl := ih (fun x hx => h x (List.mem_cons_of_mem _ hx))
    have : (b - 48) * 10 ^ l.length ≤ 9 * 10 ^ l.length := Nat.mul_le_mul_right _ (by omega)
    simp only [List.length_cons, pow_succ]
    omega

theorem bytesCompare_digits (x y : Bytes) (hx : IsDigits x) (hy : IsDigits y)
    (hlen : x.length = y.length) :
    (decVal x < decVal y → bytesCompare x y = Ordering.lt) ∧
    (decVal x = decVal y → bytesCompare x y = Ordering.eq) ∧
    (decVal y < decVal x → bytesCompare x y = Ordering.gt) := by
  induction x generalizing y with
  | nil =>
    cases y with
    | nil => simp [bytesCompare, decVal]
    | cons b l => simp at hlen
  | cons a xs ih =>
    cases y with
    | nil => simp at hlen
    | cons b ys =>
      have hlen' : xs.length = ys.length := by simpa using hlen
      have ha := hx a (List.mem_cons_self _ _)
      have hb := hy b (List.mem_cons_self _ _)
      have hxs : IsDigits xs := fun x h => hx x (List.mem_cons_of_mem _ h)
      have hys : IsDigits ys := fun x h => hy x (List.mem_cons_of_mem _ h)
      have bx := decVal_lt xs hxs
      have bY := decVal_lt ys hys
      obtain ⟨i1, i2, i3⟩ := ih ys hxs hys hlen'
      rw [decVal_cons, decVal_cons, hlen']
      rw [hlen'] at bx
      simp only [bytesCompare]
      generalize 10 ^ ys.length = P at *
      have key : ∀ u v : Nat, u < v → u * P + P ≤ v * P := by
        intro u v huv
        have : (u + 1) * P ≤ v * P := Nat.mul_le_mul_right _ huv
        linarith [this, Nat.succ_mul u P]
      by_cases hab : a < b
      · have := key (a - 48) (b - 48) (by omega)
        rw [if_pos hab]
        refine ⟨?_, ?_, ?_⟩ <;> intro h <;> first | rfl | omega
      · by_cases hba : b < a
        · have := key (b - 48) (a - 48) (by omega)
          rw [if_neg hab, if_pos hba]
          refine ⟨?_, ?_, ?_⟩ <;> intro h <;> first | rfl | omega
        · have hEq : a = b := by omega
          subst hEq
          rw [if_neg hab, if_neg hab]
          exact ⟨fun h => i1 (by omega), fun h => i2 (by omega), fun h => i3 (by omega)⟩

/-! ## Loading the store -/

theorem mem_put {V : Type} (k : Bytes) (v : V) (m : List (Bytes × V)) (e : Bytes × V)
    (h : e ∈ put k v m) : e = (k, v) ∨ e ∈ m := by
  induction m with
  | nil => simpa [put] using h
  | cons x rest ih =>
    simp only [put] at h
    split at h
    · rcases List.mem_cons.1 h with h | h
      · exact Or.inl h
      · exact Or.inr h
    · rcases List.mem_cons.1 h with h | h
      · exact Or.inl h
      · exact Or.inr (List.mem_cons_of_mem _ h)
    · rcases List.mem_cons.1 h with h | h
      · exact Or.inr (h ▸ List.mem_cons_self _ _)
      · rcases ih h with h | h
        · exact Or.inl h
        · exact Or.inr (List.mem_cons_of_mem _ h)

theorem loadOne_corrupt {F : Type} (L : Lib F) (name : Bytes) (c : Container)
    (h : Corrupt L c) : loadOne L name c = Except.error Error.Other := by
  unfold loadOne
  rcases h with h | ⟨v, hv, h⟩
  · simp [h]
  · simp only [hv]
    split_ifs with hlen
    · rfl
    · rcases h with h | ⟨i, hi, h⟩
      · simp [h]
      · simp only [hi]
        have : i.Capacity < 1 ∨ i.Step < 1 ∨ i.Ds.length < 1 := by
          rcases h with h | h | h
          · exact Or.inr (Or.inl h)
          · exact Or.inl h
          · right; right; simp [h]
        rw [if_pos this]

theorem loadLoop_corrupt {F : Type} (L : Lib F) (db : DB) (m : List (Bytes × RRDBucket))
    (h : ∃ e ∈ db, Corrupt L e.2) : ∃ m1 e, loadLoop L db m = (m1, some e) := by
  induction db generalizing m with
  | nil => simp at h
  | cons hd rest ih =>
    obtain ⟨name, b⟩ := hd
    simp only [loadLoop]
    cases hone : loadOne L name b with
    | error e => exact ⟨m, e, rfl⟩
    | ok hdl =>
      simp only []
      apply ih
      obtain ⟨e, he, hc⟩ := h
      rcases List.mem_cons.1 he with rfl | he
      · rw [loadOne_corrupt L name _ hc] at hone
        cases hone
      · exact ⟨e, he, hc⟩

theorem loadLoop_ok {F : Type} (L : Lib F) (db : DB) (m : List (Bytes × RRDBucket))
    (hnodup : (db.map Prod.fst).Nodup)
    (hok : ∀ e ∈ db, ∃ h, loadOne L e.1 e.2 = Except.ok h) :
    ∃ m1, loadLoop L db m = (m1, none) ∧
      ∀ name, get name m1 =
        match get name db with
        | some c => (loadOne L name c).toOption
        | none => get name m := by
  induction db generalizing m with
  | nil => exact ⟨m, rfl, fun name => by simp [get]⟩
  | cons hd rest ih =>
    obtain ⟨n, b⟩ := hd
    obtain ⟨h, hh⟩ := hok (n, b) (List.mem_cons_self _ _)
    simp only [List.map_cons, List.nodup_cons] at hnodup
    obtain ⟨m1, hm1, hget⟩ := ih (put n h m) hnodup.2
      (fun e he => hok e (List.mem_cons_of_mem _ he))
    refine ⟨m1, ?_, ?_⟩
    · simp only [loadLoop]
      simp only [] at hh
      rw [hh]
      exact hm1
    · intro name
      rw [hget name]
      simp only [get]
      by_cases hname : n = name
      · subst hname
        have : get n rest = none := (get_eq_none_iff _ _).2 hnodup.1
        simp only [] at hh
        simp [this, get_put_self, hh, Except.toOption]
      · simp only [hname, if_false]
        cases hr : get name rest with
        | none => simp [get_put_ne _ _ _ _ (Ne.symm hname)]
        | some c => rfl

theorem NewRRD_consistent {F : Type} (L : Lib F) (s : Storage) (name : Bytes)
    (step capacity : Int) (ds : List Bytes)
    (hcodec : L.unmarshal (L.marshal ⟨step, capacity, ds⟩) = some ⟨step, capacity, ds⟩ ∧
      L.marshal ⟨step, capacity, ds⟩ ≠ [])
    (hs : Consistent L s) : Consistent L (s.NewRRD L name step capacity ds).1 := by
  obtain ⟨db, hdb, hnodup, hall, hget⟩ := hs
  unfold Storage.NewRRD
  simp only [hdb]
  split_ifs with h1 h2 h3
  · exact ⟨db, hdb, hnodup, hall, hget⟩
  · exact ⟨db, hdb, hnodup, hall, hget⟩
  · exact ⟨db, hdb, hnodup, hall, hget⟩
  · simp only [RRDBucket.init, hdb]
    split_ifs with h4
    · exact ⟨db, hdb, hnodup, hall, hget⟩
    · cases hex : get name db with
      | some c => exact ⟨db, hdb, hnodup, hall, hget⟩
      | none =>
        simp only []
        have hds : ds ≠ [] := by
          intro h
          simp [h] at h3
        have hval2 : ¬ (capacity < 1 ∨ step < 1 ∨ ds = []) := by
          push_neg
          exact ⟨not_lt.1 h2, not_lt.1 h1, hds⟩
        have hnew : loadOne L name (put INFO (L.marshal ⟨step, capacity, ds⟩) []) =
            Except.ok ⟨true, name, some ⟨step, capacity, ds⟩⟩ := by
          simp [loadOne, put, get, hcodec.1, hcodec.2, hval2]
        refine ⟨_, rfl, ?_, ?_, ?_⟩
        · exact ((put_keys_perm name _ db hex).nodup_iff).2
            (List.nodup_cons.2 ⟨(get_eq_none_iff _ _).1 hex, hnodup⟩)
        · intro e he
          rcases mem_put _ _ _ _ he with he | he
          · rw [he]
            exact ⟨_, hnew⟩
          · exact hall e he
        · intro nm
          by_cases hnm : nm = name
          · subst hnm
            simp [get_put_self, hnew, Except.toOption]
          · rw [get_put_ne _ _ _ _ hnm, get_put_ne _ _ _ _ hnm]
            exact hget nm

theorem createAll_consistent {F : Type} (L : Lib F)
    (reqs : List (Bytes × Int × Int × List Bytes)) (s : Storage)
    (hcodec : ∀ r ∈ reqs, L.unmarshal (L.marshal ⟨r.2.1, r.2.2.1, r.2.2.2⟩) =
        some ⟨r.2.1, r.2.2.1, r.2.2.2⟩ ∧ L.marshal ⟨r.2.1, r.2.2.1, r.2.2.2⟩ ≠ [])
    (hs : Consistent L s) : Consistent L (createAll L s reqs) := by
  induction reqs generalizing s with
  | nil => exact hs
  | cons r rest ih =>
    obtain ⟨name, step, capacity, ds⟩ := r
    simp only [createAll]
    apply ih
    · exact fun r hr => hcodec r (List.mem_cons_of_mem _ hr)
    · exact NewRRD_consistent L s name step capacity ds
        (hcodec _ (List.mem_cons_self _ _)) hs

theorem reopen_consistent {F : Type} (L : Lib F) (s : Storage) (hs : Consistent L s)
    (disk : Bytes → Option DB) (dbpath : Bytes) (hdisk : disk dbpath = s.db) :
    ∃ s2, NewStorage L disk dbpath = (some s2, none) ∧
      ∀ name, get name s2.rrd = get name s.rrd := by
  obtain ⟨db, hdb, hnodup, hall, hget⟩ := hs
  obtain ⟨m1, hm1, hm⟩ := loadLoop_ok L db [] hnodup hall
  refine ⟨⟨some db, dbpath, m1⟩, ?_, ?_⟩
  · simp [NewStorage, hdisk, hdb, Storage.load, hm1]
  · intro name
    rw [hm name, hget name]
    cases get name db <;> simp [get]

/-! ## The key order -/

theorem bytesCompare_swap (a b : Bytes) :
    bytesCompare a b = Ordering.lt ↔ bytesCompare b a = Ordering.gt := by
  induction a generalizing b with
  | nil => cases b <;> simp [bytesCompare]
  | cons x xs ih =>
    cases b with
    | nil => simp [bytesCompare]
    | cons y ys =>
      simp only [bytesCompare]
      by_cases h1 : x < y
      · have h2 : ¬ y < x := by omega
        simp [h1, h2]
      · by_cases h2 : y < x
        · simp [h1, h2]
        · simp only [h1, h2, if_false]
          exact ih ys

theorem bytesCompare_lt_trans (a b c : Bytes) (hab : bytesCompare a b = Ordering.lt)
    (hbc : bytesCompare b c = Ordering.lt) : bytesCompare a c = Ordering.lt := by
  induction a generalizing b c with
  | nil =>
    cases c with
    | nil => cases b <;> simp [bytesCompare] at hab hbc
    | cons z zs => simp [bytesCompare]
  | cons x xs ih =>
    cases b with
    | nil => simp [bytesCompare] at hab
    | cons y ys =>
      cases c with
      | nil => simp [bytesCompare] at hbc
      | cons z zs =>
        simp only [bytesCompare] at hab hbc ⊢
        by_cases h1 : x < y
        · by_cases h2 : y < z
          · have : x < z := by omega
            simp [this]
          · by_cases h3 : z < y
            · simp [h2, h3] at hbc
            · have : x < z := by omega
              simp [this]
        · by_cases h1b : y < x
          · simp [h1, h1b] at hab
          · simp only [h1, h1b, if_false] at hab
            have hxy : x = y := by omega
            subst hxy
            by_cases h2 : x < z
            · simp [h2]
            · by_cases h3 : z < x
              · simp [h2, h3] at hbc
              · simp only [h2, h3, if_false] at hbc ⊢
                exact ih ys zs hab hbc

theorem bytesLt_iff (a b : Bytes) : bytesLt a b = true ↔ bytesCompare a b = Ordering.lt := by
  unfold bytesLt
  cases bytesCompare a b <;> simp

theorem bytesLe_iff (a b : Bytes) : bytesLe a b = true ↔ bytesCompare a b ≠ Ordering.gt := by
  unfold bytesLe
  cases bytesCompare a b <;> simp

theorem bytesLe_iff_not_lt (a b : Bytes) : bytesLe a b = true ↔ bytesLt b a = false := by
  rw [bytesLe_iff, ← Bool.not_eq_true, bytesLt_iff, bytesCompare_swap b a]

theorem bytesLt_of_le_of_lt (a b c : Bytes) (hab : bytesLe a b = true)
    (hbc : bytesLt b c = true) : bytesLt a c = true := by
  rw [bytesLt_iff] at hbc ⊢
  rw [bytesLe_iff] at hab
  cases h : bytesCompare a b with
  | lt => exact bytesCompare_lt_trans a b c h hbc
  | eq => rw [(bytesCompare_eq_iff a b).1 h]; exact hbc
  | gt => exact absurd h hab

theorem bytesLt_of_lt_of_le (a b c : Bytes) (hab : bytesLt a b = true)
    (hbc : bytesLe b c = true) : bytesLt a c = true := by
  rw [bytesLt_iff] at hab ⊢
  rw [bytesLe_iff] at hbc
  cases h : bytesCompare b c with
  | lt => exact bytesCompare_lt_trans a b c hab h
  | eq => rw [← (bytesCompare_eq_iff b c).1 h]; exact hab
  | gt => exact absurd h hbc

theorem bytesLe_of_lt (a b : Bytes) (h : bytesLt a b = true) : bytesLe a b = true := by
  rw [bytesLt_iff] at h
  rw [bytesLe_iff, h]
  simp

theorem bytesLt_irrefl (a : Bytes) : bytesLt a a = false := by
  rw [← Bool.not_eq_true, bytesLt_iff, bytesCompare_self]
  simp

theorem bytesLe_refl (a : Bytes) : bytesLe a a = true := by
  rw [bytesLe_iff, bytesCompare_self]
  simp

/-! ## Decimal keys against the descriptor key -/

theorem fmtNat_head (n : Nat) : ∃ b rest, fmtNat n = b :: rest ∧ 48 ≤ b ∧ b ≤ 57 := by
  have hpos := fmtNat_length_pos n
  have hdig := fmtNat_isDigits n
  cases h : fmtNat n with
  | nil => rw [h] at hpos; simp at hpos
  | cons b rest =>
    rw [h] at hdig
    exact ⟨b, rest, rfl, hdig b (List.mem_cons_self _ _)⟩

theorem fmtInt_head (x : Int) : ∃ b rest, fmtInt x = b :: rest ∧ 45 ≤ b ∧ b ≤ 57 := by
  unfold fmtInt
  split_ifs
  · exact ⟨45, _, rfl, le_refl _, by omega⟩
  · obtain ⟨b, rest, h, h1, h2⟩ := fmtNat_head x.natAbs
    exact ⟨b, rest, h, by omega, h2⟩

theorem fmtInt_lt_INFO (x : Int) : bytesCompare (fmtInt x) INFO = Ordering.lt := by
  obtain ⟨b, rest, h, -, h2⟩ := fmtInt_head x
  rw [h]
  have : b < 73 := by omega
  simp [INFO, bytesCompare, this]

theorem fmtInt_ne_INFO (x : Int) : fmtInt x ≠ INFO := by
  intro h
  have := fmtInt_lt_INFO x
  rw [h, bytesCompare_self] at this
  cases this

theorem INFO_not_le_fmtInt (x : Int) : bytesLe INFO (fmtInt x) = false := by
  have h : bytesLt (fmtInt x) INFO = true := (bytesLt_iff _ _).2 (fmtInt_lt_INFO x)
  cases hle : bytesLe INFO (fmtInt x) with
  | false => rfl
  | true => rw [(bytesLe_iff_not_lt _ _).1 hle] at h; cases h

theorem fmtInt_of_nonneg (x : Int) (h : 0 ≤ x) : fmtInt x = fmtNat x.toNat := by
  unfold fmtInt
  rw [if_neg (by omega)]
  congr 1
  omega

/-- For non-negative numbers whose decimal texts have the same length, the byte order
of the texts is the numeric order. -/
theorem fmtInt_compare (a b : Int) (ha : 0 ≤ a) (hb : 0 ≤ b)
    (hlen : (fmtInt a).length = (fmtInt b).length) :
    (a < b → bytesCompare (fmtInt a) (fmtInt b) = Ordering.lt) ∧
    (a = b → bytesCompare (fmtInt a) (fmtInt b) = Ordering.eq) ∧
    (b < a → bytesCompare (fmtInt a) (fmtInt b) = Ordering.gt) := by
  rw [fmtInt_of_nonneg a ha, fmtInt_of_nonneg b hb] at hlen ⊢
  obtain ⟨h1, h2, h3⟩ := bytesCompare_digits _ _ (fmtNat_isDigits a.toNat)
    (fmtNat_isDigits b.toNat) hlen
  rw [decVal_fmtNat, decVal_fmtNat] at h1 h2 h3
  exact ⟨fun h => h1 (by omega), fun h => h2 (by omega), fun h => h3 (by omega)⟩

theorem fmtInt_length_mono (a b : Int) (ha : 0 ≤ a) (hab : a ≤ b) :
    (fmtInt a).length ≤ (fmtInt b).length := by
  rw [fmtInt_of_nonneg a ha, fmtInt_of_nonneg b (by omega)]
  exact fmtNat_length_mono _ _ (by omega)

theorem fmtInt_length_between (a x b : Int) (ha : 0 ≤ a) (hax : a ≤ x) (hxb : x ≤ b)
    (hlen : (fmtInt a).length = (fmtInt b).length) : (fmtInt x).length = (fmtInt a).length := by
  have h1 := fmtInt_length_mono a x ha hax
  have h2 := fmtInt_length_mono x b (by omega) hxb
  omega

theorem wrap64_of_range (x : Int) (h1 : -(2 ^ 63) ≤ x) (h2 : x < 2 ^ 63) : wrap64 x = x := by
  unfold wrap64
  omega

/-! ## Encoding and decoding of values -/

theorem stringsSplit_no_sep (sep : Nat) (x : Bytes) (h : sep ∉ x) :
    stringsSplit sep x = [x] := by
  induction x with
  | nil => rfl
  | cons b bs ih =>
    have hb : b ≠ sep := fun e => h (e ▸ List.mem_cons_self _ _)
    have hbs : sep ∉ bs := fun e => h (List.mem_cons_of_mem _ e)
    simp [stringsSplit, hb, ih hbs]

theorem stringsSplit_append (sep : Nat) (x r : Bytes) (h : sep ∉ x) :
    stringsSplit sep (x ++ sep :: r) = x :: stringsSplit sep r := by
  induction x with
  | nil => simp [stringsSplit]
  | cons b bs ih =>
    have hb : b ≠ sep := fun e => h (e ▸ List.mem_cons_self _ _)
    have hbs : sep ∉ bs := fun e => h (List.mem_cons_of_mem _ e)
    simp [stringsSplit, hb, ih hbs]

theorem stringsSplit_join (sep : Nat) (fields : List Bytes) (hne : fields ≠ [])
    (h : ∀ f ∈ fields, sep ∉ f) : stringsSplit sep (stringsJoin sep fields) = fields := by
  induction fields with
  | nil => exact absurd rfl hne
  | cons x rest ih =>
    cases rest with
    | nil => exact stringsSplit_no_sep sep x (h x (List.mem_cons_self _ _))
    | cons y rest =>
      simp only [stringsJoin]
      rw [stringsSplit_append sep x _ (h x (List.mem_cons_self _ _)),
        ih (by simp) (fun f hf => h f (List.mem_cons_of_mem _ hf))]

theorem stringsSplit_ne_nil (sep : Nat) (s : Bytes) : stringsSplit sep s ≠ [] := by
  induction s with
  | nil => simp [stringsSplit]
  | cons b bs ih =>
    simp only [stringsSplit]
    split_ifs
    · simp
    · split <;> simp

theorem parseFields_sprint {F : Type} (L : Lib F) (params : List F)
    (hrt : ∀ x ∈ params, L.parseFloat (L.sprint x) = some x) :
    parseFields L (params.map L.sprint) = Except.ok params := by
  induction params with
  | nil => rfl
  | cons x rest ih =>
    simp [parseFields, hrt x (List.mem_cons_self _ _),
      ih (fun y hy => hrt y (List.mem_cons_of_mem _ hy))]

/-- Decoding undoes encoding: `splitToFloat` gives back the tuple `formatValue` wrote, when
each reading is read back from its own text and no text holds the delimiter. -/
theorem splitToFloat_formatValue {F : Type} (L : Lib F) (params : List F) (hne : params ≠ [])
    (hrt : ∀ x ∈ params, L.parseFloat (L.sprint x) = some x ∧ delimiter ∉ L.sprint x) :
    splitToFloat L (formatValue L params) = Except.ok params := by
  unfold splitToFloat formatValue
  rw [stringsSplit_join delimiter _ (by simpa using hne)]
  · exact parseFields_sprint L params (fun x hx => (hrt x hx).1)
  · intro f hf
    obtain ⟨x, hx, rfl⟩ := List.mem_map.1 hf
    exact (hrt x hx).2

theorem formatValue_length_pos {F : Type} (L : Lib F) (params : List F) (hne : params ≠ [])
    (hrt : ∀ x ∈ params, L.parseFloat (L.sprint x) = some x ∧ delimiter ∉ L.sprint x)
    (hempty : L.parseFloat [] = none) : 0 < (formatValue L params).length := by
  rcases Nat.eq_zero_or_pos (formatValue L params).length with h | h
  · have h0 : formatValue L params = [] := List.length_eq_zero.1 h
    have hs := splitToFloat_formatValue L params hne hrt
    rw [h0] at hs
    simp [splitToFloat, stringsSplit, parseFields, hempty] at hs
  · exact h

/-! ## Averaging and assembly -/

theorem addRow_eq {F : Type} (L : Lib F) (average values : List F)
    (h : values.length ≤ average.length) :
    ∃ r, addRow L average values = Except.ok r ∧ r.length = average.length := by
  induction average generalizing values with
  | nil =>
    cases values with
    | nil => exact ⟨[], rfl, rfl⟩
    | cons v vs => simp at h
  | cons a as ih =>
    cases values with
    | nil => exact ⟨a :: as, rfl, rfl⟩
    | cons v vs =>
      obtain ⟨r, hr, hl⟩ := ih vs (by simpa using h)
      exact ⟨L.add a v :: r, by simp [addRow, hr], by simp [hl]⟩

theorem addRow_zip {F : Type} (L : Lib F) (average values : List F)
    (h : values.length = average.length) :
    addRow L average values = Except.ok (List.zipWith L.add average values) := by
  induction average generalizing values with
  | nil =>
    cases values with
    | nil => rfl
    | cons v vs => simp at h
  | cons a as ih =>
    cases values with
    | nil => simp at h
    | cons v vs => simp [addRow, ih vs (by simpa using h)]

theorem addRows_ok {F : Type} (L : Lib F) (rows : List (List F)) (average : List F)
    (h : ∀ r ∈ rows, r.length ≤ average.length) :
    ∃ r, addRows L rows average = Except.ok r ∧ r.length = average.length := by
  induction rows generalizing average with
  | nil => exact ⟨average, rfl, rfl⟩
  | cons v rest ih =>
    obtain ⟨a1, h1, hl⟩ := addRow_eq L average v (h v (List.mem_cons_self _ _))
    obtain ⟨r, hr, hrl⟩ := ih a1 (fun x hx => by
      rw [hl]; exact h x (List.mem_cons_of_mem _ hx))
    exact ⟨r, by simp [addRows, h1, hr], by rw [hrl, hl]⟩

/-- Rows of one common positive length average without a panic, to a row of that
length. -/
theorem averageInStep_ok {F : Type} (L : Lib F) (rows : List (List F)) (n : Nat)
    (hne : rows ≠ []) (hn : 1 ≤ n) (h : ∀ r ∈ rows, r.length = n) :
    ∃ a, averageInStep L rows = Except.ok a ∧ a.length = n := by
  cases rows with
  | nil => exact absurd rfl hne
  | cons first rest =>
    have hf : first.length = n := h first (List.mem_cons_self _ _)
    obtain ⟨r, hr, hl⟩ := addRows_ok L (first :: rest) (List.replicate first.length L.zero)
      (fun x hx => by simp [h x hx, hf])
    refine ⟨r.map fun a => L.divLen a (first :: rest).length, ?_, ?_⟩
    · simp only [averageInStep]
      rw [if_neg (by omega), hr]
    · simp [hl, hf]

theorem zipWith_replicate_zero {F : Type} (L : Lib F) (v : List F) :
    List.zipWith L.add (List.replicate v.length L.zero) v = v.map (L.add L.zero) := by
  induction v with
  | nil => rfl
  | cons x xs ih => simp [List.replicate_succ, ih]

/-- The mean of a single tuple: each reading added to zero and divided by one. -/
theorem averageInStep_single {F : Type} (L : Lib F) (v : List F) (hne : v ≠ []) :
    averageInStep L [v] = Except.ok (v.map fun x => L.divLen (L.add L.zero x) 1) := by
  have hlen : ¬ v.length < 1 := by
    have := List.length_pos.2 hne
    omega
  have h1 : addRow L (List.replicate v.length L.zero) v =
      Except.ok (v.map (L.add L.zero)) := by
    rw [addRow_zip L _ v (by simp), zipWith_replicate_zero]
  simp [averageInStep, hlen, addRows, h1]

/-- The mean of two tuples of the same length: the readings added to zero in turn and
divided by two. -/
theorem averageInStep_pair {F : Type} (L : Lib F) (u v : List F) (hne : u ≠ [])
    (hlen : v.length = u.length) :
    averageInStep L [u, v] =
      Except.ok (List.zipWith (fun a b => L.divLen (L.add (L.add L.zero a) b) 2) u v) := by
  have hl : ¬ u.length < 1 := by
    have := List.length_pos.2 hne
    omega
  have h1 : addRow L (List.replicate u.length L.zero) u =
      Except.ok (u.map (L.add L.zero)) := by
    rw [addRow_zip L _ u (by simp), zipWith_replicate_zero]
  have h2 : addRow L (u.map (L.add L.zero)) v =
      Except.ok (List.zipWith L.add (u.map (L.add L.zero)) v) :=
    addRow_zip L _ v (by simp [hlen])
  simp only [averageInStep, if_neg hl, addRows, h1, h2, List.length_cons, List.length_nil]
  congr 1
  rw [List.zipWith_map_left, List.map_zipWith]

theorem column_eq {F : Type} (values : List (List F)) (i : Nat) (d : F)
    (h : ∀ r ∈ values, i < r.length) :
    column values i = some (values.map fun r => r.getD i d) := by
  induction values with
  | nil => rfl
  | cons r rest ih =>
    have hr := h r (List.mem_cons_self _ _)
    simp [column, ih (fun x hx => h x (List.mem_cons_of_mem _ hx)), List.getD,
      List.get?_eq_get hr, List.getElem?_eq_getElem hr]

/-- When every row has a reading for every data source, the assembly of `GetStats` builds
one dataset per data source, in order, and does not panic. -/
theorem datasetsFrom_eq {F : Type} (values : List (List F)) (labels : List Bytes) (i : Nat)
    (acc : List (Dataset F)) (d : F) (h : ∀ r ∈ values, i + labels.length ≤ r.length) :
    datasetsFrom values labels i acc =
      (acc ++ List.zipWith (fun name k => ⟨name, values.map fun r => r.getD k d⟩) labels
        (List.range' i labels.length), none) := by
  induction labels generalizing i acc with
  | nil => simp [datasetsFrom]
  | cons label rest ih =>
    simp only [datasetsFrom]
    rw [column_eq values i d (fun r hr => by
      have := h r hr
      simp only [List.length_cons] at this
      omega)]
    simp only []
    rw [ih (i + 1) _ (fun r hr => by
      have := h r hr
      simp only [List.length_cons] at this
      omega)]
    simp [List.range'_succ]

/-! ## Containers in key order -/

theorem put_mem {V : Type} (k : Bytes) (v : V) (m : List (Bytes × V)) : (k, v) ∈ put k v m := by
  induction m with
  | nil => simp [put]
  | cons e rest ih =>
    simp only [put]
    split
    · exact List.mem_cons_self _ _
    · exact List.mem_cons_self _ _
    · exact List.mem_cons_of_mem _ ih

theorem put_sorted (k v : Bytes) (c : Container) (h : KeysSorted c) : KeysSorted (put k v c) := by
  induction c with
  | nil => simp [put, KeysSorted]
  | cons e rest ih =>
    have h2 := List.pairwise_cons.1 h
    simp only [put]
    split
    · next hc =>
      refine List.pairwise_cons.2 ⟨?_, h⟩
      intro b hb
      rcases List.mem_cons.1 hb with rfl | hb
      · exact hc
      · exact bytesCompare_lt_trans _ _ _ hc (h2.1 b hb)
    · next hc =>
      have hk : k = e.1 := (bytesCompare_eq_iff _ _).1 hc
      refine List.pairwise_cons.2 ⟨?_, h2.2⟩
      intro b hb
      rw [hk]
      exact h2.1 b hb
    · next hc =>
      refine List.pairwise_cons.2 ⟨?_, ih h2.2⟩
      intro b hb
      rcases mem_put _ _ _ _ hb with rfl | hb
      · exact (bytesCompare_swap _ _).2 hc
      · exact h2.1 b hb

theorem saveTx_sorted {F : Type} (L : Lib F) (inf : info) (unix : Int) (params : List F)
    (c : Container) (h : KeysSorted c) : KeysSorted (saveTx L inf unix params c) := by
  unfold saveTx
  simp only []
  apply put_sorted
  split_ifs
  · exact List.Pairwise.sublist (List.dropWhile_sublist _) h
  · exact h

theorem saveTx_mem {F : Type} (L : Lib F) (inf : info) (unix : Int) (params : List F)
    (c : Container) : (fmtInt unix, formatValue L params) ∈ saveTx L inf unix params c := by
  unfold saveTx
  exact put_mem _ _ _

theorem dropWhile_front {α : Type} (p : α → Bool) (pre : List α) (x : α) (post : List α)
    (hpre : ∀ e ∈ pre, p e = true) (hx : p x = false) :
    (pre ++ x :: post).dropWhile p = x :: post := by
  induction pre with
  | nil => simp [List.dropWhile, hx]
  | cons a as ih =>
    simp only [List.cons_append, List.dropWhile, hpre a (List.mem_cons_self _ _)]
    exact ih (fun e he => hpre e (List.mem_cons_of_mem _ he))

theorem takeWhile_front {α : Type} (p : α → Bool) (pre : List α) (x : α) (post : List α)
    (hpre : ∀ e ∈ pre, p e = true) (hx : p x = false) :
    (pre ++ x :: post).takeWhile p = pre := by
  induction pre with
  | nil => simp [List.takeWhile, hx]
  | cons a as ih =>
    rw [List.cons_append, List.takeWhile_cons, if_pos (hpre a (List.mem_cons_self _ _)),
      ih (fun e he => hpre e (List.mem_cons_of_mem _ he))]

theorem takeWhile_all {α : Type} (p : α → Bool) (l : List α) (h : ∀ e ∈ l, p e = true) :
    l.takeWhile p = l := by
  induction l with
  | nil => rfl
  | cons a as ih =>
    simp only [List.takeWhile, h a (List.mem_cons_self _ _)]
    rw [ih (fun e he => h e (List.mem_cons_of_mem _ he))]

theorem dropWhile_all {α : Type} (p : α → Bool) (l : List α) (h : ∀ e ∈ l, p e = true) :
    l.dropWhile p = [] := by
  induction l with
  | nil => rfl
  | cons a as ih =>
    simp only [List.dropWhile, h a (List.mem_cons_self _ _)]
    exact ih (fun e he => h e (List.mem_cons_of_mem _ he))

/-- In a container in key order, a window whose keys (the descriptor apart) are the one
key of the entry `x` scans exactly `x`. -/
theorem scanWindow_single (c : Container) (x : Bytes × Bytes) (startKey endKey : Bytes)
    (hs : KeysSorted c) (hx : x ∈ c) (hxI : bytesLt x.1 INFO = true)
    (hlo : bytesLe startKey x.1 = true) (hhi : bytesLe x.1 endKey = true)
    (hothers : ∀ e ∈ c, e.1 ≠ INFO → e.1 ≠ x.1 →
      ¬ (bytesLe startKey e.1 = true ∧ bytesLe e.1 endKey = true)) :
    scanWindow c startKey endKey = [x] := by
  obtain ⟨pre, post, rfl⟩ := List.append_of_mem hx
  obtain ⟨-, hpost, hcross⟩ := List.pairwise_append.1 hs
  have hxpost := (List.pairwise_cons.1 hpost).1
  have hxne : x.1 ≠ INFO := by
    intro h
    rw [h, bytesLt_irrefl] at hxI
    cases hxI
  have hpre : ∀ e ∈ pre, bytesLt e.1 startKey = true := by
    intro e he
    have hlt : bytesLt e.1 x.1 = true :=
      (bytesLt_iff _ _).2 (hcross e he x (List.mem_cons_self _ _))
    by_contra hn
    have hle : bytesLe startKey e.1 = true :=
      (bytesLe_iff_not_lt _ _).2 (by simpa using hn)
    refine hothers e (List.mem_append_left _ he) ?_ ?_
      ⟨hle, bytesLe_of_lt _ _ (bytesLt_of_lt_of_le _ _ _ hlt hhi)⟩
    · intro hI
      rw [hI] at hlt
      have := bytesLt_of_lt_of_le _ _ _ hlt (bytesLe_of_lt _ _ hxI)
      rw [bytesLt_irrefl] at this
      cases this
    · intro hE
      rw [hE, bytesLt_irrefl] at hlt
      cases hlt
  have hxs : bytesLt x.1 startKey = false := by
    have := (bytesLe_iff_not_lt _ _).1 hlo
    exact this
  have hpostQ : post.takeWhile (fun e => decide (e.1 ≠ INFO) && bytesLe e.1 endKey) = [] := by
    cases post with
    | nil => rfl
    | cons y rest =>
      have hy : bytesLt x.1 y.1 = true := (bytesLt_iff _ _).2 (hxpost y (List.mem_cons_self _ _))
      have hq : (decide (y.1 ≠ INFO) && bytesLe y.1 endKey) = false := by
        by_contra hn
        have hn2 : (decide (y.1 ≠ INFO) && bytesLe y.1 endKey) = true := by simpa using hn
        simp only [Bool.and_eq_true, decide_eq_true_eq] at hn2
        refine hothers y (List.mem_append_right _ (List.mem_cons_of_mem _
          (List.mem_cons_self _ _))) hn2.1 ?_
          ⟨bytesLe_of_lt _ _ (bytesLt_of_le_of_lt _ _ _ hlo hy), hn2.2⟩
        intro hE
        rw [hE, bytesLt_irrefl] at hy
        cases hy
      rw [List.takeWhile_cons, hq]
      rfl
  unfold scanWindow seekSplit
  simp only []
  rw [dropWhile_front _ pre x post hpre hxs]
  have hxQ : (decide (x.1 ≠ INFO) && bytesLe x.1 endKey) = true := by
    simp [hxne, hhi]
  rw [List.takeWhile_cons, hxQ, hpostQ]
  rfl

/-! ## The query loops -/

theorem rangeA_done {F : Type} (L : Lib F) (c : Container) (toUnix step : Int) (fuel : Nat)
    (start : Int) (acc : List (List F) × List Bytes) (h : ¬ start < toUnix) :
    rangeA L c toUnix step fuel start acc = some (Except.ok acc) := by
  cases fuel <;> simp [rangeA, h]

theorem rangeB_done {F : Type} (L : Lib F) (c : Container) (toUnix step : Int) (fuel : Nat)
    (cur : Int) (acc : List (List F) × List Bytes) (h : ¬ cur < toUnix) :
    rangeB L c toUnix step fuel cur acc = some (Except.ok acc) := by
  cases fuel <;> simp [rangeB, h]

theorem zipWith_single_row {F : Type} (labels : List Bytes) (row : List F) (i : Nat) (d : F)
    (h : i + labels.length ≤ row.length) :
    List.zipWith (fun name k => (⟨name, [row].map fun r => r.getD k d⟩ : Dataset F)) labels
        (List.range' i labels.length) =
      List.zipWith (fun name x => ⟨name, [x]⟩) labels (row.drop i) := by
  induction labels generalizing i with
  | nil => simp
  | cons label rest ih =>
    simp only [List.length_cons] at h
    have hi : i < row.length := by omega
    rw [List.length_cons, List.range'_succ, List.drop_eq_getElem_cons hi, List.zipWith_cons_cons,
      List.zipWith_cons_cons, ih (i + 1) (by omega)]
    simp [List.getElem?_eq_getElem hi]

theorem Before_of_lt (a b : Time) (h : a.sec < b.sec) : b.Before a = false := by
  unfold Time.Before
  have h1 : ¬ b.sec < a.sec := by omega
  have h2 : ¬ b.sec = a.sec := by omega
  simp [h1, h2]

theorem map_eq_self {α : Type} (f : α → α) (l : List α) (h : ∀ x ∈ l, f x = x) :
    l.map f = l := by
  induction l with
  | nil => rfl
  | cons a as ih =>
    rw [List.map_cons, h a (List.mem_cons_self _ _),
      ih (fun x hx => h x (List.mem_cons_of_mem _ hx))]

/-! ## Malformed values -/

theorem parseFields_bad {F : Type} (L : Lib F) (fields : List Bytes)
    (h : ∃ f ∈ fields, L.parseFloat f = none) :
    parseFields L fields = Except.error Error.DataError := by
  induction fields with
  | nil => simp at h
  | cons v rest ih =>
    simp only [parseFields]
    cases hv : L.parseFloat v with
    | none => rfl
    | some x =>
      simp only []
      obtain ⟨f, hf, hnone⟩ := h
      rcases List.mem_cons.1 hf with rfl | hf
      · rw [hv] at hnone; cases hnone
      · rw [ih ⟨f, hf, hnone⟩]

theorem parseFields_good {F : Type} (L : Lib F) (fields : List Bytes)
    (h : ∀ f ∈ fields, L.parseFloat f ≠ none) :
    ∃ row, parseFields L fields = Except.ok row ∧ row.length = fields.length := by
  induction fields with
  | nil => exact ⟨[], rfl, rfl⟩
  | cons v rest ih =>
    obtain ⟨row, hrow, hlen⟩ := ih (fun f hf => h f (List.mem_cons_of_mem _ hf))
    cases hv : L.parseFloat v with
    | none => exact absurd hv (h v (List.mem_cons_self _ _))
    | some x => exact ⟨x :: row, by simp [parseFields, hv, hrow], by simp [hlen]⟩

/-- One step of a query on values that all have `n` fields: a field that is no number
ends the step with a `DataError`; otherwise the values parse to rows of length `n`. -/
theorem splitAll_outcome {F : Type} (L : Lib F) (w : List Bytes) (n : Nat)
    (hcount : ∀ v ∈ w, (stringsSplit delimiter v).length = n) :
    ((∃ v ∈ w, ∃ f ∈ stringsSplit delimiter v, L.parseFloat f = none) ∧
      splitAll L w = Except.error Error.DataError) ∨
    ((¬ ∃ v ∈ w, ∃ f ∈ stringsSplit delimiter v, L.parseFloat f = none) ∧
      ∃ rows, splitAll L w = Except.ok rows ∧ rows.length = w.length ∧
        ∀ r ∈ rows, r.length = n) := by
  induction w with
  | nil => exact Or.inr ⟨by simp, [], rfl, rfl, by simp⟩
  | cons v rest ih =>
    have hv := hcount v (List.mem_cons_self _ _)
    by_cases hbad : ∃ f ∈ stringsSplit delimiter v, L.parseFloat f = none
    · left
      refine ⟨⟨v, List.mem_cons_self _ _, hbad⟩, ?_⟩
      simp [splitAll, splitToFloat, parseFields_bad L _ hbad]
    · obtain ⟨row, hrow, hlen⟩ := parseFields_good L (stringsSplit delimiter v)
        (fun f hf hnone => hbad ⟨f, hf, hnone⟩)
      rcases ih (fun x hx => hcount x (List.mem_cons_of_mem _ hx)) with
        ⟨⟨x, hx, hxbad⟩, herr⟩ | ⟨hgood, rows, hrows, hl, hall⟩
      · left
        refine ⟨⟨x, List.mem_cons_of_mem _ hx, hxbad⟩, ?_⟩
        simp [splitAll, splitToFloat, hrow, herr]
      · right
        refine ⟨?_, row :: rows, ?_, by simp [hl], ?_⟩
        · rintro ⟨x, hx, hxbad⟩
          rcases List.mem_cons.1 hx with rfl | hx
          · exact hbad hxbad
          · exact hgood ⟨x, hx, hxbad⟩
        · simp [splitAll, splitToFloat, hrow, hrows]
        · intro r hr
          rcases List.mem_cons.1 hr with rfl | hr
          · rw [hlen, hv]
          · exact hall r hr

theorem stringsSplit_length_pos (sep : Nat) (s : Bytes) : 1 ≤ (stringsSplit sep s).length := by
  have := stringsSplit_ne_nil sep s
  have := List.length_pos.2 this
  omega

theorem rangeA_nonNumeric {F : Type} (L : Lib F) (c : Container) (toUnix step : Int) (n : Nat)
    (fuel : Nat) (start : Int) (acc : List (List F) × List Bytes) (ws : List (List Bytes))
    (hscan : scannedA c toUnix step fuel start = some ws)
    (hcount : ∀ w ∈ ws, ∀ v ∈ w, (stringsSplit delimiter v).length = n)
    (hbad : ∃ w ∈ ws, ∃ v ∈ w, ∃ f ∈ stringsSplit delimiter v, L.parseFloat f = none) :
    rangeA L c toUnix step fuel start acc = some (Except.error Error.DataError) := by
  induction fuel generalizing start acc ws with
  | zero =>
    simp only [scannedA] at hscan
    split_ifs at hscan
    cases hscan
    simp at hbad
  | succ f ih =>
    simp only [scannedA] at hscan
    split_ifs at hscan with hlt
    · cases hrest : scannedA c toUnix step f (wrap64 (start + step)) with
      | none => rw [hrest] at hscan; cases hscan
      | some rest =>
        rw [hrest] at hscan
        simp only [Option.map_some', Option.some.injEq] at hscan
        subst hscan
        simp only [rangeA, if_pos hlt]
        rcases splitAll_outcome L _ n (hcount _ (List.mem_cons_self _ _)) with
          ⟨-, herr⟩ | ⟨hgood, rows, hrows, hl, hall⟩
        · rw [herr]
        · have hbad2 : ∃ w ∈ rest, ∃ v ∈ w, ∃ f ∈ stringsSplit delimiter v,
              L.parseFloat f = none := by
            obtain ⟨w, hw, hwbad⟩ := hbad
            rcases List.mem_cons.1 hw with rfl | hw
            · exact absurd hwbad hgood
            · exact ⟨w, hw, hwbad⟩
          have hcount2 : ∀ w ∈ rest, ∀ v ∈ w, (stringsSplit delimiter v).length = n :=
            fun w hw => hcount w (List.mem_cons_of_mem _ hw)
          rw [hrows]
          simp only []
          split_ifs with hlen
          · exact ih _ _ rest hrest hcount2 hbad2
          · have hrne : rows ≠ [] := by
              intro h
              rw [h] at hlen
              simp at hlen
            obtain ⟨r0, hr0⟩ := List.exists_mem_of_ne_nil rows hrne
            have hn : 1 ≤ n := by
              have hwne : (List.map Prod.snd (scanWindow c (fmtInt start)
                  (fmtInt (wrap64 (start + step))))) ≠ [] := by
                intro h
                rw [h] at hl
                simp at hl
                exact hrne hl
              obtain ⟨v, hv⟩ := List.exists_mem_of_ne_nil _ hwne
              rw [← hcount _ (List.mem_cons_self _ _) v hv]
              exact stringsSplit_length_pos _ _
            obtain ⟨a, ha, -⟩ := averageInStep_ok L rows n hrne hn hall
            rw [ha]
            exact ih _ _ rest hrest hcount2 hbad2
    · cases hscan
      simp at hbad

theorem rangeB_nonNumeric {F : Type} (L : Lib F) (c : Container) (toUnix step : Int) (n : Nat)
    (fuel : Nat) (cur : Int) (acc : List (List F) × List Bytes) (ws : List (List Bytes))
    (hscan : scannedB c toUnix step fuel cur = some ws)
    (hcount : ∀ w ∈ ws, ∀ v ∈ w, (stringsSplit delimiter v).length = n)
    (hbad : ∃ w ∈ ws, ∃ v ∈ w, ∃ f ∈ stringsSplit delimiter v, L.parseFloat f = none) :
    rangeB L c toUnix step fuel cur acc = some (Except.error Error.DataError) := by
  induction fuel generalizing cur acc ws with
  | zero =>
    simp only [scannedB] at hscan
    split_ifs at hscan
    cases hscan
    simp at hbad
  | succ f ih =>
    simp only [scannedB] at hscan
    split_ifs at hscan with hlt hskip
    · cases hrest : scannedB c toUnix step f (wrap64 (cur + step)) with
      | none => rw [hrest] at hscan; cases hscan
      | some rest =>
        rw [hrest] at hscan
        simp only [Option.map_some', Option.some.injEq] at hscan
        subst hscan
        simp only [rangeB, if_pos hlt, if_pos hskip]
        refine ih _ _ rest hrest (fun w hw => hcount w (List.mem_cons_of_mem _ hw)) ?_
        obtain ⟨w, hw, v, hv, hwbad⟩ := hbad
        rcases List.mem_cons.1 hw with rfl | hw
        · simp at hv
        · exact ⟨w, hw, v, hv, hwbad⟩
    · cases hrest : scannedB c toUnix step f (wrap64 (cur + step)) with
      | none => rw [hrest] at hscan; cases hscan
      | some rest =>
        rw [hrest] at hscan
        simp only [Option.map_some', Option.some.injEq] at hscan
        subst hscan
        simp only [rangeB, if_pos hlt, if_neg hskip]
        rcases splitAll_outcome L _ n (hcount _ (List.mem_cons_self _ _)) with
          ⟨-, herr⟩ | ⟨hgood, rows, hrows, hl, hall⟩
        · rw [herr]
        · have hbad2 : ∃ w ∈ rest, ∃ v ∈ w, ∃ f ∈ stringsSplit delimiter v,
              L.parseFloat f = none := by
            obtain ⟨w, hw, hwbad⟩ := hbad
            rcases List.mem_cons.1 hw with rfl | hw
            · exact absurd hwbad hgood
            · exact ⟨w, hw, hwbad⟩
          have hcount2 : ∀ w ∈ rest, ∀ v ∈ w, (stringsSplit delimiter v).length = n :=
            fun w hw => hcount w (List.mem_cons_of_mem _ hw)
          rw [hrows]
          simp only []
          split_ifs with hlen
          · exact ih _ _ rest hrest hcount2 hbad2
          · have hrne : rows ≠ [] := by
              intro h
              rw [h] at hlen
              simp at hlen
            have hn : 1 ≤ n := by
              have hwne : neighbours (seekPrev c (fmtInt cur)) (seek c (fmtInt cur)) ≠ [] := by
                intro h
                rw [h] at hl
                simp at hl
                exact hrne hl
              obtain ⟨v, hv⟩ := List.exists_mem_of_ne_nil _ hwne
              rw [← hcount _ (List.mem_cons_self _ _) v hv]
              exact stringsSplit_length_pos _ _
            obtain ⟨a, ha, -⟩ := averageInStep_ok L rows n hrne hn hall
            rw [ha]
            exact ih _ _ rest hrest hcount2 hbad2
    · cases hscan
      simp at hbad

/-! ## The write path on a container of timestamped samples -/

theorem sampleCount_render (es : List (Int × Bytes)) (d : Bytes) :
    sampleCount (renderSamples es d) = es.length := by
  unfold sampleCount renderSamples
  rw [List.filter_append]
  have h1 : (es.map fun p => (fmtInt p.1, p.2)).filter (fun e => decide (e.1 ≠ INFO)) =
      es.map fun p => (fmtInt p.1, p.2) := by
    apply List.filter_eq_self.2
    intro e he
    obtain ⟨p, -, rfl⟩ := List.mem_map.1 he
    simpa using fmtInt_ne_INFO p.1
  rw [h1]
  simp

theorem evict_render (es : List (Int × Bytes)) (d : Bytes) (cutoff : Int) :
    (renderSamples es d).dropWhile (fun e => bytesLe e.1 (fmtInt cutoff)) =
      renderSamples (es.dropWhile fun p => bytesLe (fmtInt p.1) (fmtInt cutoff)) d := by
  induction es with
  | nil => simp [renderSamples, List.dropWhile, INFO_not_le_fmtInt]
  | cons p rest ih =>
    unfold renderSamples at ih ⊢
    simp only [List.map_cons, List.cons_append, List.dropWhile_cons]
    split_ifs with h
    · exact ih
    · rfl

theorem evict_keeps_gt (es : List (Int × Bytes)) (q : Int × Bytes → Bool) (cutoff : Int)
    (hsorted : es.Pairwise fun a b => a.1 < b.1)
    (hq : ∀ p ∈ es, p.1 ≤ cutoff → q p = true) :
    ∀ p ∈ es.dropWhile q, cutoff < p.1 := by
  induction es with
  | nil => simp
  | cons a rest ih =>
    have h2 := List.pairwise_cons.1 hsorted
    rw [List.dropWhile_cons]
    split_ifs with h
    · exact ih h2.2 (fun p hp => hq p (List.mem_cons_of_mem _ hp))
    · have ha : cutoff < a.1 := by
        by_contra hn
        exact h (hq a (List.mem_cons_self _ _) (not_lt.1 hn))
      intro p hp
      rcases List.mem_cons.1 hp with rfl | hp
      · exact ha
      · exact lt_trans ha (h2.1 p hp)

theorem put_render (es : List (Int × Bytes)) (d : Bytes) (t : Int) (v : Bytes) (S : Int)
    (hS : 1 ≤ S) (ht : 0 ≤ t)
    (hgap : es.Pairwise fun a b => a.1 + S ≤ b.1)
    (hdig : ∀ p ∈ es, 0 ≤ p.1 ∧ (fmtInt p.1).length = (fmtInt t).length)
    (hrel : ∀ p ∈ es, p.1 = t ∨ p.1 + S ≤ t) :
    put (fmtInt t) v (renderSamples es d) =
      renderSamples (es.filter (fun p => decide (p.1 ≠ t)) ++ [(t, v)]) d := by
  induction es with
  | nil =>
    simp [renderSamples, put, fmtInt_lt_INFO]
  | cons p rest ih =>
    have h2 := List.pairwise_cons.1 hgap
    have hp := hdig p (List.mem_cons_self _ _)
    have hcmp := fmtInt_compare t p.1 ht hp.1 hp.2.symm
    rcases hrel p (List.mem_cons_self _ _) with hpt | hpt
    · have hrest : rest = [] := by
        cases rest with
        | nil => rfl
        | cons q rest2 =>
          exfalso
          have h3 := h2.1 q (List.mem_cons_self _ _)
          rcases hrel q (List.mem_cons_of_mem _ (List.mem_cons_self _ _)) with hq | hq <;> omega
      subst hrest
      simp [renderSamples, put, hpt, bytesCompare_self]
    · have hlt : p.1 < t := by omega
      have hne : p.1 ≠ t := by omega
      have ih2 := ih h2.2 (fun q hq => hdig q (List.mem_cons_of_mem _ hq))
        (fun q hq => hrel q (List.mem_cons_of_mem _ hq))
      have hl : renderSamples (p :: rest) d = (fmtInt p.1, p.2) :: renderSamples rest d := rfl
      have hr : renderSamples (List.filter (fun p => decide (p.1 ≠ t)) (p :: rest) ++ [(t, v)]) d =
          (fmtInt p.1, p.2) ::
            renderSamples (List.filter (fun p => decide (p.1 ≠ t)) rest ++ [(t, v)]) d := by
        simp [renderSamples, List.filter_cons, hne]
      rw [hl, hr, ← ih2]
      simp only [put, hcmp.2.2 hlt]

theorem gap_count (S : Int) (l : List Int) (C : Nat) (lo : Int)
    (hgap : l.Pairwise fun a b => a + S ≤ b)
    (hrange : ∀ x ∈ l, lo < x ∧ x ≤ lo + C * S) : l.length ≤ C := by
  induction l generalizing C lo with
  | nil => exact Nat.zero_le _
  | cons a rest ih =>
    have h2 := List.pairwise_cons.1 hgap
    have ha := hrange a (List.mem_cons_self _ _)
    cases C with
    | zero =>
      exfalso
      simp at ha
      omega
    | succ C1 =>
      have := ih C1 (lo + S) h2.2 (fun x hx => by
        have hx1 := h2.1 x hx
        have hx2 := hrange x (List.mem_cons_of_mem _ hx)
        refine ⟨by omega, ?_⟩
        have : ((C1 + 1 : Nat) : Int) * S = C1 * S + S := by push_cast; ring
        rw [this] at hx2
        omega)
      simp only [List.length_cons]
      omega

/-- One timestamped write into a container of samples written in step: the samples keep
their spacing and digit count, none is later than the write, and at most `Capacity` of
them are retained. -/
theorem saveTx_render {F : Type} (L : Lib F) (inf : info) (t : Int) (params : List F)
    (es : List (Int × Bytes)) (d : Bytes) (D : Nat)
    (hcap : 1 ≤ inf.Capacity) (hstep : 1 ≤ inf.Step)
    (hprod : inf.Capacity * inf.Step < 2 ^ 63)
    (ht : 0 ≤ t ∧ t < 2 ^ 63 ∧ (fmtInt t).length = D)
    (hgap : es.Pairwise fun a b => a.1 + inf.Step ≤ b.1)
    (hdig : ∀ p ∈ es, 0 ≤ p.1 ∧ (fmtInt p.1).length = D)
    (hrel : ∀ p ∈ es, p.1 = t ∨ p.1 + inf.Step ≤ t)
    (hlen : (es.length : Int) ≤ inf.Capacity) :
    ∃ es1, saveTx L inf t params (renderSamples es d) = renderSamples es1 d ∧
      (es1.Pairwise fun a b => a.1 + inf.Step ≤ b.1) ∧
      (∀ p ∈ es1, 0 ≤ p.1 ∧ (fmtInt p.1).length = D) ∧
      (∀ p ∈ es1, p.1 = t ∨ p.1 + inf.Step ≤ t) ∧
      (es1.length : Int) ≤ inf.Capacity := by
  have hcs : 1 ≤ inf.Capacity * inf.Step := by nlinarith
  have hcut : wrap64 (t - wrap64 (inf.Capacity * inf.Step)) = t - inf.Capacity * inf.Step := by
    rw [wrap64_of_range (inf.Capacity * inf.Step) (by omega) hprod]
    exact wrap64_of_range _ (by omega) (by omega)
  -- the samples that stay after the eviction pass
  obtain ⟨kept, hkeptEq, hsub, hkeptLen⟩ : ∃ kept : List (Int × Bytes),
      (if ((renderSamples es d).length : Int) - inf.Capacity > 0 then
          (renderSamples es d).dropWhile (fun e =>
            bytesLe e.1 (fmtInt (wrap64 (t - wrap64 (inf.Capacity * inf.Step)))))
        else renderSamples es d) = renderSamples kept d ∧
      kept.Sublist es ∧
      ((kept.filter (fun p => decide (p.1 ≠ t)) ++ [(t, formatValue L params)]).length : Int)
        ≤ inf.Capacity := by
    have hrl : (renderSamples es d).length = es.length + 1 := by simp [renderSamples]
    split_ifs with hev
    · refine ⟨_, evict_render es d _, List.dropWhile_sublist _, ?_⟩
      rw [hcut]
      have hsorted : es.Pairwise fun a b => a.1 < b.1 :=
        hgap.imp (fun h => by omega)
      have hgt := evict_keeps_gt es
        (fun p => bytesLe (fmtInt p.1) (fmtInt (t - inf.Capacity * inf.Step)))
        (t - inf.Capacity * inf.Step) hsorted (by
          intro p hp hle
          have hpd := hdig p hp
          have hpt : p.1 ≤ t := by
            rcases hrel p hp with h | h <;> omega
          have hlenc : (fmtInt (t - inf.Capacity * inf.Step)).length = (fmtInt p.1).length :=
            fmtInt_length_between p.1 _ t hpd.1 hle (by omega) (by rw [hpd.2, ht.2.2])
          have hcmp := fmtInt_compare p.1 (t - inf.Capacity * inf.Step) hpd.1 (by omega)
            hlenc.symm
          rw [bytesLe_iff]
          rcases lt_or_eq_of_le hle with h | h
          · rw [hcmp.1 h]; simp
          · rw [hcmp.2.1 h]; simp)
      set kept := es.dropWhile fun p =>
        bytesLe (fmtInt p.1) (fmtInt (t - inf.Capacity * inf.Step)) with hkept
      have hsubk : kept.Sublist es := List.dropWhile_sublist _
      have hcount := gap_count inf.Step
        ((kept.filter (fun p => decide (p.1 ≠ t)) ++ [(t, formatValue L params)]).map Prod.fst)
        inf.Capacity.toNat (t - inf.Capacity * inf.Step) (by
          rw [List.pairwise_map, List.pairwise_append]
          refine ⟨(hgap.sublist (List.Sublist.trans (List.filter_sublist _) hsubk)),
            List.pairwise_singleton _ _, ?_⟩
          intro a ha b hb
          simp only [List.mem_singleton] at hb
          subst hb
          obtain ⟨hak, hane⟩ := List.mem_filter.1 ha
          have hane2 : a.1 ≠ t := by simpa using hane
          rcases hrel a (hsubk.subset hak) with h | h
          · exact absurd h hane2
          · exact h) (by
          intro x hx
          obtain ⟨p, hp, rfl⟩ := List.mem_map.1 hx
          have hC : ((inf.Capacity.toNat : Nat) : Int) = inf.Capacity := by omega
          rw [hC]
          rcases List.mem_append.1 hp with hp | hp
          · obtain ⟨hpk, -⟩ := List.mem_filter.1 hp
            have := hgt p hpk
            rcases hrel p (hsubk.subset hpk) with h | h <;> constructor <;> omega
          · simp only [List.mem_singleton] at hp
            subst hp
            constructor <;> simp only [] <;> omega)
      rw [List.length_map] at hcount
      omega
    · refine ⟨es, rfl, List.Sublist.refl _, ?_⟩
      rw [hrl] at hev
      have := List.length_filter_le (fun p : Int × Bytes => decide (p.1 ≠ t)) es
      simp only [List.length_append, List.length_singleton]
      push_cast at hev ⊢
      omega
  refine ⟨kept.filter (fun p => decide (p.1 ≠ t)) ++ [(t, formatValue L params)], ?_, ?_, ?_,
    ?_, hkeptLen⟩
  · unfold saveTx
    simp only []
    rw [hkeptEq]
    exact put_render kept d t _ inf.Step hstep ht.1 (hgap.sublist hsub)
      (fun p hp => by
        have := hdig p (hsub.subset hp)
        exact ⟨this.1, by rw [this.2, ht.2.2]⟩)
      (fun p hp => hrel p (hsub.subset hp))
  · rw [List.pairwise_append]
    refine ⟨hgap.sublist (List.Sublist.trans (List.filter_sublist _) hsub),
      List.pairwise_singleton _ _, ?_⟩
    intro a ha b hb
    simp only [List.mem_singleton] at hb
    subst hb
    obtain ⟨hak, hane⟩ := List.mem_filter.1 ha
    have hane2 : a.1 ≠ t := by simpa using hane
    rcases hrel a (hsub.subset hak) with h | h
    · exact absurd h hane2
    · exact h
  · intro p hp
    rcases List.mem_append.1 hp with hp | hp
    · exact hdig p (hsub.subset (List.mem_filter.1 hp).1)
    · simp only [List.mem_singleton] at hp
      subst hp
      exact ⟨ht.1, ht.2.2⟩
  · intro p hp
    rcases List.mem_append.1 hp with hp | hp
    · exact hrel p (hsub.subset (List.mem_filter.1 hp).1)
    · simp only [List.mem_singleton] at hp
      subst hp
      exact Or.inl rfl

theorem save_container {F : Type} (L : Lib F) (s : Storage) (rrd : RRDBucket) (inf : info)
    (db : DB) (c : Container) (t : Time) (params : List F) (hinf : rrd.inf = some inf)
    (hdb : s.db = some db) (hc : get rrd.bucketName db = some c) :
    ∃ db1, (rrd.save L s t params).1.db = some db1 ∧
      get rrd.bucketName db1 =
        some (if inf.Ds.length ≠ params.length then c else saveTx L inf t.sec params c) := by
  unfold RRDBucket.save
  simp only [hinf, hdb, hc]
  split_ifs with h
  · exact ⟨db, hdb, hc⟩
  · exact ⟨_, rfl, get_put_self _ _ _⟩

/-- A sequence of timestamped writes in step into a container of samples written in
step leaves at most `Capacity` samples. -/
theorem saveAll_render {F : Type} (L : Lib F) (rrd : RRDBucket) (inf : info) (d : Bytes)
    (D : Nat) (hinf : rrd.inf = some inf) (hcap : 1 ≤ inf.Capacity) (hstep : 1 ≤ inf.Step)
    (hprod : inf.Capacity * inf.Step < 2 ^ 63) (ws : List (Time × List F)) :
    ∀ (s : Storage) (db : DB) (es : List (Int × Bytes)),
      s.db = some db → get rrd.bucketName db = some (renderSamples es d) →
      (es.Pairwise fun a b => a.1 + inf.Step ≤ b.1) →
      (∀ p ∈ es, 0 ≤ p.1 ∧ (fmtInt p.1).length = D) →
      (es.length : Int) ≤ inf.Capacity →
      (∀ w ∈ ws, 0 ≤ w.1.sec ∧ w.1.sec < 2 ^ 63 ∧ (fmtInt w.1.sec).length = D) →
      (ws.map fun w => w.1.sec).Chain' (fun a b => a = b ∨ a + inf.Step ≤ b) →
      (∀ w ∈ ws.head?, ∀ p ∈ es, p.1 = w.1.sec ∨ p.1 + inf.Step ≤ w.1.sec) →
      ∃ db1 es1, (saveAll L rrd s ws).db = some db1 ∧
        get rrd.bucketName db1 = some (renderSamples es1 d) ∧
        (es1.length : Int) ≤ inf.Capacity := by
  induction ws with
  | nil =>
    intro s db es hdb hc _ _ hlen _ _ _
    exact ⟨db, es, hdb, hc, hlen⟩
  | cons w rest ih =>
    intro s db es hdb hc hgap hdig hlen hts hchain hhead
    obtain ⟨t, params⟩ := w
    have hrel := hhead (t, params) (by simp)
    have htw := hts (t, params) (List.mem_cons_self _ _)
    simp only [List.map_cons, List.chain'_cons'] at hchain
    obtain ⟨db1, hdb1, hc1⟩ := save_container L s rrd inf db _ t params hinf hdb hc
    obtain ⟨es1, hes1, hgap1, hdig1, hrel1, hlen1⟩ :
        ∃ es1, (if inf.Ds.length ≠ params.length then renderSamples es d
            else saveTx L inf t.sec params (renderSamples es d)) = renderSamples es1 d ∧
          (es1.Pairwise fun a b => a.1 + inf.Step ≤ b.1) ∧
          (∀ p ∈ es1, 0 ≤ p.1 ∧ (fmtInt p.1).length = D) ∧
          (∀ p ∈ es1, p.1 = t.sec ∨ p.1 + inf.Step ≤ t.sec) ∧
          (es1.length : Int) ≤ inf.Capacity := by
      split_ifs with har
      · exact ⟨es, rfl, hgap, hdig, hrel, hlen⟩
      · exact saveTx_render L inf t.sec params es d D hcap hstep hprod htw hgap hdig hrel hlen
    rw [hes1] at hc1
    simp only [saveAll]
    refine ih _ db1 es1 hdb1 hc1 hgap1 hdig1 hlen1
      (fun w hw => hts w (List.mem_cons_of_mem _ hw)) hchain.2 ?_
    intro w2 hw2 p hp
    have hR := hchain.1 w2.1.sec (by
      rw [List.head?_map]
      exact Option.mem_def.2 (by rw [Option.mem_def.1 hw2]; rfl))
    rcases hrel1 p hp with h | h <;> rcases hR with h2 | h2 <;> omega

/-! ## Mode B on samples written in step -/

/-- A seek in a container of samples with non-negative timestamps of one digit count
splits it by numeric order. -/
theorem seekSplit_render (pre post : List (Int × Bytes)) (d : Bytes) (cur : Int)
    (hcur : 0 ≤ cur)
    (hdig : ∀ p ∈ pre ++ post, 0 ≤ p.1 ∧ (fmtInt p.1).length = (fmtInt cur).length)
    (hpre : ∀ p ∈ pre, p.1 < cur) (hpost : ∀ p ∈ post.head?, cur ≤ p.1) :
    seekSplit (renderSamples (pre ++ post) d) (fmtInt cur) =
      (pre.map (fun p => (fmtInt p.1, p.2)),
        post.map (fun p => (fmtInt p.1, p.2)) ++ [(INFO, d)]) := by
  have hP : ∀ e ∈ pre.map (fun p : Int × Bytes => (fmtInt p.1, p.2)),
      bytesLt e.1 (fmtInt cur) = true := by
    intro e he
    obtain ⟨p, hp, rfl⟩ := List.mem_map.1 he
    have hd := hdig p (List.mem_append_left _ hp)
    exact (bytesLt_iff _ _).2 ((fmtInt_compare p.1 cur hd.1 hcur hd.2).1 (hpre p hp))
  obtain ⟨x, rest, hx, hxP⟩ : ∃ x rest,
      post.map (fun p : Int × Bytes => (fmtInt p.1, p.2)) ++ [(INFO, d)] = x :: rest ∧
      bytesLt x.1 (fmtInt cur) = false := by
    cases post with
    | nil =>
      refine ⟨(INFO, d), [], rfl, ?_⟩
      have := INFO_not_le_fmtInt cur
      cases h : bytesLt INFO (fmtInt cur) with
      | false => rfl
      | true => rw [bytesLe_of_lt _ _ h] at this; cases this
    | cons q qs =>
      refine ⟨(fmtInt q.1, q.2), _, rfl, ?_⟩
      have hq := hpost q (by simp)
      have hd := hdig q (List.mem_append_right _ (List.mem_cons_self _ _))
      have hcmp := fmtInt_compare q.1 cur hd.1 hcur hd.2
      rw [← Bool.not_eq_true, bytesLt_iff]
      rcases lt_or_eq_of_le hq with h | h
      · rw [hcmp.2.2 h]; simp
      · rw [hcmp.2.1 h.symm]; simp
  unfold seekSplit renderSamples
  rw [List.map_append, List.append_assoc, hx, takeWhile_front _ _ x rest hP hxP,
    dropWhile_front _ _ x rest hP hxP]

theorem cadenceSamples_split {F : Type} (L : Lib F) (t0 : Int) (v : Nat → List F) (m k : Nat) :
    cadenceSamples L t0 v (m + k) =
      cadenceSamples L t0 v m ++
        (List.range' m k).map fun (i : Nat) => (t0 + 2 * (i : Int), formatValue L (v i)) := by
  unfold cadenceSamples
  rw [List.range_eq_range', List.range_eq_range', ← List.map_append]
  congr 1
  have h := List.range'_append 0 m k 1
  simp only [Nat.zero_add, Nat.one_mul] at h
  rw [h, Nat.add_comm]

theorem cadenceSamples_mem {F : Type} (L : Lib F) (t0 : Int) (v : Nat → List F) (n : Nat)
    (p : Int × Bytes) (hp : p ∈ cadenceSamples L t0 v n) :
    ∃ i, i < n ∧ p = (t0 + 2 * (i : Int), formatValue L (v i)) := by
  unfold cadenceSamples at hp
  obtain ⟨i, hi, rfl⟩ := List.mem_map.1 hp
  exact ⟨i, List.mem_range.1 hi, rfl⟩

theorem formatValue_ne_nil {F : Type} (L : Lib F) (params : List F) (hne : params ≠ [])
    (h : ∀ x ∈ params, L.sprint x ≠ []) : 0 < (formatValue L params).length := by
  cases params with
  | nil => exact absurd rfl hne
  | cons x rest =>
    have hx := List.length_pos.2 (h x (List.mem_cons_self _ _))
    cases rest with
    | nil => simpa [formatValue, stringsJoin] using hx
    | cons y rest2 =>
      simp only [formatValue, List.map_cons, stringsJoin, List.length_append, List.length_cons]
      omega

/-- The neighbours of an instant between the samples `i` and `i + 1`, or on the
sample `i + 1`. -/
theorem seek_between {F : Type} (L : Lib F) (t0 : Int) (v : Nat → List F) (n i : Nat) (d : Bytes)
    (cur : Int) (ht0 : 0 ≤ t0) (hi : i + 1 < n)
    (hdig : ∀ x : Int, t0 ≤ x → x ≤ t0 + 2 * (n : Int) - 1 →
      (fmtInt x).length = (fmtInt t0).length)
    (hlo : t0 + 2 * (i : Int) < cur) (hhi : cur ≤ t0 + 2 * (i : Int) + 2) :
    seek (renderSamples (cadenceSamples L t0 v n) d) (fmtInt cur) =
        some (fmtInt (t0 + 2 * ((i + 1 : Nat) : Int)), formatValue L (v (i + 1))) ∧
      seekPrev (renderSamples (cadenceSamples L t0 v n) d) (fmtInt cur) =
        some (fmtInt (t0 + 2 * (i : Int)), formatValue L (v i)) := by
  obtain ⟨k, rfl⟩ : ∃ k, n = (i + 1) + (k + 1) := ⟨n - i - 2, by omega⟩
  have hsplit := seekSplit_render (cadenceSamples L t0 v (i + 1))
    ((List.range' (i + 1) (k + 1)).map fun (j : Nat) => (t0 + 2 * (j : Int), formatValue L (v j))) d cur
    (by omega)
    (by
      intro p hp
      rw [← cadenceSamples_split] at hp
      obtain ⟨j, hj, rfl⟩ := cadenceSamples_mem L t0 v _ p hp
      simp only []
      refine ⟨by omega, ?_⟩
      rw [hdig _ (by omega) (by push_cast at hj ⊢; omega), hdig cur (by omega)
        (by push_cast; omega)])
    (by
      intro p hp
      obtain ⟨j, hj, rfl⟩ := cadenceSamples_mem L t0 v _ p hp
      simp only []
      omega)
    (by
      intro p hp
      simp only [List.range'_succ, List.map_cons, List.head?_cons, Option.mem_def,
        Option.some.injEq] at hp
      subst hp
      simp only []
      push_cast
      omega)
  rw [← cadenceSamples_split] at hsplit
  unfold seek seekPrev
  rw [hsplit]
  constructor
  · simp [List.range'_succ]
  · simp [cadenceSamples, List.range_succ]

/-- At the first instant the seek finds the first sample, which has no predecessor. -/
theorem seek_first {F : Type} (L : Lib F) (t0 : Int) (v : Nat → List F) (n : Nat) (d : Bytes)
    (ht0 : 0 ≤ t0) (hn : 1 ≤ n)
    (hdig : ∀ x : Int, t0 ≤ x → x ≤ t0 + 2 * (n : Int) - 1 →
      (fmtInt x).length = (fmtInt t0).length) :
    seek (renderSamples (cadenceSamples L t0 v n) d) (fmtInt t0) =
        some (fmtInt t0, formatValue L (v 0)) ∧
      seekPrev (renderSamples (cadenceSamples L t0 v n) d) (fmtInt t0) = none := by
  obtain ⟨k, rfl⟩ : ∃ k, n = k + 1 := ⟨n - 1, by omega⟩
  have hsplit := seekSplit_render [] (cadenceSamples L t0 v (k + 1)) d t0 ht0
    (by
      intro p hp
      obtain ⟨j, hj, rfl⟩ := cadenceSamples_mem L t0 v _ p (by simpa using hp)
      simp only []
      exact ⟨by omega, hdig _ (by omega) (by push_cast at hj ⊢; omega)⟩)
    (by simp)
    (by
      intro p hp
      obtain ⟨j, hj, rfl⟩ := cadenceSamples_mem L t0 v _ p (List.mem_of_mem_head? hp)
      simp only []
      omega)
  rw [List.nil_append] at hsplit
  unfold seek seekPrev
  rw [hsplit]
  constructor
  · rw [show cadenceSamples L t0 v (k + 1) = cadenceSamples L t0 v (0 + (k + 1)) by simp,
      cadenceSamples_split]
    simp [cadenceSamples, List.range'_succ]
  · rfl

/-- Past the last sample the seek finds the descriptor. -/
theorem seek_last {F : Type} (L : Lib F) (t0 : Int) (v : Nat → List F) (n : Nat) (d : Bytes)
    (cur : Int) (ht0 : 0 ≤ t0) (hn : 1 ≤ n)
    (hdig : ∀ x : Int, t0 ≤ x → x ≤ t0 + 2 * (n : Int) - 1 →
      (fmtInt x).length = (fmtInt t0).length)
    (hlo : t0 + 2 * (n : Int) - 2 < cur) (hhi : cur ≤ t0 + 2 * (n : Int) - 1) :
    (seek (renderSamples (cadenceSamples L t0 v n) d) (fmtInt cur)).map Prod.fst =
      some INFO := by
  have hsplit := seekSplit_render (cadenceSamples L t0 v n) [] d cur (by omega)
    (by
      intro p hp
      obtain ⟨j, hj, rfl⟩ := cadenceSamples_mem L t0 v _ p (by simpa using hp)
      simp only []
      refine ⟨by omega, ?_⟩
      rw [hdig _ (by omega) (by omega), hdig cur (by omega) hhi])
    (by
      intro p hp
      obtain ⟨j, hj, rfl⟩ := cadenceSamples_mem L t0 v _ p hp
      simp only []
      omega)
    (by simp)
  rw [List.append_nil] at hsplit
  unfold seek
  rw [hsplit]
  rfl

theorem zipWith_congr_left {α β γ : Type} (f g : α → β → γ) (u : List α) (w : List β)
    (h : ∀ a ∈ u, ∀ b, f a b = g a b) : List.zipWith f u w = List.zipWith g u w := by
  induction u generalizing w with
  | nil => simp
  | cons a as ih =>
    cases w with
    | nil => simp
    | cons b bs =>
      rw [List.zipWith_cons_cons, List.zipWith_cons_cons, h a (List.mem_cons_self _ _) b,
        ih bs (fun x hx => h x (List.mem_cons_of_mem _ hx))]

theorem averageInStep_midpoint {F : Type} (L : Lib F) (u w : List F) (hne : u ≠ [])
    (hlen : w.length = u.length) (hzero : ∀ x ∈ u, L.add L.zero x = x) :
    averageInStep L [u, w] = Except.ok (midpoint L u w) := by
  rw [averageInStep_pair L u w hne hlen]
  unfold midpoint
  congr 1
  exact zipWith_congr_left _ _ u w (fun a ha b => by rw [hzero a ha])

/-- One instant of Mode B strictly after the sample `i` and not after the sample `i + 1`:
the point is the mean of the two samples. -/
theorem rangeB_between {F : Type} (L : Lib F) (t0 : Int) (v : Nat → List F) (n i m : Nat)
    (d : Bytes) (cur : Int) (fuel : Nat) (acc : List (List F) × List Bytes)
    (ht0 : 0 ≤ t0) (hmax : t0 + 2 * (n : Int) < 2 ^ 63) (hi : i + 1 < n)
    (hdig : ∀ x : Int, t0 ≤ x → x ≤ t0 + 2 * (n : Int) - 1 →
      (fmtInt x).length = (fmtInt t0).length)
    (hvals : ∀ j < n, v j ≠ [] ∧ (v j).length = m ∧ ∀ x ∈ v j,
      L.parseFloat (L.sprint x) = some x ∧ delimiter ∉ L.sprint x ∧ L.sprint x ≠ [])
    (hzero : ∀ j < n, ∀ x ∈ v j, L.add L.zero x = x)
    (hlo : t0 + 2 * (i : Int) < cur) (hhi : cur ≤ t0 + 2 * (i : Int) + 2) :
    rangeB L (renderSamples (cadenceSamples L t0 v n) d) (t0 + 2 * (n : Int)) 1 (fuel + 1) cur
        acc =
      rangeB L (renderSamples (cadenceSamples L t0 v n) d) (t0 + 2 * (n : Int)) 1 fuel
        (cur + 1) (acc.1 ++ [midpoint L (v i) (v (i + 1))], acc.2 ++ [L.stamp cur]) := by
  obtain ⟨hnext, hprev⟩ := seek_between L t0 v n i d cur ht0 hi hdig hlo hhi
  have hlt : cur < t0 + 2 * (n : Int) := by omega
  have hwrap : wrap64 (cur + 1) = cur + 1 := wrap64_of_range _ (by omega) (by omega)
  obtain ⟨hne0, hlen0, hrt0⟩ := hvals i (by omega)
  obtain ⟨hne1, hlen1, hrt1⟩ := hvals (i + 1) hi
  have hpos0 := formatValue_ne_nil L (v i) hne0 (fun x hx => (hrt0 x hx).2.2)
  have hpos1 := formatValue_ne_nil L (v (i + 1)) hne1 (fun x hx => (hrt1 x hx).2.2)
  have hsplit : splitAll L [formatValue L (v i), formatValue L (v (i + 1))] =
      Except.ok [v i, v (i + 1)] := by
    simp [splitAll,
      splitToFloat_formatValue L (v i) hne0 (fun x hx => ⟨(hrt0 x hx).1, (hrt0 x hx).2.1⟩),
      splitToFloat_formatValue L (v (i + 1)) hne1
        (fun x hx => ⟨(hrt1 x hx).1, (hrt1 x hx).2.1⟩)]
  have havg := averageInStep_midpoint L (v i) (v (i + 1)) hne0 (by rw [hlen1, hlen0])
    (hzero i (by omega))
  have hI1 : fmtInt (t0 + 2 * ((i + 1 : Nat) : Int)) ≠ INFO := fmtInt_ne_INFO _
  have hI0 : fmtInt (t0 + 2 * (i : Int)) ≠ INFO := fmtInt_ne_INFO _
  simp only [rangeB, if_pos hlt, hnext, hprev, Option.map_some', Option.some.injEq, hI1, hI0,
    or_self, if_false, neighbours, gt_iff_lt, hpos0, hpos1, if_true, List.singleton_append,
    hsplit, List.length_cons, List.length_nil, hwrap, havg]
  simp

/-- The instants of Mode B from just after the sample `i` to the end of the interval:
two points for each pair of neighbouring samples, none at the last instant. -/
theorem rangeB_pairs {F : Type} (L : Lib F) (t0 : Int) (v : Nat → List F) (n m : Nat)
    (d : Bytes) (ht0 : 0 ≤ t0) (hmax : t0 + 2 * (n : Int) < 2 ^ 63)
    (hdig : ∀ x : Int, t0 ≤ x → x ≤ t0 + 2 * (n : Int) - 1 →
      (fmtInt x).length = (fmtInt t0).length)
    (hvals : ∀ j < n, v j ≠ [] ∧ (v j).length = m ∧ ∀ x ∈ v j,
      L.parseFloat (L.sprint x) = some x ∧ delimiter ∉ L.sprint x ∧ L.sprint x ≠ [])
    (hzero : ∀ j < n, ∀ x ∈ v j, L.add L.zero x = x) (k : Nat) :
    ∀ (i fuel : Nat) (cur : Int) (acc : List (List F) × List Bytes),
      i + k + 1 = n → 2 * k + 1 ≤ fuel → cur = t0 + 2 * (i : Int) + 1 →
      rangeB L (renderSamples (cadenceSamples L t0 v n) d) (t0 + 2 * (n : Int)) 1 fuel cur acc =
        some (Except.ok
          (acc.1 ++ (List.range' i k).flatMap (fun (j : Nat) =>
              [midpoint L (v j) (v (j + 1)), midpoint L (v j) (v (j + 1))]),
            acc.2 ++ (List.range' i k).flatMap (fun (j : Nat) =>
              [L.stamp (t0 + 2 * (j : Int) + 1), L.stamp (t0 + 2 * (j : Int) + 2)]))) := by
  induction k with
  | zero =>
    intro i fuel cur acc hik hfuel hcur
    obtain ⟨f, rfl⟩ : ∃ f, fuel = f + 1 := ⟨fuel - 1, by omega⟩
    have hn : (n : Int) = i + 1 := by omega
    have hlt : cur < t0 + 2 * (n : Int) := by omega
    have hwrap : wrap64 (cur + 1) = cur + 1 := wrap64_of_range _ (by omega) (by omega)
    have hnext := seek_last L t0 v n d cur ht0 (by omega) hdig (by omega) (by omega)
    simp only [rangeB, if_pos hlt, hnext, true_or, if_true, hwrap]
    rw [rangeB_done L _ _ _ _ _ _ (by omega)]
    simp
  | succ k ih =>
    intro i fuel cur acc hik hfuel hcur
    obtain ⟨f, rfl⟩ : ∃ f, fuel = f + 2 := ⟨fuel - 2, by omega⟩
    rw [rangeB_between L t0 v n i m d cur (f + 1) acc ht0 hmax (by omega) hdig hvals hzero
        (by omega) (by omega),
      rangeB_between L t0 v n i m d (cur + 1) f _ ht0 hmax (by omega) hdig hvals hzero
        (by omega) (by omega),
      ih (i + 1) f (cur + 1 + 1) _ (by omega) (by omega) (by push_cast; omega)]
    subst hcur
    have hc2 : t0 + 2 * (i : Int) + 1 + 1 = t0 + 2 * (i : Int) + 2 := by ring
    simp only [List.range'_succ, List.flatMap_cons, List.append_assoc, List.cons_append,
      List.nil_append, hc2]

/-- Mode B over `n` samples two seconds apart, queried every second over their span. -/
theorem rangeB_cadence {F : Type} (L : Lib F) (t0 : Int) (v : Nat → List F) (n m : Nat)
    (d : Bytes) (fuel : Nat) (ht0 : 0 ≤ t0) (hn : 1 ≤ n) (hmax : t0 + 2 * (n : Int) < 2 ^ 63)
    (hdig : ∀ x : Int, t0 ≤ x → x ≤ t0 + 2 * (n : Int) - 1 →
      (fmtInt x).length = (fmtInt t0).length)
    (hvals : ∀ j < n, v j ≠ [] ∧ (v j).length = m ∧ ∀ x ∈ v j,
      L.parseFloat (L.sprint x) = some x ∧ delimiter ∉ L.sprint x ∧ L.sprint x ≠ [])
    (hzero : ∀ j < n, ∀ x ∈ v j, L.add L.zero x = x) (hone : ∀ x ∈ v 0, L.divLen x 1 = x)
    (hfuel : 2 * n ≤ fuel) :
    rangeB L (renderSamples (cadenceSamples L t0 v n) d) (t0 + 2 * (n : Int)) 1 fuel t0 ([], []) =
      some (Except.ok (interpolated L v n, interpolatedLabels L t0 n)) := by
  obtain ⟨f, rfl⟩ : ∃ f, fuel = f + 1 := ⟨fuel - 1, by omega⟩
  obtain ⟨hnext, hprev⟩ := seek_first L t0 v n d ht0 hn hdig
  obtain ⟨hne0, hlen0, hrt0⟩ := hvals 0 (by omega)
  have hpos0 := formatValue_ne_nil L (v 0) hne0 (fun x hx => (hrt0 x hx).2.2)
  have hlt : t0 < t0 + 2 * (n : Int) := by omega
  have hwrap : wrap64 (t0 + 1) = t0 + 1 := wrap64_of_range _ (by omega) (by omega)
  have hsplit : splitAll L [formatValue L (v 0)] = Except.ok [v 0] := by
    simp [splitAll,
      splitToFloat_formatValue L (v 0) hne0 (fun x hx => ⟨(hrt0 x hx).1, (hrt0 x hx).2.1⟩)]
  have havg : averageInStep L [v 0] = Except.ok (v 0) := by
    rw [averageInStep_single L (v 0) hne0]
    congr 1
    exact map_eq_self _ _ (fun x hx => by rw [hzero 0 (by omega) x hx, hone x hx])
  have hI0 : fmtInt t0 ≠ INFO := fmtInt_ne_INFO _
  simp only [rangeB, if_pos hlt, hnext, hprev, Option.map_some', Option.map_none',
    Option.some.injEq, hI0, or_self, if_false, neighbours, gt_iff_lt, hpos0, if_true,
    List.nil_append, hsplit, List.length_cons, List.length_nil, hwrap, havg]
  rw [if_neg (by simp)]
  have hrest := rangeB_pairs L t0 v n m d ht0 hmax hdig hvals hzero (n - 1) 0 f (t0 + 1)
    ([v 0], [L.stamp t0]) (by omega) (by omega) (by simp)
  rw [hrest]
  simp [interpolated, interpolatedLabels, List.range_eq_range']

theorem length_flatMap_pairs {α β : Type} (l : List α) (f : α → List β)
    (h : ∀ x, (f x).length = 2) : (l.flatMap f).length = 2 * l.length := by
  induction l with
  | nil => rfl
  | cons a as ih =>
    rw [List.flatMap_cons, List.length_append, h a, ih, List.length_cons]
    omega

/-! ## The shape of a query result -/

theorem datasetsFrom_nil {F : Type} (labels : List Bytes) (i : Nat) (acc : List (Dataset F)) :
    datasetsFrom ([] : List (List F)) labels i acc =
      (acc ++ labels.map (fun name => ⟨name, []⟩), none) := by
  induction labels generalizing i acc with
  | nil => simp [datasetsFrom]
  | cons label rest ih => simp [datasetsFrom, column, ih]

theorem column_length {F : Type} (values : List (List F)) (i : Nat) (data : List F)
    (h : column values i = some data) : data.length = values.length := by
  induction values generalizing data with
  | nil =>
    simp only [column, Option.some.injEq] at h
    subst h
    rfl
  | cons v rest ih =>
    simp only [column] at h
    cases hv : v.get? i with
    | none => rw [hv] at h; cases h
    | some x =>
      rw [hv] at h
      cases hc : column rest i with
      | none => rw [hc] at h; cases h
      | some d =>
        rw [hc] at h
        simp only [Option.some.injEq] at h
        rw [← h, List.length_cons, ih d hc, List.length_cons]

theorem datasetsFrom_shape {F : Type} (values : List (List F)) (labels : List Bytes) (i : Nat)
    (acc ds : List (Dataset F)) (h : datasetsFrom values labels i acc = (ds, none)) :
    ds.map (fun x => x.Label) = acc.map (fun x => x.Label) ++ labels ∧
    ∀ x ∈ ds, x ∈ acc ∨ x.Data.length = values.length := by
  induction labels generalizing i acc with
  | nil =>
    simp only [datasetsFrom, Prod.mk.injEq, and_true] at h
    subst h
    exact ⟨by simp, fun x hx => Or.inl hx⟩
  | cons label rest ih =>
    simp only [datasetsFrom] at h
    cases hc : column values i with
    | none => rw [hc] at h; simp at h
    | some data =>
      rw [hc] at h
      obtain ⟨h1, h2⟩ := ih (i + 1) _ h
      refine ⟨by rw [h1]; simp, ?_⟩
      intro x hx
      rcases h2 x hx with hx2 | hx2
      · rcases List.mem_append.1 hx2 with hx3 | hx3
        · exact Or.inl hx3
        · simp only [List.mem_singleton] at hx3
          subst hx3
          exact Or.inr (column_length values i data hc)
      · exact Or.inr hx2

theorem rangeA_lengths {F : Type} (L : Lib F) (c : Container) (toUnix step : Int) (fuel : Nat) :
    ∀ (start : Int) (acc r : List (List F) × List Bytes),
      acc.1.length = acc.2.length →
      rangeA L c toUnix step fuel start acc = some (Except.ok r) →
      r.1.length = r.2.length := by
  induction fuel with
  | zero =>
    intro start acc r hacc h
    simp only [rangeA] at h
    split_ifs at h
    simp only [Option.some.injEq, Except.ok.injEq] at h
    rw [← h]
    exact hacc
  | succ f ih =>
    intro start acc r hacc h
    simp only [rangeA] at h
    split_ifs at h with hlt
    · cases hs : splitAll L ((scanWindow c (fmtInt start)
          (fmtInt (wrap64 (start + step)))).map Prod.snd) with
      | error e => rw [hs] at h; simp at h
      | ok rows =>
        rw [hs] at h
        simp only [] at h
        split_ifs at h with hlen
        · exact ih _ _ _ hacc h
        · cases ha : averageInStep L rows with
          | error e => rw [ha] at h; simp at h
          | ok a =>
            rw [ha] at h
            exact ih _ _ _ (by simp [hacc]) h
    · simp only [Option.some.injEq, Except.ok.injEq] at h
      rw [← h]
      exact hacc

theorem rangeB_lengths {F : Type} (L : Lib F) (c : Container) (toUnix step : Int) (fuel : Nat) :
    ∀ (cur : Int) (acc r : List (List F) × List Bytes),
      acc.1.length = acc.2.length →
      rangeB L c toUnix step fuel cur acc = some (Except.ok r) →
      r.1.length = r.2.length := by
  induction fuel with
  | zero =>
    intro cur acc r hacc h
    simp only [rangeB] at h
    split_ifs at h
    simp only [Option.some.injEq, Except.ok.injEq] at h
    rw [← h]
    exact hacc
  | succ f ih =>
    intro cur acc r hacc h
    simp only [rangeB] at h
    split_ifs at h with hlt hskip
    · exact ih _ _ _ hacc h
    · cases hs : splitAll L (neighbours (seekPrev c (fmtInt cur)) (seek c (fmtInt cur))) with
      | error e => rw [hs] at h; simp at h
      | ok rows =>
        rw [hs] at h
        simp only [] at h
        split_ifs at h with hlen
        · exact ih _ _ _ hacc h
        · cases ha : averageInStep L rows with
          | error e => rw [ha] at h; simp at h
          | ok a =>
            rw [ha] at h
            exact ih _ _ _ (by simp [hacc]) h
    · simp only [Option.some.injEq, Except.ok.injEq] at h
      rw [← h]
      exact hacc

/-! ## The descriptor entry in a container -/

theorem saveTx_evictionRuns {F : Type} (L : Lib F) (inf : info) (unix : Int) (params : List F)
    (c : Container) :
    saveTx L inf unix params c =
      put (fmtInt unix) (formatValue L params)
        (if evictionRuns inf c = true then
          c.dropWhile (fun e =>
            bytesLe e.1 (fmtInt (wrap64 (unix - wrap64 (inf.Capacity * inf.Step)))))
        else c) := by
  unfold saveTx evictionRuns
  simp only [decide_eq_true_eq]

theorem length_sampleCount (c : Container) (d : Bytes) (hs : KeysSorted c)
    (hd : get INFO c = some d) : c.length = sampleCount c + 1 := by
  induction c with
  | nil => simp [get] at hd
  | cons e rest ih =>
    have h2 := List.pairwise_cons.1 hs
    by_cases he : e.1 = INFO
    · have hrest : ∀ r ∈ rest, decide (r.1 ≠ INFO) = true := by
        intro r hr
        have hlt := h2.1 r hr
        rw [he] at hlt
        simp only [decide_eq_true_eq]
        intro h
        rw [h, bytesCompare_self] at hlt
        cases hlt
      unfold sampleCount
      rw [List.filter_cons_of_neg (by simp [he]), List.filter_eq_self.2 hrest, List.length_cons]
    · have hd2 : get INFO rest = some d := by simpa [get, he] using hd
      have := ih h2.2 hd2
      unfold sampleCount at this ⊢
      rw [List.filter_cons_of_pos (by simp [he]), List.length_cons, List.length_cons, this]

theorem getLast_descriptor (c : Container) (d : Bytes) (hs : KeysSorted c)
    (hkeys : ∀ e ∈ c, e.1 = INFO ∨ ∃ x : Int, e.1 = fmtInt x)
    (hd : get INFO c = some d) : c.getLast? = some (INFO, d) := by
  induction c with
  | nil => simp [get] at hd
  | cons e rest ih =>
    have h2 := List.pairwise_cons.1 hs
    cases rest with
    | nil =>
      simp only [get] at hd
      split_ifs at hd with he
      simp only [Option.some.injEq] at hd
      simp [← he, ← hd]
    | cons r rest2 =>
      have hne : e.1 ≠ INFO := by
        intro he
        have hlt := h2.1 r (List.mem_cons_self _ _)
        rw [he] at hlt
        rcases hkeys r (List.mem_cons_of_mem _ (List.mem_cons_self _ _)) with hr | ⟨x, hr⟩
        · rw [hr, bytesCompare_self] at hlt
          cases hlt
        · rw [hr] at hlt
          have h3 := bytesCompare_lt_trans _ _ _ hlt (fmtInt_lt_INFO x)
          rw [bytesCompare_self] at h3
          cases h3
      have hd2 : get INFO (r :: rest2) = some d := by simpa [get, hne] using hd
      rw [List.getLast?_cons_cons]
      exact ih h2.2 (fun x hx => hkeys x (List.mem_cons_of_mem _ hx)) hd2

/-! ## The descriptor entry under writes -/

theorem get_dropWhile {V : Type} (k : Bytes) (p : Bytes × V → Bool) (c : List (Bytes × V))
    (hp : ∀ e : Bytes × V, e.1 = k → p e = false) : get k (c.dropWhile p) = get k c := by
  induction c with
  | nil => rfl
  | cons e rest ih =>
    rw [List.dropWhile_cons]
    by_cases h : p e = true
    · rw [if_pos h, ih]
      have hne : e.1 ≠ k := by
        intro hk
        rw [hp e hk] at h
        cases h
      simp [get, hne]
    · rw [if_neg h]

theorem saveTx_descriptor {F : Type} (L : Lib F) (inf : info) (unix : Int) (params : List F)
    (c : Container) : get INFO (saveTx L inf unix params c) = get INFO c := by
  rw [saveTx_evictionRuns, get_put_ne _ _ _ _ (fmtInt_ne_INFO unix).symm]
  split_ifs
  · apply get_dropWhile
    intro e he
    rw [he]
    exact INFO_not_le_fmtInt _
  · rfl

theorem loadOne_congr {F : Type} (L : Lib F) (name : Bytes) (c c2 : Container)
    (h : get INFO c = get INFO c2) (hok : ∃ b, loadOne L name c = Except.ok b) :
    ∃ b, loadOne L name c2 = Except.ok b := by
  unfold loadOne at hok ⊢
  rw [← h]
  exact hok

theorem get_some_mem {V : Type} (k : Bytes) (v : V) (m : List (Bytes × V))
    (h : get k m = some v) : (k, v) ∈ m := by
  induction m with
  | nil => simp [get] at h
  | cons e rest ih =>
    simp only [get] at h
    split_ifs at h with he
    · simp only [Option.some.injEq] at h
      rw [← he, ← h]
      exact List.mem_cons_self _ _
    · exact List.mem_cons_of_mem _ (ih h)

theorem loadLoop_none_iff {F : Type} (L : Lib F) (db : DB) (m : List (Bytes × RRDBucket)) :
    (loadLoop L db m).2 = none ↔ ∀ e ∈ db, ∃ b, loadOne L e.1 e.2 = Except.ok b := by
  induction db generalizing m with
  | nil => simp [loadLoop]
  | cons hd rest ih =>
    obtain ⟨name, c⟩ := hd
    simp only [loadLoop, List.forall_mem_cons]
    cases hl : loadOne L name c with
    | error e => simp
    | ok b =>
      simp only [ih]
      constructor
      · intro h
        exact ⟨⟨b, rfl⟩, h⟩
      · intro h
        exact h.2

theorem NewStorage_ok_iff {F : Type} (L : Lib F) (db : DB) (dbpath : Bytes) :
    (∃ s1, NewStorage L (fun _ => some db) dbpath = (some s1, none)) ↔
      ∀ e ∈ db, ∃ b, loadOne L e.1 e.2 = Except.ok b := by
  rw [← loadLoop_none_iff L db []]
  unfold NewStorage Storage.load
  simp only []
  rcases hl : loadLoop L db [] with ⟨m, _ | e⟩
  · simp
  · simp

theorem save_loads {F : Type} (L : Lib F) (s : Storage) (rrd : RRDBucket) (t : Time)
    (params : List F) (db : DB) (hdb : s.db = some db)
    (hok : ∀ e ∈ db, ∃ b, loadOne L e.1 e.2 = Except.ok b) :
    ∃ db1, (rrd.save L s t params).1.db = some db1 ∧
      ∀ e ∈ db1, ∃ b, loadOne L e.1 e.2 = Except.ok b := by
  unfold RRDBucket.save
  cases hinf : rrd.inf with
  | none => exact ⟨db, hdb, hok⟩
  | some inf =>
    simp only [hdb]
    split_ifs with har
    · exact ⟨db, hdb, hok⟩
    · cases hc : get rrd.bucketName db with
      | none => exact ⟨db, hdb, hok⟩
      | some c =>
        refine ⟨_, rfl, ?_⟩
        intro e he
        rcases mem_put _ _ _ _ he with h | h
        · rw [h]
          exact loadOne_congr L _ c _ (saveTx_descriptor L inf t.sec params c).symm
            (hok _ (get_some_mem _ _ _ hc))
        · exact hok e h

theorem saveAll_loads {F : Type} (L : Lib F) (rrd : RRDBucket) (ws : List (Time × List F)) :
    ∀ (s : Storage) (db : DB), s.db = some db →
      (∀ e ∈ db, ∃ b, loadOne L e.1 e.2 = Except.ok b) →
      ∃ db1, (saveAll L rrd s ws).db = some db1 ∧
        ∀ e ∈ db1, ∃ b, loadOne L e.1 e.2 = Except.ok b := by
  induction ws with
  | nil =>
    intro s db hdb hok
    exact ⟨db, hdb, hok⟩
  | cons w rest ih =>
    intro s db hdb hok
    obtain ⟨t, params⟩ := w
    obtain ⟨db1, hdb1, hok1⟩ := save_loads L s rrd t params db hdb hok
    simp only [saveAll]
    exact ih _ db1 hdb1 hok1

/-! ## Queries and the descriptor entry -/

theorem INFO_not_lt_fmtInt (x : Int) : bytesLt INFO (fmtInt x) = false := by
  cases h : bytesLt INFO (fmtInt x) with
  | false => rfl
  | true =>
    have := bytesLe_of_lt _ _ h
    rw [INFO_not_le_fmtInt] at this
    cases this

theorem takeWhile_append_stop {α : Type} (q : α → Bool) (l : List α) (x : α)
    (hx : q x = false) : (l ++ [x]).takeWhile q = l.takeWhile q := by
  induction l with
  | nil => simp [List.takeWhile, hx]
  | cons a as ih =>
    rw [List.cons_append, List.takeWhile_cons, List.takeWhile_cons, ih]

theorem dropWhile_append_stop {α : Type} (p : α → Bool) (l : List α) (x : α)
    (hx : p x = false) : (l ++ [x]).dropWhile p = l.dropWhile p ++ [x] := by
  induction l with
  | nil => simp [List.dropWhile, hx]
  | cons a as ih =>
    rw [List.cons_append, List.dropWhile_cons, List.dropWhile_cons, ih]
    split_ifs <;> rfl

theorem scanWindow_render (es : List (Int × Bytes)) (d : Bytes) (a : Int) (endKey : Bytes) :
    scanWindow (renderSamples es d) (fmtInt a) endKey =
      ((es.map fun p => (fmtInt p.1, p.2)).dropWhile fun e => bytesLt e.1 (fmtInt a)).takeWhile
        fun e => decide (e.1 ≠ INFO) && bytesLe e.1 endKey := by
  unfold scanWindow seekSplit renderSamples
  simp only []
  rw [dropWhile_append_stop (fun e : Bytes × Bytes => bytesLt e.1 (fmtInt a)) _ (INFO, d)
      (INFO_not_lt_fmtInt a),
    takeWhile_append_stop (fun e : Bytes × Bytes => decide (e.1 ≠ INFO) && bytesLe e.1 endKey)
      _ (INFO, d) (by simp)]

theorem seekPrev_render (es : List (Int × Bytes)) (d : Bytes) (a : Int) :
    seekPrev (renderSamples es d) (fmtInt a) =
      ((es.map fun p => (fmtInt p.1, p.2)).takeWhile fun e =>
        bytesLt e.1 (fmtInt a)).getLast? := by
  unfold seekPrev seekSplit renderSamples
  simp only []
  rw [takeWhile_append_stop (fun e : Bytes × Bytes => bytesLt e.1 (fmtInt a)) _ (INFO, d)
    (INFO_not_lt_fmtInt a)]

theorem seek_render (es : List (Int × Bytes)) (d : Bytes) (a : Int) :
    seek (renderSamples es d) (fmtInt a) =
      match ((es.map fun p => (fmtInt p.1, p.2)).dropWhile fun e =>
          bytesLt e.1 (fmtInt a)).head? with
      | some e => some e
      | none => some (INFO, d) := by
  unfold seek seekSplit renderSamples
  simp only []
  rw [dropWhile_append_stop (fun e : Bytes × Bytes => bytesLt e.1 (fmtInt a)) _ (INFO, d)
    (INFO_not_lt_fmtInt a)]
  cases (es.map fun p => (fmtInt p.1, p.2)).dropWhile fun e => bytesLt e.1 (fmtInt a) with
  | nil => rfl
  | cons x rest => rfl

theorem rangeA_descriptor {F : Type} (L : Lib F) (es : List (Int × Bytes)) (d d2 : Bytes)
    (toUnix step : Int) (fuel : Nat) :
    ∀ (start : Int) (acc : List (List F) × List Bytes),
      rangeA L (renderSamples es d) toUnix step fuel start acc =
        rangeA L (renderSamples es d2) toUnix step fuel start acc := by
  induction fuel with
  | zero =>
    intro start acc
    simp only [rangeA]
  | succ n ih =>
    intro start acc
    simp only [rangeA, scanWindow_render, ih]

theorem rangeB_descriptor {F : Type} (L : Lib F) (es : List (Int × Bytes)) (d d2 : Bytes)
    (toUnix step : Int) (fuel : Nat) :
    ∀ (cur : Int) (acc : List (List F) × List Bytes),
      rangeB L (renderSamples es d) toUnix step fuel cur acc =
        rangeB L (renderSamples es d2) toUnix step fuel cur acc := by
  induction fuel with
  | zero =>
    intro cur acc
    simp only [rangeB]
  | succ n ih =>
    intro cur acc
    simp only [rangeB, seek_render, seekPrev_render, ih]
    cases ((es.map fun p => (fmtInt p.1, p.2)).dropWhile fun e =>
        bytesLt e.1 (fmtInt cur)).head? with
    | none => simp
    | some e => rfl

theorem scannedA_samples (es : List (Int × Bytes)) (d : Bytes) (toUnix step : Int)
    (fuel : Nat) :
    ∀ (start : Int) (ws : List (List Bytes)),
      scannedA (renderSamples es d) toUnix step fuel start = some ws →
      ∀ w ∈ ws, ∀ v ∈ w, v ∈ es.map Prod.snd := by
  induction fuel with
  | zero =>
    intro start ws h
    simp only [scannedA] at h
    split_ifs at h
    simp only [Option.some.injEq] at h
    subst h
    simp
  | succ n ih =>
    intro start ws h
    simp only [scannedA] at h
    by_cases hlt : start < toUnix
    · rw [if_pos hlt] at h
      cases hrec : scannedA (renderSamples es d) toUnix step n (wrap64 (start + step)) with
      | none => rw [hrec] at h; simp at h
      | some rest =>
        rw [hrec] at h
        simp only [Option.map_some', Option.some.injEq] at h
        subst h
        intro w hw v hv
        rcases List.mem_cons.1 hw with rfl | hw
        · rw [scanWindow_render] at hv
          obtain ⟨e, he, rfl⟩ := List.mem_map.1 hv
          have he2 := (List.dropWhile_sublist _).subset ((List.takeWhile_sublist _).subset he)
          obtain ⟨p, hp, rfl⟩ := List.mem_map.1 he2
          exact List.mem_map.2 ⟨p, hp, rfl⟩
        · exact ih _ rest hrec w hw v hv
    · rw [if_neg hlt] at h
      simp only [Option.some.injEq] at h
      subst h
      simp

theorem neighbours_mem (prev next : Option (Bytes × Bytes)) (v : Bytes)
    (hv : v ∈ neighbours prev next) : (∃ e, prev = some e ∧ e.2 = v) ∨ ∃ e, next = some e ∧ e.2 = v := by
  unfold neighbours at hv
  rcases List.mem_append.1 hv with h | h
  · left
    cases prev with
    | none => simp at h
    | some e =>
      simp only at h
      split_ifs at h
      · simp only [List.mem_singleton] at h
        exact ⟨e, rfl, h.symm⟩
      · simp at h
  · right
    cases next with
    | none => simp at h
    | some e =>
      simp only at h
      split_ifs at h
      · simp only [List.mem_singleton] at h
        exact ⟨e, rfl, h.symm⟩
      · simp at h

theorem scannedB_samples (es : List (Int × Bytes)) (d : Bytes) (toUnix step : Int)
    (fuel : Nat) :
    ∀ (cur : Int) (ws : List (List Bytes)),
      scannedB (renderSamples es d) toUnix step fuel cur = some ws →
      ∀ w ∈ ws, ∀ v ∈ w, v ∈ es.map Prod.snd := by
  induction fuel with
  | zero =>
    intro cur ws h
    simp only [scannedB] at h
    split_ifs at h
    simp only [Option.some.injEq] at h
    subst h
    simp
  | succ n ih =>
    intro cur ws h
    simp only [scannedB] at h
    by_cases hlt : cur < toUnix
    · rw [if_pos hlt] at h
      cases hrec : scannedB (renderSamples es d) toUnix step n (wrap64 (cur + step)) with
      | none => rw [hrec] at h; simp at h
      | some rest =>
        rw [hrec] at h
        simp only [Option.map_some', Option.some.injEq] at h
        subst h
        intro w hw v hv
        rcases List.mem_cons.1 hw with rfl | hw
        · by_cases hskip : (seek (renderSamples es d) (fmtInt cur)).map Prod.fst = some INFO ∨
              (seekPrev (renderSamples es d) (fmtInt cur)).map Prod.fst = some INFO
          · rw [if_pos hskip] at hv
            simp at hv
          · rw [if_neg hskip] at hv
            rcases neighbours_mem _ _ v hv with ⟨e, he, rfl⟩ | ⟨e, he, rfl⟩
            · rw [seekPrev_render] at he
              have he2 := (List.takeWhile_sublist _).subset (List.mem_of_mem_getLast? he)
              obtain ⟨p, hp, rfl⟩ := List.mem_map.1 he2
              exact List.mem_map.2 ⟨p, hp, rfl⟩
            · rw [seek_render] at he hskip
              cases hh : ((es.map fun p => (fmtInt p.1, p.2)).dropWhile fun e =>
                  bytesLt e.1 (fmtInt cur)).head? with
              | none =>
                rw [hh] at hskip
                simp at hskip
              | some x =>
                rw [hh] at he
                simp only [Option.some.injEq] at he
                subst he
                have he2 := (List.dropWhile_sublist _).subset (List.mem_of_mem_head? hh)
                obtain ⟨p, hp, rfl⟩ := List.mem_map.1 he2
                exact List.mem_map.2 ⟨p, hp, rfl⟩
        · exact ih _ rest hrec w hw v hv
    · rw [if_neg hlt] at h
      simp only [Option.some.injEq] at h
      subst h
      simp

/-! ## The eviction pass on a container in numeric order -/

theorem fmtInt_inj (a b : Int) (h : fmtInt a = fmtInt b) : a = b := by
  have hnat : ∀ m n : Nat, fmtNat m = fmtNat n → m = n := by
    intro m n hmn
    have := congrArg decVal hmn
    rwa [decVal_fmtNat, decVal_fmtNat] at this
  have hhead : ∀ (n : Nat) (rest : Bytes), fmtNat n ≠ 45 :: rest := by
    intro n rest hn
    obtain ⟨b, r, hb, h1, -⟩ := fmtNat_head n
    rw [hn] at hb
    have := (List.cons.inj hb).1
    omega
  unfold fmtInt at h
  by_cases ha : a < 0
  · by_cases hb : b < 0
    · rw [if_pos ha, if_pos hb] at h
      have := hnat _ _ (List.cons.inj h).2
      omega
    · rw [if_pos ha, if_neg hb] at h
      exact absurd h.symm (hhead _ _)
  · by_cases hb : b < 0
    · rw [if_neg ha, if_pos hb] at h
      exact absurd h (hhead _ _)
    · rw [if_neg ha, if_neg hb] at h
      have := hnat _ _ h
      omega

theorem dropWhile_eq_filter (es : List (Int × Bytes)) (q : Int × Bytes → Bool) (cutoff : Int)
    (hsorted : es.Pairwise fun a b => a.1 < b.1)
    (hq : ∀ p ∈ es, (q p = true ↔ p.1 ≤ cutoff)) :
    es.dropWhile q = es.filter fun p => decide (cutoff < p.1) := by
  induction es with
  | nil => rfl
  | cons a rest ih =>
    have h2 := List.pairwise_cons.1 hsorted
    have ha := hq a (List.mem_cons_self _ _)
    rw [List.dropWhile_cons]
    by_cases h : q a = true
    · rw [if_pos h, List.filter_cons_of_neg (by simpa using ha.1 h)]
      exact ih h2.2 (fun p hp => hq p (List.mem_cons_of_mem _ hp))
    · have hlt : cutoff < a.1 := by
        by_contra hn
        exact h (ha.2 (by omega))
      rw [if_neg h, List.filter_cons_of_pos (by simpa using hlt)]
      congr 1
      symm
      apply List.filter_eq_self.2
      intro p hp
      have := h2.1 p hp
      simp only [decide_eq_true_eq]
      omega

theorem get_descriptor_render (es : List (Int × Bytes)) (d : Bytes) :
    get INFO (renderSamples es d) = some d := by
  induction es with
  | nil => simp [renderSamples, get]
  | cons a rest ih =>
    unfold renderSamples at ih ⊢
    simp only [List.map_cons, List.cons_append, get]
    rw [if_neg (fmtInt_ne_INFO a.1)]
    exact ih

theorem get_sample_render (es : List (Int × Bytes)) (d : Bytes)
    (hsorted : es.Pairwise fun a b => a.1 < b.1) (p : Int × Bytes) (hp : p ∈ es) :
    get (fmtInt p.1) (renderSamples es d) = some p.2 := by
  induction es with
  | nil => simp at hp
  | cons a rest ih =>
    have h2 := List.pairwise_cons.1 hsorted
    unfold renderSamples at ih ⊢
    simp only [List.map_cons, List.cons_append, get]
    rcases List.mem_cons.1 hp with rfl | hp
    · rw [if_pos rfl]
    · have hne : fmtInt a.1 ≠ fmtInt p.1 := by
        intro h
        have := fmtInt_inj _ _ h
        have := h2.1 p hp
        omega
      rw [if_neg hne]
      exact ih h2.2 hp

theorem get_absent_render (es : List (Int × Bytes)) (d : Bytes) (x : Int)
    (hx : ∀ p ∈ es, p.1 ≠ x) : get (fmtInt x) (renderSamples es d) = none := by
  rw [get_eq_none_iff]
  intro hmem
  unfold renderSamples at hmem
  obtain ⟨e, he, hk⟩ := List.mem_map.1 hmem
  rcases List.mem_append.1 he with he | he
  · obtain ⟨p, hp, rfl⟩ := List.mem_map.1 he
    exact hx p hp (fmtInt_inj _ _ hk)
  · simp only [List.mem_singleton] at he
    rw [he] at hk
    exact fmtInt_ne_INFO x hk.symm

/-- The write transaction when the eviction pass runs on a container in numeric order:
the samples above the cutoff stay, then the entry of the write is put. -/
theorem saveTx_evicts {F : Type} (L : Lib F) (inf : info) (t : Int) (params : List F)
    (es : List (Int × Bytes)) (d : Bytes)
    (hcap : 1 ≤ inf.Capacity) (hstep : 1 ≤ inf.Step)
    (hprod : inf.Capacity * inf.Step < 2 ^ 63) (ht : t < 2 ^ 63)
    (hruns : evictionRuns inf (renderSamples es d) = true)
    (hsorted : es.Pairwise fun a b => a.1 < b.1)
    (hcut : 0 ≤ t - inf.Capacity * inf.Step)
    (hdig : ∀ p ∈ es, 0 ≤ p.1 ∧
      (fmtInt p.1).length = (fmtInt (t - inf.Capacity * inf.Step)).length) :
    saveTx L inf t params (renderSamples es d) =
      put (fmtInt t) (formatValue L params)
        (renderSamples (es.filter fun p => decide (t - inf.Capacity * inf.Step < p.1)) d) := by
  have hcs : 1 ≤ inf.Capacity * inf.Step := by nlinarith
  have hw : wrap64 (t - wrap64 (inf.Capacity * inf.Step)) = t - inf.Capacity * inf.Step := by
    rw [wrap64_of_range (inf.Capacity * inf.Step) (by omega) hprod]
    exact wrap64_of_range _ (by omega) (by omega)
  rw [saveTx_evictionRuns, if_pos hruns, hw, evict_render,
    dropWhile_eq_filter es _ (t - inf.Capacity * inf.Step) hsorted]
  intro p hp
  have hpd := hdig p hp
  have hcmp := fmtInt_compare p.1 (t - inf.Capacity * inf.Step) hpd.1 hcut hpd.2
  rw [bytesLe_iff]
  constructor
  · intro h
    by_contra hn
    exact h (hcmp.2.2 (by omega))
  · intro h
    rcases lt_or_eq_of_le h with h | h
    · rw [hcmp.1 h]; simp
    · rw [hcmp.2.1 h]; simp

/-! ## Writes at strictly increasing timestamps -/

/-- One timestamped write later by a step or more than every stored sample: as
`saveTx_render`, with no bound on `Capacity * Step`, which the eviction pass only
computes with when the container is full. -/
theorem saveTx_render_strict {F : Type} (L : Lib F) (inf : info) (t : Int) (params : List F)
    (es : List (Int × Bytes)) (d : Bytes) (D : Nat)
    (hcap : 1 ≤ inf.Capacity) (hstep : 1 ≤ inf.Step)
    (ht : 0 ≤ t ∧ t < 2 ^ 63 ∧ (fmtInt t).length = D)
    (hgap : es.Pairwise fun a b => a.1 + inf.Step ≤ b.1)
    (hdig : ∀ p ∈ es, 0 ≤ p.1 ∧ (fmtInt p.1).length = D)
    (hrel : ∀ p ∈ es, p.1 + inf.Step ≤ t)
    (hlen : (es.length : Int) ≤ inf.Capacity) :
    ∃ es1, saveTx L inf t params (renderSamples es d) = renderSamples es1 d ∧
      (es1.Pairwise fun a b => a.1 + inf.Step ≤ b.1) ∧
      (∀ p ∈ es1, 0 ≤ p.1 ∧ (fmtInt p.1).length = D) ∧
      (∀ p ∈ es1, p.1 = t ∨ p.1 + inf.Step ≤ t) ∧
      (es1.length : Int) ≤ inf.Capacity := by
  by_cases hprod : inf.Capacity * inf.Step < 2 ^ 63
  · exact saveTx_render L inf t params es d D hcap hstep hprod ht hgap hdig
      (fun p hp => Or.inr (hrel p hp)) hlen
  · have hfew : (es.length : Int) + 1 ≤ inf.Capacity := by
      have hcount := gap_count inf.Step (es.map Prod.fst) (inf.Capacity - 1).toNat (-1)
        (by rw [List.pairwise_map]; exact hgap)
        (by
          intro x hx
          obtain ⟨p, hp, rfl⟩ := List.mem_map.1 hx
          have h1 := hdig p hp
          have h2 := hrel p hp
          have hC : (((inf.Capacity - 1).toNat : Nat) : Int) = inf.Capacity - 1 := by omega
          rw [hC]
          have h3 : (inf.Capacity - 1) * inf.Step = inf.Capacity * inf.Step - inf.Step := by
            ring
          rw [h3]
          constructor <;> omega)
      rw [List.length_map] at hcount
      omega
    have hno : ¬ evictionRuns inf (renderSamples es d) = true := by
      unfold evictionRuns renderSamples
      simp only [decide_eq_true_eq, List.length_append, List.length_map, List.length_singleton]
      push_cast
      omega
    refine ⟨es.filter (fun p => decide (p.1 ≠ t)) ++ [(t, formatValue L params)], ?_, ?_, ?_,
      ?_, ?_⟩
    · rw [saveTx_evictionRuns, if_neg hno]
      exact put_render es d t _ inf.Step hstep ht.1 hgap
        (fun p hp => by
          have := hdig p hp
          exact ⟨this.1, by rw [this.2, ht.2.2]⟩)
        (fun p hp => Or.inr (hrel p hp))
    · rw [List.pairwise_append]
      refine ⟨hgap.sublist (List.filter_sublist _), List.pairwise_singleton _ _, ?_⟩
      intro a ha b hb
      simp only [List.mem_singleton] at hb
      subst hb
      exact hrel a (List.mem_filter.1 ha).1
    · intro p hp
      rcases List.mem_append.1 hp with hp | hp
      · exact hdig p (List.mem_filter.1 hp).1
      · simp only [List.mem_singleton] at hp
        subst hp
        exact ⟨ht.1, ht.2.2⟩
    · intro p hp
      rcases List.mem_append.1 hp with hp | hp
      · exact Or.inr (hrel p (List.mem_filter.1 hp).1)
      · simp only [List.mem_singleton] at hp
        subst hp
        exact Or.inl rfl
    · have := List.length_filter_le (fun p : Int × Bytes => decide (p.1 ≠ t)) es
      simp only [List.length_append, List.length_singleton]
      push_cast
      omega

/-- A sequence of timestamped writes a step or more apart leaves at most `Capacity`
samples. -/
theorem saveAll_render_strict {F : Type} (L : Lib F) (rrd : RRDBucket) (inf : info)
    (d : Bytes) (D : Nat) (hinf : rrd.inf = some inf) (hcap : 1 ≤ inf.Capacity)
    (hstep : 1 ≤ inf.Step) (ws : List (Time × List F)) :
    ∀ (s : Storage) (db : DB) (es : List (Int × Bytes)),
      s.db = some db → get rrd.bucketName db = some (renderSamples es d) →
      (es.Pairwise fun a b => a.1 + inf.Step ≤ b.1) →
      (∀ p ∈ es, 0 ≤ p.1 ∧ (fmtInt p.1).length = D) →
      (es.length : Int) ≤ inf.Capacity →
      (∀ w ∈ ws, 0 ≤ w.1.sec ∧ w.1.sec < 2 ^ 63 ∧ (fmtInt w.1.sec).length = D) →
      (ws.map fun w => w.1.sec).Chain' (fun a b => a + inf.Step ≤ b) →
      (∀ w ∈ ws.head?, ∀ p ∈ es, p.1 + inf.Step ≤ w.1.sec) →
      ∃ db1 es1, (saveAll L rrd s ws).db = some db1 ∧
        get rrd.bucketName db1 = some (renderSamples es1 d) ∧
        (es1.length : Int) ≤ inf.Capacity := by
  induction ws with
  | nil =>
    intro s db es hdb hc _ _ hlen _ _ _
    exact ⟨db, es, hdb, hc, hlen⟩
  | cons w rest ih =>
    intro s db es hdb hc hgap hdig hlen hts hchain hhead
    obtain ⟨t, params⟩ := w
    have hrel := hhead (t, params) (by simp)
    have htw := hts (t, params) (List.mem_cons_self _ _)
    simp only [List.map_cons, List.chain'_cons'] at hchain
    obtain ⟨db1, hdb1, hc1⟩ := save_container L s rrd inf db _ t params hinf hdb hc
    obtain ⟨es1, hes1, hgap1, hdig1, hrel1, hlen1⟩ :
        ∃ es1, (if inf.Ds.length ≠ params.length then renderSamples es d
            else saveTx L inf t.sec params (renderSamples es d)) = renderSamples es1 d ∧
          (es1.Pairwise fun a b => a.1 + inf.Step ≤ b.1) ∧
          (∀ p ∈ es1, 0 ≤ p.1 ∧ (fmtInt p.1).length = D) ∧
          (∀ p ∈ es1, p.1 = t.sec ∨ p.1 + inf.Step ≤ t.sec) ∧
          (es1.length : Int) ≤ inf.Capacity := by
      split_ifs with har
      · exact ⟨es, rfl, hgap, hdig, fun p hp => Or.inr (hrel p hp), hlen⟩
      · exact saveTx_render_strict L inf t.sec params es d D hcap hstep htw hgap hdig hrel hlen
    rw [hes1] at hc1
    simp only [saveAll]
    refine ih _ db1 es1 hdb1 hc1 hgap1 hdig1 hlen1
      (fun w hw => hts w (List.mem_cons_of_mem _ hw)) hchain.2 ?_
    intro w2 hw2 p hp
    have hR := hchain.1 w2.1.sec (by
      rw [List.head?_map]
      exact Option.mem_def.2 (by rw [Option.mem_def.1 hw2]; rfl))
    rcases hrel1 p hp with h | h <;> omega

/-! ## Writes at exact cadence -/

theorem cadenceTimes_length (a S : Int) (n : Nat) : (cadenceTimes a S n).length = n := by
  simp [cadenceTimes]

theorem cadenceTimes_succ (a S : Int) (n : Nat) :
    cadenceTimes a S (n + 1) = a :: cadenceTimes (a + S) S n := by
  unfold cadenceTimes
  rw [List.range_succ_eq_map, List.map_cons, List.map_map]
  congr 1
  · simp
  · apply List.map_congr_left
    intro i _
    simp only [Function.comp, Nat.succ_eq_add_one]
    push_cast
    ring

theorem cadenceTimes_concat (a S : Int) (n : Nat) :
    cadenceTimes a S (n + 1) = cadenceTimes a S n ++ [a + S * (n : Int)] := by
  unfold cadenceTimes
  rw [List.range_succ, List.map_append]
  rfl

theorem cadenceTimes_mem (a S : Int) (n : Nat) (x : Int) (hx : x ∈ cadenceTimes a S n) :
    ∃ i : Nat, i < n ∧ x = a + S * (i : Int) := by
  unfold cadenceTimes at hx
  obtain ⟨i, hi, rfl⟩ := List.mem_map.1 hx
  exact ⟨i, List.mem_range.1 hi, rfl⟩

theorem cadenceTimes_pairwise (S : Int) (hS : 1 ≤ S) (n : Nat) :
    ∀ a : Int, (cadenceTimes a S n).Pairwise fun x y => x + S ≤ y := by
  induction n with
  | zero =>
    intro a
    simp [cadenceTimes]
  | succ m ih =>
    intro a
    rw [cadenceTimes_succ]
    refine List.pairwise_cons.2 ⟨?_, ih _⟩
    intro y hy
    obtain ⟨i, -, rfl⟩ := cadenceTimes_mem _ _ _ _ hy
    have : 0 ≤ S * (i : Int) := mul_nonneg (by omega) (Int.ofNat_nonneg i)
    omega

/-- The entry of a write at the next instant of the cadence goes behind the samples. -/
theorem put_cadence (es : List (Int × Bytes)) (d : Bytes) (a S : Int) (n : Nat) (t : Int)
    (v : Bytes) (D : Nat) (hS : 1 ≤ S) (hes : es.map Prod.fst = cadenceTimes a S n)
    (ht : t = a + S * (n : Int)) (ht0 : 0 ≤ t) (hD : (fmtInt t).length = D)
    (hdig : ∀ p ∈ es, 0 ≤ p.1 ∧ (fmtInt p.1).length = D) :
    put (fmtInt t) v (renderSamples es d) = renderSamples (es ++ [(t, v)]) d ∧
    (es ++ [(t, v)]).map Prod.fst = cadenceTimes a S (n + 1) := by
  have hrel : ∀ p ∈ es, p.1 + S ≤ t := by
    intro p hp
    have hmem : p.1 ∈ cadenceTimes a S n := by
      rw [← hes]
      exact List.mem_map.2 ⟨p, hp, rfl⟩
    obtain ⟨i, hi, hpi⟩ := cadenceTimes_mem _ _ _ _ hmem
    have h1 : S * ((i : Int) + 1) ≤ S * (n : Int) :=
      mul_le_mul_of_nonneg_left (by omega) (by omega)
    rw [hpi, ht]
    have h2 : S * ((i : Int) + 1) = S * (i : Int) + S := by ring
    omega
  have hgap : es.Pairwise fun x y => x.1 + S ≤ y.1 := by
    have := cadenceTimes_pairwise S hS n a
    rw [← hes, List.pairwise_map] at this
    exact this
  constructor
  · rw [put_render es d t v S hS ht0 hgap
      (fun p hp => ⟨(hdig p hp).1, by rw [(hdig p hp).2, hD]⟩) (fun p hp => Or.inr (hrel p hp))]
    congr 2
    apply List.filter_eq_self.2
    intro p hp
    have := hrel p hp
    simp only [decide_eq_true_eq]
    omega
  · rw [List.map_append, hes, cadenceTimes_concat, ht]
    rfl

/-- One write at the next instant of the cadence into a container that holds the last `n`
instants, `n` at most the capacity: the container then holds the last `min (n + 1) C`
instants. -/
theorem saveTx_cadence {F : Type} (L : Lib F) (inf : info) (a : Int) (n : Nat) (t : Int)
    (params : List F) (es : List (Int × Bytes)) (d : Bytes) (D : Nat)
    (hcap : 1 ≤ inf.Capacity) (hstep : 1 ≤ inf.Step)
    (hes : es.map Prod.fst = cadenceTimes a inf.Step n) (hn : (n : Int) ≤ inf.Capacity)
    (ht : t = a + inf.Step * (n : Int))
    (htr : 0 ≤ t ∧ t < 2 ^ 63 ∧ (fmtInt t).length = D)
    (hdig : ∀ p ∈ es, 0 ≤ p.1 ∧ (fmtInt p.1).length = D) :
    ∃ es1 a1 n1, saveTx L inf t params (renderSamples es d) = renderSamples es1 d ∧
      es1.map Prod.fst = cadenceTimes a1 inf.Step n1 ∧
      t + inf.Step = a1 + inf.Step * (n1 : Int) ∧
      (n1 : Int) = min ((n : Int) + 1) inf.Capacity ∧
      (∀ p ∈ es1, 0 ≤ p.1 ∧ (fmtInt p.1).length = D) := by
  have hlen : es.length = n := by
    have := congrArg List.length hes
    rwa [List.length_map, cadenceTimes_length] at this
  have hrl : (renderSamples es d).length = n + 1 := by simp [renderSamples, hlen]
  have hdig1 : ∀ (base : List (Int × Bytes)), (∀ p ∈ base, p ∈ es) →
      ∀ p ∈ base ++ [(t, formatValue L params)], 0 ≤ p.1 ∧ (fmtInt p.1).length = D := by
    intro base hbase p hp
    rcases List.mem_append.1 hp with hp | hp
    · exact hdig p (hbase p hp)
    · simp only [List.mem_singleton] at hp
      subst hp
      exact ⟨htr.1, htr.2.2⟩
  by_cases hfull : (n : Int) < inf.Capacity
  · have hno : ¬ evictionRuns inf (renderSamples es d) = true := by
      unfold evictionRuns
      rw [decide_eq_true_eq, hrl]
      push_cast
      omega
    obtain ⟨h1, h2⟩ := put_cadence es d a inf.Step n t (formatValue L params) D hstep hes ht
      htr.1 htr.2.2 hdig
    refine ⟨es ++ [(t, formatValue L params)], a, n + 1, ?_, h2, ?_, ?_,
      hdig1 es (fun p hp => hp)⟩
    · rw [saveTx_evictionRuns, if_neg hno]
      exact h1
    · rw [ht]
      push_cast
      ring
    · push_cast
      rw [min_eq_left (by omega)]
  · have hnC : (n : Int) = inf.Capacity := by omega
    have hruns : evictionRuns inf (renderSamples es d) = true := by
      unfold evictionRuns
      rw [decide_eq_true_eq, hrl]
      push_cast
      omega
    cases n with
    | zero => simp at hnC; omega
    | succ m =>
      rw [cadenceTimes_succ] at hes
      cases es with
      | nil => simp at hes
      | cons p0 rest =>
        simp only [List.map_cons, List.cons.injEq] at hes
        obtain ⟨hp0, hrest⟩ := hes
        have ha0 : 0 ≤ a := by
          rw [← hp0]
          exact (hdig p0 (List.mem_cons_self _ _)).1
        have hprodEq : inf.Capacity * inf.Step = inf.Step * ((m + 1 : Nat) : Int) := by
          rw [← hnC]
          ring
        have hcutEq : t - inf.Capacity * inf.Step = a := by
          rw [hprodEq, ht]
          ring
        have hprod : inf.Capacity * inf.Step < 2 ^ 63 := by omega
        have hgapAll : (p0 :: rest).Pairwise fun x y => x.1 + inf.Step ≤ y.1 := by
          have := cadenceTimes_pairwise inf.Step hstep (m + 1) a
          rw [cadenceTimes_succ, ← hrest, ← hp0, ← List.map_cons, List.pairwise_map] at this
          exact this
        have hev := saveTx_evicts L inf t params (p0 :: rest) d hcap hstep hprod htr.2.1 hruns
          (hgapAll.imp (fun h => by omega)) (by rw [hcutEq]; exact ha0)
          (fun p hp => by
            rw [hcutEq, ← hp0]
            exact ⟨(hdig p hp).1, by
              rw [(hdig p hp).2, (hdig p0 (List.mem_cons_self _ _)).2]⟩)
        rw [hcutEq] at hev
        have hfilter : (p0 :: rest).filter (fun p => decide (a < p.1)) = rest := by
          rw [List.filter_cons_of_neg (by simp [hp0])]
          apply List.filter_eq_self.2
          intro p hp
          have := (List.pairwise_cons.1 hgapAll).1 p hp
          simp only [decide_eq_true_eq]
          omega
        rw [hfilter] at hev
        obtain ⟨h1, h2⟩ := put_cadence rest d (a + inf.Step) inf.Step m t
          (formatValue L params) D hstep hrest
          (by rw [ht]; push_cast; ring) htr.1 htr.2.2
          (fun p hp => hdig p (List.mem_cons_of_mem _ hp))
        refine ⟨rest ++ [(t, formatValue L params)], a + inf.Step, m + 1, ?_, h2, ?_, ?_,
          hdig1 rest (fun p hp => List.mem_cons_of_mem _ hp)⟩
        · rw [hev]
          exact h1
        · rw [ht]
          push_cast
          ring
        · rw [min_eq_right (by omega)]
          exact hnC

/-- A sequence of writes of the declared arity at exact cadence into a container that
holds the last `n` instants: afterwards `min (n + k) C` samples, `k` the number of
writes. -/
theorem saveAll_cadence {F : Type} (L : Lib F) (rrd : RRDBucket) (inf : info) (d : Bytes)
    (D : Nat) (hinf : rrd.inf = some inf) (hcap : 1 ≤ inf.Capacity) (hstep : 1 ≤ inf.Step)
    (ws : List (Time × List F)) :
    ∀ (s : Storage) (db : DB) (es : List (Int × Bytes)) (a : Int) (n : Nat),
      s.db = some db → get rrd.bucketName db = some (renderSamples es d) →
      es.map Prod.fst = cadenceTimes a inf.Step n → (n : Int) ≤ inf.Capacity →
      (∀ p ∈ es, 0 ≤ p.1 ∧ (fmtInt p.1).length = D) →
      (∀ w ∈ ws, 0 ≤ w.1.sec ∧ w.1.sec < 2 ^ 63 ∧ (fmtInt w.1.sec).length = D) →
      (∀ w ∈ ws, w.2.length = inf.Ds.length) →
      (ws.map fun w => w.1.sec).Chain' (fun x y => x + inf.Step = y) →
      (∀ w ∈ ws.head?, w.1.sec = a + inf.Step * (n : Int)) →
      ∃ db1 es1, (saveAll L rrd s ws).db = some db1 ∧
        get rrd.bucketName db1 = some (renderSamples es1 d) ∧
        (es1.length : Int) = min ((n : Int) + ws.length) inf.Capacity := by
  induction ws with
  | nil =>
    intro s db es a n hdb hc hes hn _ _ _ _ _
    have hlen : es.length = n := by
      have := congrArg List.length hes
      rwa [List.length_map, cadenceTimes_length] at this
    refine ⟨db, es, hdb, hc, ?_⟩
    rw [hlen, List.length_nil]
    push_cast
    rw [add_zero, min_eq_left hn]
  | cons w rest ih =>
    intro s db es a n hdb hc hes hn hdig hts har hchain hhead
    obtain ⟨t, params⟩ := w
    have ht := hhead (t, params) (by simp)
    have htw := hts (t, params) (List.mem_cons_self _ _)
    have harw : inf.Ds.length = params.length := (har (t, params) (List.mem_cons_self _ _)).symm
    simp only [List.map_cons, List.chain'_cons'] at hchain
    obtain ⟨db1, hdb1, hc1⟩ := save_container L s rrd inf db _ t params hinf hdb hc
    rw [if_neg (not_not.2 harw)] at hc1
    obtain ⟨es1, a1, n1, hes1, hmap1, hnext1, hn1, hdig1⟩ :=
      saveTx_cadence L inf a n t.sec params es d D hcap hstep hes hn ht htw hdig
    rw [hes1] at hc1
    simp only [saveAll]
    obtain ⟨db2, es2, hdb2, hc2, hlen2⟩ := ih _ db1 es1 a1 n1 hdb1 hc1 hmap1
      (by rw [hn1]; exact min_le_right _ _) hdig1
      (fun w hw => hts w (List.mem_cons_of_mem _ hw))
      (fun w hw => har w (List.mem_cons_of_mem _ hw)) hchain.2
      (by
        intro w2 hw2
        have hR := hchain.1 w2.1.sec (by
          rw [List.head?_map]
          exact Option.mem_def.2 (by rw [Option.mem_def.1 hw2]; rfl))
        rw [← hR]
        exact hnext1)
    refine ⟨db2, es2, hdb2, hc2, ?_⟩
    rw [hlen2, hn1, List.length_cons]
    push_cast
    rcases le_total ((n : Int) + 1) inf.Capacity with h | h
    · rw [min_eq_left h]
      congr 1
      ring
    · rw [min_eq_right h, min_eq_right (by omega), min_eq_right (by omega)]

/-! ## The handles of created buckets -/

/-- One `NewRRD` call with a step and a capacity of one or more and some data source, on a
store whose map agrees with its containers: the handles registered before stay, and the
name of the call, when it is not empty and was free, gets the handle with the parameters
of the call. -/
theorem NewRRD_handle {F : Type} (L : Lib F) (s : Storage) (name : Bytes)
    (step capacity : Int) (ds : List Bytes)
    (hvalid : 1 ≤ step ∧ 1 ≤ capacity ∧ ds ≠ [])
    (hs : Consistent L s) (nm : Bytes) :
    get nm (s.NewRRD L name step capacity ds).1.rrd =
      match get nm s.rrd with
      | some h => some h
      | none =>
        if nm = name ∧ name ≠ [] then some ⟨true, name, some ⟨step, capacity, ds⟩⟩
        else none := by
  obtain ⟨db, hdb, hnodup, hall, hget⟩ := hs
  obtain ⟨hstep, hcap, hds⟩ := hvalid
  have hlen : ¬ ds.length < 1 := by
    have := List.length_pos.2 hds
    omega
  unfold Storage.NewRRD
  simp only [hdb, if_neg (not_lt.2 hstep), if_neg (not_lt.2 hcap), if_neg hlen,
    RRDBucket.init]
  by_cases hname : name = []
  · subst hname
    simp only [List.length_nil, if_true]
    cases hnm : get nm s.rrd with
    | some h => rfl
    | none => simp
  · have hnl : ¬ name.length = 0 := by
      have := List.length_pos.2 hname
      omega
    rw [if_neg hnl]
    cases hex : get name db with
    | some c =>
      simp only []
      cases hnm : get nm s.rrd with
      | some h => rfl
      | none =>
        have hne : nm ≠ name := by
          intro h
          subst h
          obtain ⟨b, hb⟩ := hall (nm, c) (get_some_mem _ _ _ hex)
          have := hget nm
          rw [hnm, hex] at this
          simp only [Option.bind] at this
          rw [hb] at this
          simp [Except.toOption] at this
        simp [hne]
    | none =>
      simp only []
      by_cases hne : nm = name
      · subst hne
        have hnone : get nm s.rrd = none := by
          rw [hget nm, hex]
          rfl
        rw [get_put_self, hnone]
        simp [hname]
      · rw [get_put_ne _ _ _ _ hne]
        cases hnm : get nm s.rrd with
        | some h => rfl
        | none => simp [hne]

/-- A sequence of such `NewRRD` calls: the handles registered before stay, and every other
name that is not empty has the handle of the first call with that name, or none. -/
theorem createAll_handles {F : Type} (L : Lib F)
    (reqs : List (Bytes × Int × Int × List Bytes)) :
    ∀ (s : Storage),
      (∀ r ∈ reqs, 1 ≤ r.2.1 ∧ 1 ≤ r.2.2.1 ∧ r.2.2.2 ≠ []) →
      (∀ r ∈ reqs, L.unmarshal (L.marshal ⟨r.2.1, r.2.2.1, r.2.2.2⟩) =
        some ⟨r.2.1, r.2.2.1, r.2.2.2⟩ ∧ L.marshal ⟨r.2.1, r.2.2.1, r.2.2.2⟩ ≠ []) →
      Consistent L s →
      ∀ nm, get nm (createAll L s reqs).rrd =
        match get nm s.rrd with
        | some h => some h
        | none =>
          if nm = [] then none
          else (get nm reqs).map fun r => ⟨true, nm, some ⟨r.1, r.2.1, r.2.2⟩⟩ := by
  induction reqs with
  | nil =>
    intro s _ _ _ nm
    cases h : get nm s.rrd with
    | some b => simp [createAll, h]
    | none => simp [createAll, h, get]
  | cons r rest ih =>
    intro s hvalid hcodec hs nm
    obtain ⟨name, step, capacity, ds⟩ := r
    have hv := hvalid _ (List.mem_cons_self _ _)
    have hs1 := NewRRD_consistent L s name step capacity ds
      (hcodec _ (List.mem_cons_self _ _)) hs
    simp only [createAll]
    rw [ih _ (fun r hr => hvalid r (List.mem_cons_of_mem _ hr))
      (fun r hr => hcodec r (List.mem_cons_of_mem _ hr)) hs1 nm,
      NewRRD_handle L s name step capacity ds hv hs nm]
    cases hnm : get nm s.rrd with
    | some h => rfl
    | none =>
      by_cases hne : nm = name
      · subst hne
        by_cases hempty : nm = []
        · simp [hempty]
        · simp [get, hempty]
      · have hne2 : ¬ name = nm := fun h => hne h.symm
        simp [get, hne, hne2]

/-! ## The points of a query against its labels -/

/-- The two sequences the loop of Mode A gathers are the means and the labels of the
labelled points, in their order. -/
theorem rangeA_points {F : Type} (L : Lib F) (c : Container) (toUnix step : Int) (fuel : Nat) :
    ∀ (start : Int) (acc : List (List F) × List Bytes),
      rangeA L c toUnix step fuel start acc =
        match pointsA L c toUnix step fuel start with
        | none => none
        | some (Except.error e) => some (Except.error e)
        | some (Except.ok pts) =>
          some (Except.ok (acc.1 ++ pts.map Prod.snd, acc.2 ++ pts.map Prod.fst)) := by
  induction fuel with
  | zero =>
    intro start acc
    simp only [rangeA, pointsA]
    by_cases hlt : start < toUnix
    · rw [if_pos hlt, if_pos hlt]
    · rw [if_neg hlt, if_neg hlt]
      simp
  | succ f ih =>
    intro start acc
    simp only [rangeA, pointsA]
    by_cases hlt : start < toUnix
    · rw [if_pos hlt, if_pos hlt]
      cases splitAll L ((scanWindow c (fmtInt start)
          (fmtInt (wrap64 (start + step)))).map Prod.snd) with
      | error e => rfl
      | ok rows =>
        simp only []
        by_cases hlen : rows.length < 1
        · rw [if_pos hlen, if_pos hlen]
          exact ih _ _
        · rw [if_neg hlen, if_neg hlen]
          cases averageInStep L rows with
          | error e => rfl
          | ok mean =>
            simp only []
            rw [ih]
            cases pointsA L c toUnix step f (wrap64 (start + step)) with
            | none => rfl
            | some r =>
              cases r with
              | error e => rfl
              | ok rest => simp
    · rw [if_neg hlt, if_neg hlt]
      simp

/-- The two sequences the loop of Mode B gathers are the means and the labels of the
labelled points, in their order. -/
theorem rangeB_points {F : Type} (L : Lib F) (c : Container) (toUnix step : Int) (fuel : Nat) :
    ∀ (cur : Int) (acc : List (List F) × List Bytes),
      rangeB L c toUnix step fuel cur acc =
        match pointsB L c toUnix step fuel cur with
        | none => none
        | some (Except.error e) => some (Except.error e)
        | some (Except.ok pts) =>
          some (Except.ok (acc.1 ++ pts.map Prod.snd, acc.2 ++ pts.map Prod.fst)) := by
  induction fuel with
  | zero =>
    intro cur acc
    simp only [rangeB, pointsB]
    by_cases hlt : cur < toUnix
    · rw [if_pos hlt, if_pos hlt]
    · rw [if_neg hlt, if_neg hlt]
      simp
  | succ f ih =>
    intro cur acc
    simp only [rangeB, pointsB]
    by_cases hlt : cur < toUnix
    · rw [if_pos hlt, if_pos hlt]
      by_cases hskip : (seek c (fmtInt cur)).map Prod.fst = some INFO ∨
          (seekPrev c (fmtInt cur)).map Prod.fst = some INFO
      · rw [if_pos hskip, if_pos hskip]
        exact ih _ _
      · rw [if_neg hskip, if_neg hskip]
        cases splitAll L (neighbours (seekPrev c (fmtInt cur)) (seek c (fmtInt cur))) with
        | error e => rfl
        | ok rows =>
          simp only []
          by_cases hlen : rows.length < 1
          · rw [if_pos hlen, if_pos hlen]
            exact ih _ _
          · rw [if_neg hlen, if_neg hlen]
            cases averageInStep L rows with
            | error e => rfl
            | ok mean =>
              simp only []
              rw [ih]
              cases pointsB L c toUnix step f (wrap64 (cur + step)) with
              | none => rfl
              | some r =>
                cases r with
                | error e => rfl
                | ok rest => simp
    · rw [if_neg hlt, if_neg hlt]
      simp

theorem getRange_points {F : Type} (L : Lib F) (c : Container) (inf : info) (fuel : Nat)
    (fromT toT : Time) (step : Int) (values : List (List F)) (labels : List Bytes)
    (h : getRange L c inf fuel fromT toT step = some (Except.ok (values, labels))) :
    ∃ pts, points L c inf fuel fromT toT step = some (Except.ok pts) ∧
      values = pts.map Prod.snd ∧ labels = pts.map Prod.fst := by
  unfold getRange at h
  unfold points
  by_cases hmode : step ≥ inf.Step
  · rw [if_pos hmode] at h ⊢
    rw [rangeA_points] at h
    cases hp : pointsA L c toT.sec step fuel fromT.sec with
    | none => rw [hp] at h; cases h
    | some r =>
      rw [hp] at h
      cases r with
      | error e => simp at h
      | ok pts =>
        simp only [List.nil_append, Option.some.injEq, Except.ok.injEq, Prod.mk.injEq] at h
        exact ⟨pts, rfl, h.1.symm, h.2.symm⟩
  · rw [if_neg hmode] at h ⊢
    rw [rangeB_points] at h
    cases hp : pointsB L c toT.sec step fuel fromT.sec with
    | none => rw [hp] at h; cases h
    | some r =>
      rw [hp] at h
      cases r with
      | error e => simp at h
      | ok pts =>
        simp only [List.nil_append, Option.some.injEq, Except.ok.injEq, Prod.mk.injEq] at h
        exact ⟨pts, rfl, h.1.symm, h.2.symm⟩

theorem column_get {F : Type} (values : List (List F)) (i : Nat) (data : List F)
    (h : column values i = some data) :
    data.map some = values.map fun r => r.get? i := by
  induction values generalizing data with
  | nil =>
    simp only [column, Option.some.injEq] at h
    subst h
    rfl
  | cons v rest ih =>
    simp only [column] at h
    cases hv : v.get? i with
    | none => rw [hv] at h; cases h
    | some x =>
      rw [hv] at h
      cases hc : column rest i with
      | none => rw [hc] at h; cases h
      | some d =>
        rw [hc] at h
        simp only [Option.some.injEq] at h
        rw [← h, List.map_cons, List.map_cons, ih d hc, hv]

theorem datasetsFrom_columns {F : Type} (values : List (List F)) (labels : List Bytes)
    (i : Nat) (acc ds : List (Dataset F)) (h : datasetsFrom values labels i acc = (ds, none)) :
    ∃ tail, ds = acc ++ tail ∧
      ∀ k x, tail.get? k = some x → column values (i + k) = some x.Data := by
  induction labels generalizing i acc with
  | nil =>
    simp only [datasetsFrom, Prod.mk.injEq, and_true] at h
    subst h
    exact ⟨[], by simp, fun k x hx => by simp at hx⟩
  | cons label rest ih =>
    simp only [datasetsFrom] at h
    cases hc : column values i with
    | none => rw [hc] at h; simp at h
    | some data =>
      rw [hc] at h
      obtain ⟨tail, htail, hcols⟩ := ih (i + 1) _ h
      refine ⟨⟨label, data⟩ :: tail, by rw [htail]; simp, ?_⟩
      intro k x hx
      cases k with
      | zero =>
        simp only [List.get?_cons_zero, Option.some.injEq] at hx
        subst hx
        exact hc
      | succ k =>
        simp only [List.get?_cons_succ] at hx
        have := hcols k x hx
        rw [show i + (k + 1) = i + 1 + k by omega]
        exact this

theorem zip_map_points {α β γ : Type} (pts : List (α × β)) (g : β → γ) :
    List.zip (pts.map Prod.fst) (pts.map fun p => g p.2) = pts.map fun p => (p.1, g p.2) := by
  induction pts with
  | nil => rfl
  | cons p rest ih => simp [ih]

/-! ## The claims -/

/-- C1 (the code at the scenario of `Test_RRD`). With the samples `(0,0), (1,2), (2,4),
(3,6), (4,8)` at the seconds 1000, 1002, ..., 1008 of a bucket of step 2, the Mode A
query from 1000 to 1010 with output step 2 returns five labels, but each window also
takes the sample on its end boundary: the series are `[1/2, 3/2, 5/2, 7/2, 4]` and
`[1, 3, 5, 7, 8]`, not the written values. -/
theorem modeA_native_step_eval :
    testBucket.GetStats ratLib filledStore 5 ⟨1000, 0⟩ ⟨1010, 0⟩ 2 =
      some (some ⟨[str "1001", str "1003", str "1005", str "1007", str "1009"],
        [⟨str "a", [1 / 2, 3 / 2, 5 / 2, 7 / 2, 4]⟩, ⟨str "b", [1, 3, 5, 7, 8]⟩]⟩, none) := by
  decide!

/-- C2 fails across a change of the digit count: with samples `(0,0)` at second 98 and
`(1,2)` at second 100 (step 2, `n = 2`), the Mode B query from 98 to 102 with output step
1 returns for the first data source `[1/2, 1, 1/2]`, whose first point is not `v_0 = 0`;
the claim gives `[0, 1/2, 1/2]`. -/
theorem modeB_digit_boundary :
    testBucket.GetStats ratLib boundaryStore 4 ⟨98, 0⟩ ⟨102, 0⟩ 1 =
      some (some ⟨[str "98", str "100", str "101"],
        [⟨str "a", [1 / 2, 1, 1 / 2]⟩, ⟨str "b", [1, 2, 1]⟩]⟩, none) ∧
    ([1 / 2, 1, 1 / 2] : List ℚ) ≠ [0, 1 / 2, 1 / 2] := by
  decide!

/-- C2 (amended). For a bucket with step 2 whose container holds exactly the samples
written at `t0, t0 + 2, ..., t0 + 2(n-1)` (`n ≥ 1`, tuples of the declared arity), with
`t0 ≥ 0` and `t0` and `t0 + 2n - 1` of the same number of decimal digits:
`GetStats(t0, t0 + 2n, 1)` (Mode B) returns `2n - 1` points per series, the first being
`v_0` and, for `i = 1..n-1`, the points at the instants `t0 + 2i - 1` and `t0 + 2i` both
the component-wise mean of `v_(i-1)` and `v_i`; the instant `t0 + 2n - 1` gives no point.
The library is taken to read each reading back from its own non-empty text, which holds
no delimiter, and to give `0 + x = x` on the readings and `x / 1 = x` on those of the
first tuple. -/
theorem modeB_interpolation {F : Type} (L : Lib F) (s : Storage) (rrd : RRDBucket)
    (inf : info) (db : DB) (d : Bytes) (t0 : Int) (n : Nat) (v : Nat → List F) (fuel : Nat)
    (ns1 ns2 : Nat)
    (hinf : rrd.inf = some inf) (hstor : rrd.stor = true) (hdb : s.db = some db)
    (hstep : inf.Step = 2) (hds : inf.Ds ≠ [])
    (hc : get rrd.bucketName db = some (renderSamples (cadenceSamples L t0 v n) d))
    (hn : 1 ≤ n) (ht0 : 0 ≤ t0) (hmax : t0 + 2 * (n : Int) < 2 ^ 63)
    (hdigits : (fmtInt t0).length = (fmtInt (t0 + 2 * (n : Int) - 1)).length)
    (hvals : ∀ j < n, (v j).length = inf.Ds.length ∧ ∀ x ∈ v j,
      L.parseFloat (L.sprint x) = some x ∧ delimiter ∉ L.sprint x ∧ L.sprint x ≠ [])
    (hzero : ∀ j < n, ∀ x ∈ v j, L.add L.zero x = x) (hone : ∀ x ∈ v 0, L.divLen x 1 = x)
    (hfuel : 2 * n ≤ fuel) :
    rrd.GetStats L s fuel ⟨t0, ns1⟩ ⟨t0 + 2 * (n : Int), ns2⟩ 1 =
      some (some ⟨interpolatedLabels L t0 n,
        List.zipWith (fun name k => ⟨name, (interpolated L v n).map fun r => r.getD k L.zero⟩)
          inf.Ds (List.range inf.Ds.length)⟩, none) ∧
    (interpolated L v n).length = 2 * n - 1 ∧
    (interpolatedLabels L t0 n).length = 2 * n - 1 := by
  have hdig : ∀ x : Int, t0 ≤ x → x ≤ t0 + 2 * (n : Int) - 1 →
      (fmtInt x).length = (fmtInt t0).length :=
    fun x h1 h2 => fmtInt_length_between t0 x _ ht0 h1 h2 hdigits
  have hdslen : 0 < inf.Ds.length := List.length_pos.2 hds
  have hvals2 : ∀ j < n, v j ≠ [] ∧ (v j).length = inf.Ds.length ∧ ∀ x ∈ v j,
      L.parseFloat (L.sprint x) = some x ∧ delimiter ∉ L.sprint x ∧ L.sprint x ≠ [] := by
    intro j hj
    obtain ⟨h1, h2⟩ := hvals j hj
    refine ⟨?_, h1, h2⟩
    intro h
    rw [h] at h1
    simp at h1
    omega
  have hrange : getRange L (renderSamples (cadenceSamples L t0 v n) d) inf fuel ⟨t0, ns1⟩
      ⟨t0 + 2 * (n : Int), ns2⟩ 1 =
      some (Except.ok (interpolated L v n, interpolatedLabels L t0 n)) := by
    unfold getRange
    rw [if_neg (by rw [hstep]; decide)]
    exact rangeB_cadence L t0 v n inf.Ds.length d fuel ht0 hn hmax hdig hvals2 hzero hone hfuel
  have hrows : ∀ r ∈ interpolated L v n, 0 + inf.Ds.length ≤ r.length := by
    intro r hr
    unfold interpolated at hr
    rcases List.mem_cons.1 hr with rfl | hr
    · rw [(hvals 0 (by omega)).1]; omega
    · obtain ⟨i, hi, hr⟩ := List.mem_flatMap.1 hr
      have hi2 := List.mem_range.1 hi
      have hm : (midpoint L (v i) (v (i + 1))).length = inf.Ds.length := by
        unfold midpoint
        rw [List.length_zipWith, (hvals i (by omega)).1, (hvals (i + 1) (by omega)).1]
        simp
      simp only [List.mem_cons, List.mem_singleton, List.not_mem_nil, or_false, or_self] at hr
      rw [hr, hm]
      omega
  refine ⟨?_, ?_, ?_⟩
  · unfold RRDBucket.GetStats
    have hbefore : Time.Before ⟨t0 + 2 * (n : Int), ns2⟩ ⟨t0, ns1⟩ = false :=
      Before_of_lt ⟨t0, ns1⟩ ⟨t0 + 2 * (n : Int), ns2⟩ (by simp only []; omega)
    simp only [hinf, hstor, hdb, hbefore, hc, hrange]
    rw [datasetsFrom_eq (interpolated L v n) inf.Ds 0 [] L.zero hrows]
    simp [List.range_eq_range']
  · have h := length_flatMap_pairs (List.range (n - 1))
      (fun (i : Nat) => [midpoint L (v i) (v (i + 1)), midpoint L (v i) (v (i + 1))])
      (fun _ => rfl)
    unfold interpolated
    rw [List.length_cons, h, List.length_range]
    omega
  · have h := length_flatMap_pairs (List.range (n - 1))
      (fun (i : Nat) => [L.stamp (t0 + 2 * (i : Int) + 1), L.stamp (t0 + 2 * (i : Int) + 2)])
      (fun _ => rfl)
    unfold interpolatedLabels
    rw [List.length_cons, h, List.length_range]
    omega

/-- C2 (amended) at the scenario of `Test_RRD`: five samples at the seconds 1000 to 1008. -/
theorem modeB_interpolation_witness :
    testBucket.GetStats ratLib filledStore 10 ⟨1000, 0⟩ ⟨1000 + 2 * ((5 : Nat) : Int), 0⟩ 1 =
      some (some ⟨interpolatedLabels ratLib 1000 5,
        List.zipWith
          (fun name k => ⟨name, (interpolated ratLib testTuples 5).map fun r => r.getD k 0⟩)
          testInfo.Ds (List.range testInfo.Ds.length)⟩, none) ∧
    (interpolated ratLib testTuples 5).length = 2 * 5 - 1 ∧
    (interpolatedLabels ratLib 1000 5).length = 2 * 5 - 1 :=
  modeB_interpolation ratLib filledStore testBucket testInfo (filledStore.db.getD [])
    (ratLib.marshal testInfo) 1000 5 testTuples 10 0 0 rfl rfl (by decide!) (by decide)
    (by decide) (by decide!) (by decide) (by decide) (by decide) (by decide!) (by decide!)
    (fun _ _ x _ => zero_add x) (fun x _ => by show x / ((1 : Nat) : ℚ) = x; simp)
    (by decide)

/-- C3 fails for writes faster than the step: a bucket of capacity 1 and step 10 written
at the seconds 5000, 5001 and 5002 retains three samples, more than `C + 1 = 2`. -/
theorem fast_writes_exceed_capacity :
    (get (str "fast") ((saveAll ratLib fastBucket fastStore fastWrites).db.getD [])).map
      sampleCount = some 3 ∧ ¬ (3 ≤ fastInfo.Capacity + 1) := by
  decide!

/-- C3 (amended). For a bucket with capacity `C ≥ 1` and step `S ≥ 1` (`C·S` within 64
bits) that holds no sample, and every sequence of timestamped writes whose timestamps
are non-negative, have the same number of decimal digits and never decrease, two
successive ones being equal or at least `S` apart: after each write the number of sample
entries retained in the container (descriptor excluded) is at most `C`. -/
theorem capacity_at_cadence {F : Type} (L : Lib F) (s : Storage) (rrd : RRDBucket)
    (inf : info) (db : DB) (d : Bytes) (ws : List (Time × List F)) (D : Nat)
    (hinf : rrd.inf = some inf) (hdb : s.db = some db)
    (hc : get rrd.bucketName db = some [(INFO, d)])
    (hcap : 1 ≤ inf.Capacity) (hstep : 1 ≤ inf.Step)
    (hprod : inf.Capacity * inf.Step < 2 ^ 63)
    (hts : ∀ w ∈ ws, 0 ≤ w.1.sec ∧ w.1.sec < 2 ^ 63 ∧ (fmtInt w.1.sec).length = D)
    (hcad : (ws.map fun w => w.1.sec).Chain' (fun a b => a = b ∨ a + inf.Step ≤ b))
    (k : Nat) :
    ∃ c, get rrd.bucketName ((saveAll L rrd s (ws.take k)).db.getD []) = some c ∧
      (sampleCount c : Int) ≤ inf.Capacity := by
  obtain ⟨db1, es1, hdb1, hc1, hlen1⟩ := saveAll_render L rrd inf d D hinf hcap hstep hprod
    (ws.take k) s db [] hdb hc List.Pairwise.nil (by simp) (by simpa using by omega)
    (fun w hw => hts w (List.mem_of_mem_take hw))
    (by rw [List.map_take]; exact List.Chain'.take hcad k) (by simp)
  refine ⟨renderSamples es1 d, ?_, ?_⟩
  · rw [hdb1]
    exact hc1
  · rw [sampleCount_render]
    exact hlen1

/-- C3 (amended) at the bucket of `Test_RRD` (capacity 5, step 2) written at the seconds
1000, 1002, ..., 1012: at most five samples are retained after the seven writes. -/
theorem capacity_at_cadence_witness :
    ∃ c, get testBucket.bucketName
        ((saveAll ratLib testBucket testStore (cadenceWrites.take 7)).db.getD []) = some c ∧
      (sampleCount c : Int) ≤ testInfo.Capacity :=
  capacity_at_cadence ratLib testStore testBucket testInfo (testStore.db.getD [])
    (ratLib.marshal testInfo) cadenceWrites 4
    rfl (by decide) (by decide) (by decide) (by decide) (by decide) (by decide)
    (by simp [cadenceWrites, testWrites, testInfo]) 7

/-- C4. On a handle that carries metadata and whose store connection is set, `Save` with
a number of readings other than the number of declared data sources returns a
`ParamsError` and leaves the store, hence every container, as it was. -/
theorem Save_wrong_arity {F : Type} (L : Lib F) (s : Storage) (rrd : RRDBucket) (inf : info)
    (db : DB) (now : Time) (params : List F) (hinf : rrd.inf = some inf)
    (hstor : rrd.stor = true) (hdb : s.db = some db)
    (hlen : params.length ≠ inf.Ds.length) :
    rrd.Save L s now params = (s, some Error.ParamsError) := by
  have h : ¬ inf.Ds.length = params.length := fun h => hlen h.symm
  simp [RRDBucket.Save, RRDBucket.save, hinf, hstor, hdb, h]

/-- C4 at the bucket of `Test_RRD`: `Save(5)` and `Save(5, 6, 5, 8)` on two data sources. -/
theorem Save_wrong_arity_witness :
    testBucket.Save ratLib filledStore ⟨1010, 0⟩ [5] = (filledStore, some Error.ParamsError) ∧
    testBucket.Save ratLib filledStore ⟨1010, 0⟩ [5, 6, 5, 8] =
      (filledStore, some Error.ParamsError) :=
  ⟨Save_wrong_arity ratLib filledStore testBucket testInfo (filledStore.db.getD [])
      ⟨1010, 0⟩ [5] rfl rfl (by decide!) (by decide),
    Save_wrong_arity ratLib filledStore testBucket testInfo (filledStore.db.getD [])
      ⟨1010, 0⟩ [5, 6, 5, 8] rfl rfl (by decide!) (by decide)⟩

/-- C5 fails across a change of the digit count: after the write of `(3, 7)` at second 98
into the fresh bucket of `Test_RRD`, the Mode A query from 98 to 100 with output step 2
has the single window `[98, 100]`, which holds the timestamp 98 and no other sample, yet
the scan finds no entry and the result has no label and empty series: the key `98` is
found by the seek but is above the end key `100` in byte order. -/
theorem roundtrip_digit_boundary :
    testBucket.GetStats ratLib (testBucket.save ratLib testStore ⟨98, 0⟩ [3, 7]).1 1
        ⟨98, 0⟩ ⟨100, 0⟩ 2 =
      some (some ⟨[], [⟨str "a", []⟩, ⟨str "b", []⟩]⟩, none) ∧
    scanWindow ((get testBucket.bucketName
        ((testBucket.save ratLib testStore ⟨98, 0⟩ [3, 7]).1.db.getD [])).getD [])
      (fmtInt 98) (fmtInt 100) = [] ∧
    bytesCompare (fmtInt 98) (fmtInt 100) = Ordering.gt := by
  decide!

/-- C5 (amended). After the timestamped write `save(t, v1..vn)` of a tuple of the declared
arity, a Mode A query with one window whose bounds `from` and `from + outputStep` enclose,
in the byte order of the decimal keys, the key of `t` and the key of no other sample of
the container (in key order), returns one label and for data source `i` the series
`[vi]`. The library is taken to read each reading back from its own text, which holds no
delimiter, and to give `(0 + v) / 1 = v` on the readings. -/
theorem single_window_roundtrip {F : Type} (L : Lib F) (s : Storage) (rrd : RRDBucket)
    (inf : info) (db : DB) (c : Container) (t : Time) (params : List F) (fuel : Nat)
    (fromT toT : Time) (step : Int)
    (hinf : rrd.inf = some inf) (hstor : rrd.stor = true) (hdb : s.db = some db)
    (hc : get rrd.bucketName db = some c) (hsorted : KeysSorted c)
    (harity : params.length = inf.Ds.length) (hne : params ≠ [])
    (hrt : ∀ x ∈ params, L.parseFloat (L.sprint x) = some x ∧ delimiter ∉ L.sprint x)
    (hmean : ∀ x ∈ params, L.divLen (L.add L.zero x) 1 = x)
    (hmode : inf.Step ≤ step) (hstep : 1 ≤ step)
    (hfrom : fromT.sec < toT.sec) (hto : toT.sec ≤ wrap64 (fromT.sec + step))
    (hlo : bytesLe (fmtInt fromT.sec) (fmtInt t.sec) = true)
    (hhi : bytesLe (fmtInt t.sec) (fmtInt (wrap64 (fromT.sec + step))) = true)
    (hothers : ∀ e ∈ saveTx L inf t.sec params c, e.1 ≠ INFO → e.1 ≠ fmtInt t.sec →
      ¬ (bytesLe (fmtInt fromT.sec) e.1 = true ∧
        bytesLe e.1 (fmtInt (wrap64 (fromT.sec + step))) = true))
    (hfuel : 1 ≤ fuel) :
    rrd.GetStats L (rrd.save L s t params).1 fuel fromT toT step =
      some (some ⟨[L.stamp ((wrap64 (fromT.sec + wrap64 (fromT.sec + step))).tdiv 2)],
        List.zipWith (fun name x => ⟨name, [x]⟩) inf.Ds params⟩, none) := by
  have hsave : (rrd.save L s t params).1 =
      { s with db := some (put rrd.bucketName (saveTx L inf t.sec params c) db) } := by
    simp [RRDBucket.save, hinf, harity, hdb, hc]
  have hscan := scanWindow_single (saveTx L inf t.sec params c)
    (fmtInt t.sec, formatValue L params) (fmtInt fromT.sec)
    (fmtInt (wrap64 (fromT.sec + step))) (saveTx_sorted L inf t.sec params c hsorted)
    (saveTx_mem L inf t.sec params c) ((bytesLt_iff _ _).2 (fmtInt_lt_INFO _)) hlo hhi hothers
  have hsplit : splitAll L [formatValue L params] = Except.ok [params] := by
    simp [splitAll, splitToFloat_formatValue L params hne hrt]
  have havg : averageInStep L [params] = Except.ok params := by
    rw [averageInStep_single L params hne]
    congr 1
    exact map_eq_self _ params hmean
  obtain ⟨f, rfl⟩ : ∃ f, fuel = f + 1 := ⟨fuel - 1, by omega⟩
  have hrange : getRange L (saveTx L inf t.sec params c) inf (f + 1) fromT toT step =
      some (Except.ok ([params],
        [L.stamp ((wrap64 (fromT.sec + wrap64 (fromT.sec + step))).tdiv 2)])) := by
    unfold getRange
    rw [if_pos (ge_iff_le.2 hmode)]
    simp only [rangeA, if_pos hfrom, hscan, List.map_cons, List.map_nil, hsplit,
      List.length_singleton, lt_irrefl, if_false, havg, List.nil_append]
    exact rangeA_done L _ _ _ _ _ _ (by omega)
  unfold RRDBucket.GetStats
  rw [hsave]
  simp only [hinf, hstor, Before_of_lt fromT toT hfrom, if_neg (not_lt.2 hstep),
    get_put_self, hrange]
  rw [datasetsFrom_eq [params] inf.Ds 0 [] L.zero (by simp [harity]),
    zipWith_single_row inf.Ds params 0 L.zero (by simp [harity])]
  simp

/-- C5 (amended) at the fresh bucket of `Test_RRD`: the tuple `(3, 7)` written at second
1000 and read back through the window from 1000 to 1002. -/
theorem single_window_roundtrip_witness :
    testBucket.GetStats ratLib (testBucket.save ratLib testStore ⟨1000, 0⟩ [3, 7]).1 1
        ⟨1000, 0⟩ ⟨1002, 0⟩ 2 =
      some (some ⟨[ratLib.stamp ((wrap64 (1000 + wrap64 (1000 + 2))).tdiv 2)],
        List.zipWith (fun name x => ⟨name, [x]⟩) testInfo.Ds [3, 7]⟩, none) :=
  single_window_roundtrip ratLib testStore testBucket testInfo (testStore.db.getD [])
    [(INFO, ratLib.marshal testInfo)] ⟨1000, 0⟩ [3, 7] 1 ⟨1000, 0⟩ ⟨1002, 0⟩ 2
    rfl rfl (by decide) (by decide) (by unfold KeysSorted; decide) (by decide) (by decide)
    (by decide!) (by decide!) (by decide) (by decide) (by decide) (by decide) (by decide)
    (by decide) (by decide!) (by decide)

/-- C6 fails for a wrong number of fields: a sample with more fields than data sources
is read without any error, and one with fewer fields gives a run-time panic recovered
after part of the result was built, so a partly filled `Stat` comes back with an error
that is no `DataError`. -/
theorem field_count_not_checked :
    fastBucket.GetStats ratLib wideStore 1 ⟨5000, 0⟩ ⟨5001, 0⟩ 10 =
      some (some ⟨[str "5005"], [⟨str "a", [1]⟩]⟩, none) ∧
    testBucket.GetStats ratLib narrowStore 1 ⟨1000, 0⟩ ⟨1001, 0⟩ 2 =
      some (some ⟨[str "1001"], [⟨str "a", [7]⟩]⟩, some Error.Runtime) := by
  decide!

/-- C6 (amended). When every sample value the query scans has the declared number of
fields and one of them has a field that does not parse as a number, `GetStats` returns a
`DataError` and a nil `Stat`. -/
theorem GetStats_nonNumeric {F : Type} (L : Lib F) (s : Storage) (rrd : RRDBucket)
    (inf : info) (db : DB) (c : Container) (fuel : Nat) (fromT toT : Time) (step : Int)
    (ws : List (List Bytes))
    (hinf : rrd.inf = some inf) (hstor : rrd.stor = true) (hdb : s.db = some db)
    (hc : get rrd.bucketName db = some c)
    (hbefore : toT.Before fromT = false) (hstep : 1 ≤ step)
    (hscan : scanned c inf fuel fromT toT step = some ws)
    (hcount : ∀ w ∈ ws, ∀ v ∈ w, (stringsSplit delimiter v).length = inf.Ds.length)
    (hbad : ∃ w ∈ ws, ∃ v ∈ w, ∃ f ∈ stringsSplit delimiter v, L.parseFloat f = none) :
    rrd.GetStats L s fuel fromT toT step = some (none, some Error.DataError) := by
  have hrange : getRange L c inf fuel fromT toT step = some (Except.error Error.DataError) := by
    unfold getRange
    unfold scanned at hscan
    split_ifs at hscan ⊢
    · exact rangeA_nonNumeric L c _ _ _ _ _ _ ws hscan hcount hbad
    · exact rangeB_nonNumeric L c _ _ _ _ _ _ ws hscan hcount hbad
  unfold RRDBucket.GetStats
  simp only [hinf, hstor, hdb, hbefore, if_neg (not_lt.2 hstep), hc, hrange]
  simp

/-- C6 (amended) at the bucket of `Test_RRD` holding the sample `7|x`. -/
theorem GetStats_nonNumeric_witness :
    testBucket.GetStats ratLib badStore 1 ⟨1000, 0⟩ ⟨1001, 0⟩ 2 =
      some (none, some Error.DataError) :=
  GetStats_nonNumeric ratLib badStore testBucket testInfo (badStore.db.getD [])
    [(fmtInt 1000, str "7|x"), (INFO, ratLib.marshal testInfo)] 1 ⟨1000, 0⟩ ⟨1001, 0⟩ 2
    [[str "7|x"]] rfl rfl (by decide) (by decide) (by decide) (by decide) (by decide)
    (by decide) (by decide)

/-- C7. For a name that is not in the store's map, `RRD` returns a handle without
metadata, and on it `Save` with any readings and `GetStats` with any arguments return a
`ParamsError`; the store is left as it was. -/
theorem RRD_unknown {F : Type} (L : Lib F) (s : Storage) (name : Bytes)
    (hname : get name s.rrd = none) :
    (s.RRD name).inf = none ∧
    (∀ (now : Time) (params : List F),
      (s.RRD name).Save L s now params = (s, some Error.ParamsError)) ∧
    (∀ (fuel : Nat) (fromT toT : Time) (step : Int),
      (s.RRD name).GetStats L s fuel fromT toT step = some (none, some Error.ParamsError)) := by
  simp [Storage.RRD, hname, RRDBucket.Save, RRDBucket.GetStats]

/-- C7 at the store of `Test_RRD` and the unknown name `nope`. -/
theorem RRD_unknown_witness :
    (testStore.RRD (str "nope")).inf = none ∧
    (testStore.RRD (str "nope")).Save ratLib testStore ⟨1000, 0⟩ [1, 2] =
      (testStore, some Error.ParamsError) ∧
    (testStore.RRD (str "nope")).GetStats ratLib testStore 10 ⟨1000, 0⟩ ⟨1010, 0⟩ 2 =
      some (none, some Error.ParamsError) :=
  have h := RRD_unknown ratLib testStore (str "nope") (by decide)
  ⟨h.1, h.2.1 _ _, h.2.2 _ _ _ _⟩

/-- C8. On a connected store `NewRRD` returns a `ParamsError` and no bucket, leaving the
whole store (map and containers) as it was, when the step or the capacity is below one,
the data-source list is empty, or the name is that of an existing container; and after a
`NewRRD` that succeeded, every further `NewRRD` with the same name is rejected in this
way, so the first bucket is never replaced. -/
theorem NewRRD_rejects {F : Type} (L : Lib F) (s : Storage) (db : DB) (name : Bytes)
    (step capacity : Int) (DSs : List Bytes) (hdb : s.db = some db) :
    ((step < 1 ∨ capacity < 1 ∨ DSs = [] ∨ (get name db).isSome = true) →
      s.NewRRD L name step capacity DSs = (s, none, some Error.ParamsError)) ∧
    (∀ (s1 : Storage) (b : RRDBucket) (step2 capacity2 : Int) (DSs2 : List Bytes),
      s.NewRRD L name step capacity DSs = (s1, some b, none) →
      s1.NewRRD L name step2 capacity2 DSs2 = (s1, none, some Error.ParamsError)) := by
  have key : ∀ (s : Storage) (db : DB) (step capacity : Int) (DSs : List Bytes),
      s.db = some db → (get name db).isSome = true →
      s.NewRRD L name step capacity DSs = (s, none, some Error.ParamsError) := by
    intro s db step capacity DSs hdb h4
    obtain ⟨c, hc⟩ := Option.isSome_iff_exists.1 h4
    unfold Storage.NewRRD
    simp only [hdb, RRDBucket.init, hc]
    split_ifs <;> rfl
  refine ⟨?_, ?_⟩
  · intro hbad
    by_cases h4 : (get name db).isSome = true
    · exact key s db step capacity DSs hdb h4
    · unfold Storage.NewRRD
      simp only [hdb]
      by_cases h1 : step < 1
      · simp [h1]
      by_cases h2 : capacity < 1
      · simp [h1, h2]
      have h3 : DSs = [] := by tauto
      simp [h1, h2, h3]
  · intro s1 b step2 capacity2 DSs2 hnew
    unfold Storage.NewRRD at hnew
    simp only [hdb] at hnew
    by_cases h1 : step < 1
    · simp [h1] at hnew
    by_cases h2 : capacity < 1
    · simp [h1, h2] at hnew
    by_cases h3 : DSs.length < 1
    · simp [h1, h2, h3] at hnew
    simp only [h1, h2, h3, if_false, RRDBucket.init, hdb] at hnew
    by_cases h4 : name.length = 0
    · simp [h4] at hnew
    simp only [h4, if_false] at hnew
    cases hex : get name db with
    | some c => rw [hex] at hnew; simp at hnew
    | none =>
      rw [hex] at hnew
      simp only [Prod.mk.injEq] at hnew
      obtain ⟨hs1, -, -⟩ := hnew
      subst hs1
      exact key _ _ step2 capacity2 DSs2 rfl (by simp [get_put_self])

/-- C8 at the store of `Test_RRD`: a second `NewRRD("testing", ...)` is rejected and
changes nothing. -/
theorem NewRRD_rejects_witness :
    testStore.NewRRD ratLib (str "testing") 2 5 [str "a", str "b"] =
      (testStore, none, some Error.ParamsError) :=
  (NewRRD_rejects ratLib testStore (testStore.db.getD []) (str "testing") 2 5
    [str "a", str "b"] (by decide)).1 (by decide)

/-- C9. After any sequence of `NewRRD` calls with any names, a step and a capacity of one
or more and a non-empty list of data sources on a fresh store, closing the store
succeeds, and opening a new store on the persisted state succeeds and gives a map with
the same handle as the closed store under every name: for the non-empty name of a call
the handle with the step, capacity and data sources of the first call with that name,
and no handle under any other name (the engine creates no container with an empty
name). `json.Unmarshal` is taken to give back what `json.Marshal` wrote, as a non-empty
text, for the descriptors of the calls. -/
theorem load_after_create {F : Type} (L : Lib F)
    (reqs : List (Bytes × Int × Int × List Bytes)) (path path2 : Bytes)
    (disk : Bytes → Option DB)
    (hvalid : ∀ r ∈ reqs, 1 ≤ r.2.1 ∧ 1 ≤ r.2.2.1 ∧ r.2.2.2 ≠ [])
    (hcodec : ∀ r ∈ reqs, L.unmarshal (L.marshal ⟨r.2.1, r.2.2.1, r.2.2.2⟩) =
        some ⟨r.2.1, r.2.2.1, r.2.2.2⟩ ∧ L.marshal ⟨r.2.1, r.2.2.1, r.2.2.2⟩ ≠ [])
    (hdisk : disk path2 = (createAll L ⟨some [], path, []⟩ reqs).db) :
    (createAll L ⟨some [], path, []⟩ reqs).Close = none ∧
    ∃ s2, NewStorage L disk path2 = (some s2, none) ∧
      (∀ name, get name s2.rrd = get name (createAll L ⟨some [], path, []⟩ reqs).rrd) ∧
      ∀ name, get name s2.rrd =
        if name = [] then none
        else (get name reqs).map fun r => ⟨true, name, some ⟨r.1, r.2.1, r.2.2⟩⟩ := by
  have h0 : Consistent L ⟨some [], path, []⟩ :=
    ⟨[], rfl, List.nodup_nil, fun e he => absurd he (List.not_mem_nil _),
      fun name => by simp [get]⟩
  have hcons := createAll_consistent L reqs _ hcodec h0
  obtain ⟨s2, hs2, hmap⟩ := reopen_consistent L _ hcons disk path2 hdisk
  have hhandles := createAll_handles L reqs ⟨some [], path, []⟩ hvalid hcodec h0
  refine ⟨?_, s2, hs2, hmap, ?_⟩
  · obtain ⟨db, hdb, -⟩ := hcons
    simp [Storage.Close, hdb]
  · intro name
    rw [hmap name, hhandles name]
    rfl

/-- C9 at the two buckets of the package example, `Data` and `Network`. -/
theorem load_after_create_witness :
    (createAll ratLib ⟨some [], str "bolt.db", []⟩ exampleBuckets).Close = none ∧
    ∃ s2, NewStorage ratLib
        (fun _ => (createAll ratLib ⟨some [], str "bolt.db", []⟩ exampleBuckets).db)
        (str "bolt.db") = (some s2, none) ∧
      (∀ name, get name s2.rrd =
        get name (createAll ratLib ⟨some [], str "bolt.db", []⟩ exampleBuckets).rrd) ∧
      ∀ name, get name s2.rrd =
        if name = [] then none
        else (get name exampleBuckets).map fun r => ⟨true, name, some ⟨r.1, r.2.1, r.2.2⟩⟩ :=
  load_after_create ratLib exampleBuckets (str "bolt.db") (str "bolt.db") _
    (by decide) (by decide) rfl

/-- C10. If some container of the persisted state has no descriptor entry, a descriptor
that does not parse, or one with a step or capacity below one or no data source, then
`NewStorage` returns no store and a `DataError`, whatever the other containers are and
wherever the bad one stands in the scan. -/
theorem NewStorage_corrupt {F : Type} (L : Lib F) (disk : Bytes → Option DB) (dbpath : Bytes)
    (db : DB) (hdisk : disk dbpath = some db) (hbad : ∃ e ∈ db, Corrupt L e.2) :
    NewStorage L disk dbpath = (none, some Error.DataError) := by
  obtain ⟨m1, e, h⟩ := loadLoop_corrupt L db [] hbad
  simp [NewStorage, hdisk, Storage.load, h]

/-- C10 at a state with the well-formed bucket of `Test_RRD` followed by a container
whose descriptor has capacity 0. -/
theorem NewStorage_corrupt_witness :
    NewStorage ratLib
      (fun _ => some [(str "testing", [(INFO, ratLib.marshal testInfo)]),
        (str "zero", [(INFO, ratLib.marshal ⟨2, 0, [str "a"]⟩)])]) (str "test.db") =
      (none, some Error.DataError) :=
  NewStorage_corrupt ratLib _ (str "test.db") _ rfl
    ⟨(str "zero", [(INFO, ratLib.marshal ⟨2, 0, [str "a"]⟩)]), by simp,
      Or.inr ⟨ratLib.marshal ⟨2, 0, [str "a"]⟩, by simp [get],
        Or.inr ⟨⟨2, 0, [str "a"]⟩, by decide, Or.inr (Or.inl (by decide))⟩⟩⟩

/-- C11. On a handle whose store connection is set, `GetStats` with `to` before `from`, or
with an output step below one, returns a `ParamsError` and no result, whatever the
container holds (or whether it exists) and for any bound on the scan, which never starts. -/
theorem GetStats_bad_params {F : Type} (L : Lib F) (s : Storage) (rrd : RRDBucket) (db : DB)
    (fuel : Nat) (fromT toT : Time) (step : Int) (hdb : s.db = some db)
    (hstor : rrd.stor = true) (hbad : toT.Before fromT = true ∨ step < 1) :
    rrd.GetStats L s fuel fromT toT step = some (none, some Error.ParamsError) := by
  unfold RRDBucket.GetStats
  cases hinf : rrd.inf with
  | none => rfl
  | some inf =>
    simp only [hstor, hdb]
    rcases hbad with h | h
    · simp [h]
    · by_cases hb : toT.Before fromT = true
      · simp [hb]
      · simp [hb, h]

/-- C11 at the bucket of `Test_RRD`: a query from 1010 back to 1000, and one with output
step 0. -/
theorem GetStats_bad_params_witness :
    testBucket.GetStats ratLib filledStore 0 ⟨1010, 0⟩ ⟨1000, 0⟩ 2 =
      some (none, some Error.ParamsError) ∧
    testBucket.GetStats ratLib filledStore 0 ⟨1000, 0⟩ ⟨1010, 0⟩ 0 =
      some (none, some Error.ParamsError) :=
  ⟨GetStats_bad_params ratLib filledStore testBucket (filledStore.db.getD []) 0 ⟨1010, 0⟩
      ⟨1000, 0⟩ 2 (by decide!) rfl (Or.inl (by decide)),
    GetStats_bad_params ratLib filledStore testBucket (filledStore.db.getD []) 0 ⟨1000, 0⟩
      ⟨1010, 0⟩ 0 (by decide!) rfl (Or.inr (by decide))⟩

/-- C12. On a found bucket, `GetStats(t, t, outputStep)` with `outputStep ≥ 1`, in either
mode and whatever the container holds, returns no error, no label, and for every
declared data source, in order, a dataset with its name and no data. -/
theorem GetStats_empty_interval {F : Type} (L : Lib F) (s : Storage) (rrd : RRDBucket)
    (inf : info) (db : DB) (c : Container) (fuel : Nat) (t : Time) (step : Int)
    (hinf : rrd.inf = some inf) (hstor : rrd.stor = true) (hdb : s.db = some db)
    (hc : get rrd.bucketName db = some c) (hstep : 1 ≤ step) :
    rrd.GetStats L s fuel t t step =
      some (some ⟨[], inf.Ds.map fun name => ⟨name, []⟩⟩, none) := by
  have hbefore : t.Before t = false := by simp [Time.Before]
  have hrange : getRange L c inf fuel t t step = some (Except.ok ([], [])) := by
    unfold getRange
    split_ifs
    · exact rangeA_done L c _ _ _ _ _ (lt_irrefl _)
    · exact rangeB_done L c _ _ _ _ _ (lt_irrefl _)
  unfold RRDBucket.GetStats
  simp only [hinf, hstor, hdb, hbefore, if_neg (not_lt.2 hstep), hc, hrange, datasetsFrom_nil]
  simp

/-- C12 at the bucket of `Test_RRD` with its five samples, in Mode A and in Mode B. -/
theorem GetStats_empty_interval_witness :
    testBucket.GetStats ratLib filledStore 0 ⟨1004, 0⟩ ⟨1004, 0⟩ 2 =
      some (some ⟨[], testInfo.Ds.map fun name => ⟨name, []⟩⟩, none) ∧
    testBucket.GetStats ratLib filledStore 0 ⟨1004, 0⟩ ⟨1004, 0⟩ 1 =
      some (some ⟨[], testInfo.Ds.map fun name => ⟨name, []⟩⟩, none) :=
  ⟨GetStats_empty_interval ratLib filledStore testBucket testInfo (filledStore.db.getD [])
      ((get testBucket.bucketName (filledStore.db.getD [])).getD []) 0 ⟨1004, 0⟩ 2 rfl rfl
      (by decide!) (by decide!) (by decide),
    GetStats_empty_interval ratLib filledStore testBucket testInfo (filledStore.db.getD [])
      ((get testBucket.bucketName (filledStore.db.getD [])).getD []) 0 ⟨1004, 0⟩ 1 rfl rfl
      (by decide!) (by decide!) (by decide)⟩

/-- C13. Whenever `GetStats` returns a result and no error, in either mode, the result has
one dataset per declared data source, in declared order and labelled with the name of
the data source, and the data of every dataset has the length of the label sequence.
Point `j` of every series belongs to label `j`: the labels are those of the labelled
points of the query (one per retained window or instant, in chronological order), and
the data of the `i`-th dataset, paired with the labels, is the `i`-th component of the
mean of each labelled point paired with the label of that point. -/
theorem GetStats_shape {F : Type} (L : Lib F) (s : Storage) (rrd : RRDBucket) (inf : info)
    (fuel : Nat) (fromT toT : Time) (step : Int) (stat : Stat F)
    (hinf : rrd.inf = some inf)
    (hres : rrd.GetStats L s fuel fromT toT step = some (some stat, none)) :
    stat.Datasets.map (fun x => x.Label) = inf.Ds ∧
    (∀ x ∈ stat.Datasets, x.Data.length = stat.Labels.length) ∧
    ∃ db c pts, s.db = some db ∧ get rrd.bucketName db = some c ∧
      points L c inf fuel fromT toT step = some (Except.ok pts) ∧
      stat.Labels = pts.map Prod.fst ∧
      ∀ i x, stat.Datasets.get? i = some x →
        List.zip stat.Labels (x.Data.map some) = pts.map fun p => (p.1, p.2.get? i) := by
  unfold RRDBucket.GetStats at hres
  simp only [hinf] at hres
  by_cases h1 : rrd.stor = false
  · simp [h1] at hres
  simp only [h1, if_false] at hres
  cases hdb : s.db with
  | none => rw [hdb] at hres; simp at hres
  | some db =>
    rw [hdb] at hres
    simp only [] at hres
    by_cases h2 : toT.Before fromT = true
    · simp [h2] at hres
    by_cases h3 : step < 1
    · simp [h2, h3] at hres
    simp only [h2, h3, if_false] at hres
    cases hc : get rrd.bucketName db with
    | none => rw [hc] at hres; simp at hres
    | some c =>
      rw [hc] at hres
      simp only [] at hres
      cases hr : getRange L c inf fuel fromT toT step with
      | none => rw [hr] at hres; simp at hres
      | some r =>
        rw [hr] at hres
        cases r with
        | error e => simp at hres
        | ok vl =>
          obtain ⟨values, labels⟩ := vl
          simp only [] at hres
          cases hd : datasetsFrom values inf.Ds 0 [] with
          | mk datasets err =>
            rw [hd] at hres
            have hres2 : (some (⟨labels, datasets⟩ : Stat F), err) = (some stat, none) :=
              Option.some.inj hres
            have hstat : (⟨labels, datasets⟩ : Stat F) = stat :=
              Option.some.inj (Prod.mk.inj hres2).1
            have herr : err = none := (Prod.mk.inj hres2).2
            subst herr
            subst hstat
            obtain ⟨hl, hdata⟩ := datasetsFrom_shape values inf.Ds 0 [] datasets hd
            have hlen : values.length = labels.length := by
              unfold getRange at hr
              split_ifs at hr
              · exact rangeA_lengths L c _ _ fuel _ ([], []) (values, labels) rfl hr
              · exact rangeB_lengths L c _ _ fuel _ ([], []) (values, labels) rfl hr
            obtain ⟨pts, hpts, hvalues, hlabels⟩ :=
              getRange_points L c inf fuel fromT toT step values labels hr
            obtain ⟨tail, htail, hcols⟩ := datasetsFrom_columns values inf.Ds 0 [] datasets hd
            refine ⟨by simpa using hl, ?_, db, c, pts, rfl, hc, hpts, hlabels, ?_⟩
            · intro x hx
              rcases hdata x hx with h | h
              · simp at h
              · simp only []
                rw [h, hlen]
            · intro i x hx
              simp only [] at hx ⊢
              rw [htail, List.nil_append] at hx
              have hcol := hcols i x hx
              rw [Nat.zero_add] at hcol
              rw [column_get values i x.Data hcol, hvalues, hlabels, List.map_map]
              exact zip_map_points pts (fun r => r.get? i)

/-- C13 at the Mode A query of `Test_RRD`: two datasets `a` and `b` of five points for
five labels, each point the component of the mean of the window with its label. -/
theorem GetStats_shape_witness :
    ([⟨str "a", [1 / 2, 3 / 2, 5 / 2, 7 / 2, 4]⟩, ⟨str "b", [1, 3, 5, 7, 8]⟩] :
        List (Dataset ℚ)).map (fun x => x.Label) = testInfo.Ds ∧
    (∀ x ∈ ([⟨str "a", [1 / 2, 3 / 2, 5 / 2, 7 / 2, 4]⟩, ⟨str "b", [1, 3, 5, 7, 8]⟩] :
        List (Dataset ℚ)),
      x.Data.length =
        [str "1001", str "1003", str "1005", str "1007", str "1009"].length) ∧
    ∃ db c pts, filledStore.db = some db ∧ get testBucket.bucketName db = some c ∧
      points ratLib c testInfo 5 ⟨1000, 0⟩ ⟨1010, 0⟩ 2 = some (Except.ok pts) ∧
      [str "1001", str "1003", str "1005", str "1007", str "1009"] = pts.map Prod.fst ∧
      ∀ i x, ([⟨str "a", [1 / 2, 3 / 2, 5 / 2, 7 / 2, 4]⟩, ⟨str "b", [1, 3, 5, 7, 8]⟩] :
          List (Dataset ℚ)).get? i = some x →
        List.zip [str "1001", str "1003", str "1005", str "1007", str "1009"]
            (x.Data.map some) = pts.map fun p => (p.1, p.2.get? i) :=
  GetStats_shape ratLib filledStore testBucket testInfo 5 ⟨1000, 0⟩ ⟨1010, 0⟩ 2
    ⟨[str "1001", str "1003", str "1005", str "1007", str "1009"],
      [⟨str "a", [1 / 2, 3 / 2, 5 / 2, 7 / 2, 4]⟩, ⟨str "b", [1, 3, 5, 7, 8]⟩]⟩ rfl
    (by decide!)

/-- C14. A timestamped write at `t` in which the eviction pass runs, into a container
whose sample timestamps and the cutoff `t − capacity·step` are non-negative with the same
number of decimal digits (`capacity·step` and `t` within 64 bits, so that the cutoff is
computed without wrap-around; the samples listed by increasing timestamp): the container
after the write is the entry at `t` put into the descriptor and the samples above the
cutoff. It holds the descriptor, the new readings at `t`, every earlier sample above the
cutoff other than one at `t` with its value, no sample at or below the cutoff, and no
other entry. -/
theorem eviction_exact {F : Type} (L : Lib F) (inf : info) (t : Int) (params : List F)
    (es : List (Int × Bytes)) (d : Bytes)
    (hcap : 1 ≤ inf.Capacity) (hstep : 1 ≤ inf.Step)
    (hprod : inf.Capacity * inf.Step < 2 ^ 63) (ht : t < 2 ^ 63)
    (hruns : evictionRuns inf (renderSamples es d) = true)
    (hsorted : es.Pairwise fun a b => a.1 < b.1)
    (hcut : 0 ≤ t - inf.Capacity * inf.Step)
    (hdig : ∀ p ∈ es, 0 ≤ p.1 ∧
      (fmtInt p.1).length = (fmtInt (t - inf.Capacity * inf.Step)).length) :
    saveTx L inf t params (renderSamples es d) =
      put (fmtInt t) (formatValue L params)
        (renderSamples (es.filter fun p => decide (t - inf.Capacity * inf.Step < p.1)) d) ∧
    get INFO (saveTx L inf t params (renderSamples es d)) = some d ∧
    get (fmtInt t) (saveTx L inf t params (renderSamples es d)) = some (formatValue L params) ∧
    (∀ p ∈ es, t - inf.Capacity * inf.Step < p.1 → p.1 ≠ t →
      get (fmtInt p.1) (saveTx L inf t params (renderSamples es d)) = some p.2) ∧
    (∀ p ∈ es, p.1 ≤ t - inf.Capacity * inf.Step →
      get (fmtInt p.1) (saveTx L inf t params (renderSamples es d)) = none) ∧
    (∀ e ∈ saveTx L inf t params (renderSamples es d),
      e = (INFO, d) ∨ e = (fmtInt t, formatValue L params) ∨
        ∃ p ∈ es, t - inf.Capacity * inf.Step < p.1 ∧ e = (fmtInt p.1, p.2)) := by
  have hcs : 1 ≤ inf.Capacity * inf.Step := by nlinarith
  have heq := saveTx_evicts L inf t params es d hcap hstep hprod ht hruns hsorted hcut hdig
  have hkeptSorted : (es.filter fun p => decide (t - inf.Capacity * inf.Step < p.1)).Pairwise
      fun a b => a.1 < b.1 := hsorted.sublist (List.filter_sublist _)
  refine ⟨heq, ?_, ?_, ?_, ?_, ?_⟩
  · rw [saveTx_descriptor, get_descriptor_render]
  · rw [heq, get_put_self]
  · intro p hp hgt hne
    rw [heq, get_put_ne _ _ _ _ (fun h => hne (fmtInt_inj _ _ h))]
    exact get_sample_render _ d hkeptSorted p (List.mem_filter.2 ⟨hp, by simpa using hgt⟩)
  · intro p hp hle
    rw [heq, get_put_ne _ _ _ _ (fun h => by have := fmtInt_inj _ _ h; omega)]
    apply get_absent_render
    intro q hq
    have := (List.mem_filter.1 hq).2
    simp only [decide_eq_true_eq] at this
    omega
  · intro e he
    rw [heq] at he
    rcases mem_put _ _ _ _ he with h | h
    · exact Or.inr (Or.inl h)
    · unfold renderSamples at h
      rcases List.mem_append.1 h with h | h
      · obtain ⟨p, hp, rfl⟩ := List.mem_map.1 h
        have hp2 := List.mem_filter.1 hp
        exact Or.inr (Or.inr ⟨p, hp2.1, by simpa using hp2.2, rfl⟩)
      · simp only [List.mem_singleton] at h
        exact Or.inl h

/-- C14 at the container of `Test_RRD` (capacity 5, step 2, samples at 1000 to 1008) and
the write at second 1014: the cutoff is 1004, the samples of 1006 and 1008 stay. -/
theorem eviction_exact_witness :
    saveTx ratLib testInfo 1014 [7, 14] (renderSamples testSamples (ratLib.marshal testInfo)) =
      put (fmtInt 1014) (formatValue ratLib [7, 14])
        (renderSamples (testSamples.filter fun p =>
          decide (1014 - testInfo.Capacity * testInfo.Step < p.1)) (ratLib.marshal testInfo)) ∧
    get INFO (saveTx ratLib testInfo 1014 [7, 14]
      (renderSamples testSamples (ratLib.marshal testInfo))) = some (ratLib.marshal testInfo) ∧
    get (fmtInt 1014) (saveTx ratLib testInfo 1014 [7, 14]
      (renderSamples testSamples (ratLib.marshal testInfo))) =
        some (formatValue ratLib [7, 14]) ∧
    (∀ p ∈ testSamples, 1014 - testInfo.Capacity * testInfo.Step < p.1 → p.1 ≠ 1014 →
      get (fmtInt p.1) (saveTx ratLib testInfo 1014 [7, 14]
        (renderSamples testSamples (ratLib.marshal testInfo))) = some p.2) ∧
    (∀ p ∈ testSamples, p.1 ≤ 1014 - testInfo.Capacity * testInfo.Step →
      get (fmtInt p.1) (saveTx ratLib testInfo 1014 [7, 14]
        (renderSamples testSamples (ratLib.marshal testInfo))) = none) ∧
    (∀ e ∈ saveTx ratLib testInfo 1014 [7, 14]
        (renderSamples testSamples (ratLib.marshal testInfo)),
      e = (INFO, ratLib.marshal testInfo) ∨ e = (fmtInt 1014, formatValue ratLib [7, 14]) ∨
        ∃ p ∈ testSamples, 1014 - testInfo.Capacity * testInfo.Step < p.1 ∧
          e = (fmtInt p.1, p.2)) :=
  eviction_exact ratLib testInfo 1014 [7, 14] testSamples (ratLib.marshal testInfo)
    (by decide) (by decide) (by decide) (by decide) (by decide!)
    (by simp [testSamples]) (by decide)
    (by
      intro p hp
      simp only [testSamples, List.mem_cons, List.mem_singleton, List.not_mem_nil,
        or_false] at hp
      rcases hp with rfl | rfl | rfl | rfl | rfl <;> decide!)

/-- C15 fails: the bucket of `Test_RRD` has capacity 5 and its container holds exactly
five samples, yet the capacity test of a further write is true, the eviction pass runs
and the write at second 1010 deletes the sample of second 1000. -/
theorem eviction_runs_at_capacity :
    (sampleCount filledContainer : Int) = testInfo.Capacity ∧
    evictionRuns testInfo filledContainer = true ∧
    get (fmtInt 1000) filledContainer = some (str "0|0") ∧
    get (fmtInt 1000) (saveTx ratLib testInfo 1010 [5, 10] filledContainer) = none := by
  decide!

/-- C15 (amended). In the write path the capacity check counts the descriptor entry
together with the samples, and its effect is that the eviction pass runs as soon as the
container holds `C` samples: for a bucket with capacity `C`, a write into a container
(in key order, with its descriptor) runs the eviction pass exactly when the container
holds `C` samples or more; with fewer than `C` samples the write only puts its entry. -/
theorem capacity_check {F : Type} (L : Lib F) (inf : info) (c : Container) (d : Bytes)
    (hs : KeysSorted c) (hd : get INFO c = some d) :
    (evictionRuns inf c = true ↔ inf.Capacity ≤ (sampleCount c : Int)) ∧
    (∀ (unix : Int) (params : List F), (sampleCount c : Int) < inf.Capacity →
      saveTx L inf unix params c = put (fmtInt unix) (formatValue L params) c) ∧
    (∀ (unix : Int) (params : List F), inf.Capacity ≤ (sampleCount c : Int) →
      saveTx L inf unix params c =
        put (fmtInt unix) (formatValue L params)
          (c.dropWhile (fun e =>
            bytesLe e.1 (fmtInt (wrap64 (unix - wrap64 (inf.Capacity * inf.Step))))))) := by
  have hlen := length_sampleCount c d hs hd
  have hiff : evictionRuns inf c = true ↔ inf.Capacity ≤ (sampleCount c : Int) := by
    unfold evictionRuns
    rw [decide_eq_true_eq, hlen]
    push_cast
    omega
  refine ⟨hiff, ?_, ?_⟩
  · intro unix params h
    rw [saveTx_evictionRuns, if_neg (fun hr => by have := hiff.1 hr; omega)]
  · intro unix params h
    rw [saveTx_evictionRuns, if_pos (hiff.2 h)]

/-- C15 (amended) at the container of `Test_RRD` with its five samples and capacity 5. -/
theorem capacity_check_witness :
    (evictionRuns testInfo filledContainer = true ↔
      testInfo.Capacity ≤ (sampleCount filledContainer : Int)) ∧
    (∀ (unix : Int) (params : List ℚ), (sampleCount filledContainer : Int) < testInfo.Capacity →
      saveTx ratLib testInfo unix params filledContainer =
        put (fmtInt unix) (formatValue ratLib params) filledContainer) ∧
    (∀ (unix : Int) (params : List ℚ), testInfo.Capacity ≤ (sampleCount filledContainer : Int) →
      saveTx ratLib testInfo unix params filledContainer =
        put (fmtInt unix) (formatValue ratLib params)
          (filledContainer.dropWhile (fun e =>
            bytesLe e.1 (fmtInt (wrap64 (unix - wrap64 (testInfo.Capacity * testInfo.Step))))))) :=
  capacity_check ratLib testInfo filledContainer (ratLib.marshal testInfo)
    (by unfold KeysSorted; decide!) (by decide!)

/-- C16 (the code at the scenario of `Test_RRD`). The Mode A query from 1004 to 1008 with
output step 2 scans the windows `[1004, 1006]` and `[1006, 1008]` with both ends: the
sample of second 1006 is scanned by both windows, and the sample of second 1008, outside
`[from, to)`, by the second; the means are `5/2` and `7/2` for the first data source, not
the `2` and `3` of a partition into half-open windows. -/
theorem modeA_windows_overlap :
    (scanWindow filledContainer (fmtInt 1004) (fmtInt 1006)).map Prod.fst =
      [fmtInt 1004, fmtInt 1006] ∧
    (scanWindow filledContainer (fmtInt 1006) (fmtInt 1008)).map Prod.fst =
      [fmtInt 1006, fmtInt 1008] ∧
    testBucket.GetStats ratLib filledStore 2 ⟨1004, 0⟩ ⟨1008, 0⟩ 2 =
      some (some ⟨[str "1005", str "1007"],
        [⟨str "a", [5 / 2, 7 / 2]⟩, ⟨str "b", [5, 7]⟩]⟩, none) := by
  decide!

/-- C17. The descriptor entry is excluded from the scan of a query in either mode: for
every container that holds samples under decimal timestamp keys and the descriptor under
its reserved key, the values a query hands to the parser are values of samples, and the
result of `GetStats`, failures included, does not depend on the value stored under the
reserved key. -/
theorem descriptor_excluded {F : Type} (L : Lib F) (s s2 : Storage) (rrd : RRDBucket)
    (db db2 : DB) (es : List (Int × Bytes)) (d d2 : Bytes) (fuel : Nat) (fromT toT : Time)
    (step : Int) (hdb : s.db = some db) (hdb2 : s2.db = some db2)
    (hc : get rrd.bucketName db = some (renderSamples es d))
    (hc2 : get rrd.bucketName db2 = some (renderSamples es d2)) :
    rrd.GetStats L s fuel fromT toT step = rrd.GetStats L s2 fuel fromT toT step ∧
    ∀ (inf : info) (ws : List (List Bytes)),
      scanned (renderSamples es d) inf fuel fromT toT step = some ws →
      ∀ w ∈ ws, ∀ v ∈ w, v ∈ es.map Prod.snd := by
  constructor
  · unfold RRDBucket.GetStats
    simp only [hdb, hdb2, hc, hc2, getRange, rangeA_descriptor L es d d2,
      rangeB_descriptor L es d d2]
  · intro inf ws h
    unfold scanned at h
    split_ifs at h
    · exact scannedA_samples es d _ _ _ _ ws h
    · exact scannedB_samples es d _ _ _ _ ws h

/-- C17 at the store of `Test_RRD` and a store with the same samples and another value
under the reserved key, for the query from 1000 to 1008 at step 2. -/
theorem descriptor_excluded_witness :
    testBucket.GetStats ratLib filledStore 8 ⟨1000, 0⟩ ⟨1008, 0⟩ 2 =
      testBucket.GetStats ratLib otherDescriptorStore 8 ⟨1000, 0⟩ ⟨1008, 0⟩ 2 ∧
    ∀ (inf : info) (ws : List (List Bytes)),
      scanned (renderSamples testSamples (ratLib.marshal testInfo)) inf 8 ⟨1000, 0⟩ ⟨1008, 0⟩
        2 = some ws →
      ∀ w ∈ ws, ∀ v ∈ w, v ∈ testSamples.map Prod.snd :=
  descriptor_excluded ratLib filledStore otherDescriptorStore testBucket
    (filledStore.db.getD []) (otherDescriptorStore.db.getD []) testSamples
    (ratLib.marshal testInfo) (str "x|y") 8 ⟨1000, 0⟩ ⟨1008, 0⟩ 2
    (by decide!) (by decide!) (by decide!) (by decide!)

/-- C18 fails: in byte order the key `INFO` follows the decimal key of second 1000, and
in the container of `Test_RRD` the first entry is the sample of second 1000 and the last
one is the descriptor. -/
theorem descriptor_not_first :
    bytesCompare INFO (fmtInt 1000) = Ordering.gt ∧
    filledContainer.head?.map Prod.fst = some (fmtInt 1000) ∧
    filledContainer.getLast?.map Prod.fst = some INFO := by
  decide!

/-- C18 (amended). The reserved key `INFO` is distinct from the decimal text of every
integer second, and in the key order (lexicographic on raw bytes) it follows every such
key; in a container in key order that holds decimal keys and the descriptor, the
descriptor is the last entry. -/
theorem descriptor_key_last (x : Int) (c : Container) (d : Bytes) (hs : KeysSorted c)
    (hkeys : ∀ e ∈ c, e.1 = INFO ∨ ∃ y : Int, e.1 = fmtInt y)
    (hd : get INFO c = some d) :
    fmtInt x ≠ INFO ∧ bytesCompare (fmtInt x) INFO = Ordering.lt ∧
    c.getLast? = some (INFO, d) :=
  ⟨fmtInt_ne_INFO x, fmtInt_lt_INFO x, getLast_descriptor c d hs hkeys hd⟩

/-- C18 (amended) at the container of `Test_RRD` and the second `-5`. -/
theorem descriptor_key_last_witness :
    fmtInt (-5) ≠ INFO ∧ bytesCompare (fmtInt (-5)) INFO = Ordering.lt ∧
    filledContainer.getLast? = some (INFO, ratLib.marshal testInfo) :=
  descriptor_key_last (-5) filledContainer (ratLib.marshal testInfo)
    (by unfold KeysSorted; decide!)
    (by
      have h : filledContainer = renderSamples
          [(1000, str "0|0"), (1002, str "1|2"), (1004, str "2|4"), (1006, str "3|6"),
            (1008, str "4|8")] (ratLib.marshal testInfo) := by decide!
      rw [h]
      intro e he
      unfold renderSamples at he
      rcases List.mem_append.1 he with he | he
      · obtain ⟨p, -, rfl⟩ := List.mem_map.1 he
        exact Or.inr ⟨p.1, rfl⟩
      · simp only [List.mem_singleton] at he
        exact Or.inl (by rw [he]))
    (by decide!)

/-- C19. The descriptor entry is preserved by every write: for every container, every
timestamp (any integer second, negative included), every capacity, step and reading
tuple, the entry under the reserved key is the same after the write transaction as
before it, whether or not the eviction pass runs; and when the persisted containers of a
store load, so do the persisted containers after any sequence of timestamped writes
through any handle. -/
theorem descriptor_preserved {F : Type} (L : Lib F) (s : Storage) (rrd : RRDBucket)
    (ws : List (Time × List F)) (db : DB) (dbpath : Bytes) (s0 : Storage)
    (hdb : s.db = some db)
    (hload : NewStorage L (fun _ => some db) dbpath = (some s0, none)) :
    (∀ (inf : info) (unix : Int) (params : List F) (c : Container),
      get INFO (saveTx L inf unix params c) = get INFO c) ∧
    ∃ db1 s1, (saveAll L rrd s ws).db = some db1 ∧
      NewStorage L (fun _ => some db1) dbpath = (some s1, none) := by
  refine ⟨fun inf unix params c => saveTx_descriptor L inf unix params c, ?_⟩
  obtain ⟨db1, hdb1, hok1⟩ := saveAll_loads L rrd ws s db hdb
    ((NewStorage_ok_iff L db dbpath).1 ⟨s0, hload⟩)
  obtain ⟨s1, hs1⟩ := (NewStorage_ok_iff L db1 dbpath).2 hok1
  exact ⟨db1, s1, hdb1, hs1⟩

/-- C19 at the store of `Test_RRD` with its five samples: the seven further writes at the
seconds 1000 to 1012 leave a store that loads. -/
theorem descriptor_preserved_witness :
    (∀ (inf : info) (unix : Int) (params : List ℚ) (c : Container),
      get INFO (saveTx ratLib inf unix params c) = get INFO c) ∧
    ∃ db1 s1, (saveAll ratLib testBucket filledStore cadenceWrites).db = some db1 ∧
      NewStorage ratLib (fun _ => some db1) (str "test.db") = (some s1, none) :=
  descriptor_preserved ratLib filledStore testBucket cadenceWrites (filledStore.db.getD [])
    (str "test.db")
    ⟨some (filledStore.db.getD []), str "test.db", [(str "testing", testBucket)]⟩
    (by decide!) (by decide!)

/-- C20 fails before 1970: a bucket of capacity 2 and step 1 written at the seconds -5, -4
and -3 (increasing, one step apart, one decimal digit each, as the cutoffs -7, -6 and -5)
retains one sample after the third write, not `min 3 2 = 2`: among negative keys the byte
order is the reverse of the numeric one, and the eviction pass deletes both earlier
samples. -/
theorem count_before_epoch :
    (oldWrites.map fun w => w.1.sec).Chain' (fun a b => a + oldInfo.Step = b) ∧
    (∀ w ∈ oldWrites, (fmtNat w.1.sec.natAbs).length = 1 ∧
      (fmtNat (w.1.sec - oldInfo.Capacity * oldInfo.Step).natAbs).length = 1) ∧
    (get (str "old") ((saveAll ratLib oldBucket oldStore (oldWrites.take 2)).db.getD [])).map
      sampleCount = some 2 ∧
    (get (str "old") ((saveAll ratLib oldBucket oldStore (oldWrites.take 3)).db.getD [])).map
      sampleCount = some 1 ∧
    min (3 : Int) oldInfo.Capacity = 2 := by
  refine ⟨by simp [oldWrites, oldInfo], ?_, by decide!, by decide!, by decide⟩
  intro w hw
  simp only [oldWrites, List.mem_cons, List.mem_singleton, List.not_mem_nil, or_false] at hw
  rcases hw with rfl | rfl | rfl <;> decide!

/-- C20 (amended). For a bucket with capacity `C ≥ 1` and step `S ≥ 1` that holds no
sample, and every sequence of timestamped writes whose timestamps are non-negative, have
the same number of decimal digits and increase by at least `S` from one write to the
next: after the `k`-th write the number of retained sample entries is at most `C`, and
when every write carries a tuple of the declared arity and the timestamps increase by
exactly `S`, it is exactly `min k C`. -/
theorem retained_count {F : Type} (L : Lib F) (s : Storage) (rrd : RRDBucket)
    (inf : info) (db : DB) (d : Bytes) (ws : List (Time × List F)) (D : Nat)
    (hinf : rrd.inf = some inf) (hdb : s.db = some db)
    (hc : get rrd.bucketName db = some [(INFO, d)])
    (hcap : 1 ≤ inf.Capacity) (hstep : 1 ≤ inf.Step)
    (hts : ∀ w ∈ ws, 0 ≤ w.1.sec ∧ w.1.sec < 2 ^ 63 ∧ (fmtInt w.1.sec).length = D)
    (hinc : (ws.map fun w => w.1.sec).Chain' (fun a b => a + inf.Step ≤ b))
    (k : Nat) (hk : k ≤ ws.length) :
    ∃ c, get rrd.bucketName ((saveAll L rrd s (ws.take k)).db.getD []) = some c ∧
      (sampleCount c : Int) ≤ inf.Capacity ∧
      ((∀ w ∈ ws, w.2.length = inf.Ds.length) →
        (ws.map fun w => w.1.sec).Chain' (fun a b => a + inf.Step = b) →
        (sampleCount c : Int) = min (k : Int) inf.Capacity) := by
  obtain ⟨db1, es1, hdb1, hc1, hlen1⟩ := saveAll_render_strict L rrd inf d D hinf hcap hstep
    (ws.take k) s db [] hdb hc List.Pairwise.nil (by simp) (by simpa using by omega)
    (fun w hw => hts w (List.mem_of_mem_take hw))
    (by rw [List.map_take]; exact List.Chain'.take hinc k) (by simp)
  refine ⟨renderSamples es1 d, ?_, ?_, ?_⟩
  · rw [hdb1]
    exact hc1
  · rw [sampleCount_render]
    exact hlen1
  · intro har hexact
    obtain ⟨db2, es2, hdb2, hc2, hlen2⟩ := saveAll_cadence L rrd inf d D hinf hcap hstep
      (ws.take k) s db []
      (((ws.take k).head?.map fun w => w.1.sec).getD 0) 0 hdb hc rfl (by simpa using by omega)
      (by simp)
      (fun w hw => hts w (List.mem_of_mem_take hw))
      (fun w hw => har w (List.mem_of_mem_take hw))
      (by rw [List.map_take]; exact List.Chain'.take hexact k)
      (by
        intro w hw
        rw [Option.mem_def.1 hw]
        simp)
    rw [hdb1] at hdb2
    have hdbEq : db1 = db2 := Option.some.inj hdb2
    rw [← hdbEq, hc1] at hc2
    have hcEq : renderSamples es1 d = renderSamples es2 d := Option.some.inj hc2
    rw [hcEq, sampleCount_render, hlen2, List.length_take, min_eq_left hk]
    push_cast
    rw [zero_add]

/-- C20 (amended) at the bucket of `Test_RRD` (capacity 5, step 2) written at the seconds
1000, 1002, ..., 1012: five samples are retained after the seven writes. -/
theorem retained_count_witness :
    ∃ c, get testBucket.bucketName
        ((saveAll ratLib testBucket testStore (cadenceWrites.take 7)).db.getD []) = some c ∧
      (sampleCount c : Int) ≤ testInfo.Capacity ∧
      ((∀ w ∈ cadenceWrites, w.2.length = testInfo.Ds.length) →
        (cadenceWrites.map fun w => w.1.sec).Chain' (fun a b => a + testInfo.Step = b) →
        (sampleCount c : Int) = min ((7 : Nat) : Int) testInfo.Capacity) :=
  retained_count ratLib testStore testBucket testInfo (testStore.db.getD [])
    (ratLib.marshal testInfo) cadenceWrites 4
    rfl (by decide) (by decide) (by decide) (by decide) (by decide)
    (by simp [cadenceWrites, testWrites, testInfo]) 7 (by decide)

end BoltRRD
